import Mathlib

/-!
# dice_lang: the distribution algebra of `src/calc.y` (as emitted into `build/y.tab.c`)

Shallow embedding of the hand-written engine that follows the grammar in
`y.tab.c` (lines 1707-2011): `createDistribution`, `isUncertain`, `getMax`,
`getTotalWeight`, `resolve`, `add`, `times`, `dice`, `avg`, `roll`,
`divideAndRoll` and `prob`.

Modelling conventions.

* `double` is modelled by `ℚ` (exact arithmetic); a division by zero, which in
  IEEE arithmetic gives an infinity or a NaN, has the value `0` here, so every
  statement about weights carries the hypothesis that the totals it divides by
  are nonzero.
* `int` is modelled by `Int`; arithmetic on `int` values is exact (signed overflow
  is undefined in C). A conversion `double -> int` truncates toward zero
  (`truncInt`). Where the converted value becomes a size or a count (`times`,
  `dice`) the conversion is `doubleToInt`: truncation when the value is in the
  range of the 32-bit `int`, and `INT_MIN` otherwise (the conversion is then
  undefined in C; `INT_MIN` is what the conversion instruction of x86-64
  delivers). A size of `INT_MIN` allocates no slot, so every access of such a
  table is the fault `Fault.outOfBounds`. In `prob` and `divideAndRoll` plain
  truncation is kept: the index of `prob`, when it is outside the range of
  `int`, is outside every table in both readings, and the threshold of
  `divideAndRoll` lies between 0 and `RAND_MAX` on every slice whose weights are
  non-negative and sum to `sectionWeight`. Statements that promise a
  table of `times` or `dice` carry the hypothesis that its size is in the range
  of `int`.
* The heap array `distribution` is a `List ℚ`.  Every array access is checked:
  an access outside the allocated block is undefined behaviour in C and is the
  fault `Fault.outOfBounds` here.
* `rand()` is a stream `rand : Nat → Nat` read at an explicit position; the
  library constant `RAND_MAX` is a parameter.
* The recursion of `divideAndRoll` is bounded by a fuel argument; running out of
  fuel is the fault `Fault.outOfFuel`.
* The diagnostic counter `active_distribution_count` and `deleteDistribution` do
  not influence any returned value and are left out of the functions of the
  first part; the part "The engine with its global state" gives the same
  functions with the counter, the released distributions and the position of
  the random source as an explicit state. The printing functions only produce
  output and are not modelled.
-/

namespace DiceLang

/-- Ways in which a run of the C code leaves the functional model. -/
inductive Fault where
  | outOfBounds
  | outOfFuel
deriving DecidableEq, Repr

/-- The `struct Distribution` of the source: `constant`, the heap array
`distribution` and the `int size`. -/
structure Distribution where
  constant : ℚ
  distribution : List ℚ
  size : Int
deriving DecidableEq, Repr

/-- Data-model invariant of section 3 of the specification: the weight array has
exactly `size` slots (so `size` is not negative). -/
def Distribution.WF (d : Distribution) : Prop :=
  (d.distribution.length : Int) = d.size

instance (d : Distribution) : Decidable d.WF := by
  unfold Distribution.WF; infer_instance

/-- Conversion `double -> int` of C: truncation toward zero. -/
def truncInt (q : ℚ) : Int :=
  if 0 ≤ q then ⌊q⌋ else ⌈q⌉

/-- The conversion of a `double` to the 32-bit `int` of the program, as in
`int const_1 = d->constant` and in the `int size` argument of `createDistribution`:
truncation toward zero when the truncated value is in the range of `int`. Outside that
range the conversion is undefined in C; the value taken here is the one that the
conversion instruction of x86-64 (`cvttsd2si`) delivers, `INT_MIN`. -/
def doubleToInt (q : ℚ) : Int :=
  if -2147483648 ≤ truncInt q ∧ truncInt q ≤ 2147483647 then truncInt q else -2147483648

/-- The value `q`, truncated toward zero, is a value of the 32-bit `int`: the conversion
`doubleToInt q` is defined in C. -/
def inIntRange (q : ℚ) : Prop :=
  -2147483648 ≤ truncInt q ∧ truncInt q ≤ 2147483647

instance (q : ℚ) : Decidable (inIntRange q) := by
  unfold inIntRange; infer_instance

/-- Checked read `a[i]`. -/
def readAt (a : List ℚ) (i : Int) : Except Fault ℚ :=
  if 0 ≤ i then
    match a.get? i.toNat with
    | some x => .ok x
    | none => .error .outOfBounds
  else .error .outOfBounds

/-- Checked write `a[i] = v`. -/
def writeAt (a : List ℚ) (i : Int) (v : ℚ) : Except Fault (List ℚ) :=
  if 0 ≤ i ∧ i.toNat < a.length then .ok (a.set i.toNat v) else .error .outOfBounds

/-- Checked compound assignment `a[i] += v`. -/
def accumAt (a : List ℚ) (i : Int) (v : ℚ) : Except Fault (List ℚ) := do
  let old ← readAt a i
  writeAt a i (old + v)

/-- The loop `for (int i = 0; i < n; ++i) body` acting on a state. -/
def forRange {σ : Type} (n : Nat) (init : σ) (body : Nat → σ → Except Fault σ) :
    Except Fault σ :=
  (List.range n).foldlM (fun s i => body i s) init

/-- Source `createDistribution(size, initVal, constant)`: `size` slots set to `initVal` when
`size > 0`, a null array otherwise; the `size` field is stored as given. -/
def createDistribution (size : Int) (initVal : ℚ) (constant : ℚ) : Distribution :=
  { constant := constant
    distribution := List.replicate size.toNat initVal
    size := size }

/-- Source `isUncertain`: `dist->size > 0`. -/
def isUncertain (dist : Distribution) : Bool :=
  decide (dist.size > 0)

/-- Source `getMax`: `dist->size + dist->constant`. -/
def getMax (dist : Distribution) : ℚ :=
  (dist.size : ℚ) + dist.constant

/-- Source `getTotalWeight`: running sum of the `size` slots. -/
def getTotalWeight (dist : Distribution) : Except Fault ℚ :=
  forRange dist.size.toNat (0 : ℚ) fun i totalWeight => do
    let x ← readAt dist.distribution i
    pure (totalWeight + x)

/-- Source `add`. -/
def add (d1 d2 : Distribution) : Except Fault Distribution := do
  let d3 := createDistribution (d1.size + d2.size) 0 (d1.constant + d2.constant)
  let weight1 ← getTotalWeight d1
  let weight2 ← getTotalWeight d2
  if isUncertain d1 && isUncertain d2 then
    let w ← forRange d1.size.toNat d3.distribution fun i acc =>
      forRange d2.size.toNat acc fun j acc => do
        let index : Int := (i : Int) + (j : Int) + 1
        let x ← readAt d1.distribution i
        let y ← readAt d2.distribution j
        accumAt acc index (x / weight1 * y / weight2)
    pure { d3 with distribution := w }
  else if isUncertain d1 then
    let w ← forRange d1.size.toNat d3.distribution fun i acc => do
      let x ← readAt d1.distribution i
      writeAt acc i x
    pure { d3 with distribution := w }
  else if isUncertain d2 then
    let w ← forRange d2.size.toNat d3.distribution fun i acc => do
      let x ← readAt d2.distribution i
      writeAt acc i x
    pure { d3 with distribution := w }
  else
    pure d3

/-- Source `times`. The product `getMax(d1) * getMax(d2)` is passed to the parameter
`int size` of `createDistribution`, and the casts `(int)` are applied to doubles: these
conversions are `doubleToInt`. -/
def times (d1 d2 : Distribution) : Except Fault Distribution := do
  if !isUncertain d1 && !isUncertain d2 then
    pure (createDistribution 0 0 (d1.constant * d2.constant))
  else
    let d3 := createDistribution (doubleToInt (getMax d1 * getMax d2)) 0 0
    if isUncertain d1 && isUncertain d2 then
      let weight1 ← getTotalWeight d1
      let weight2 ← getTotalWeight d2
      let w ← forRange d1.size.toNat d3.distribution fun i acc =>
        forRange d2.size.toNat acc fun j acc => do
          let value : Int :=
            ((i : Int) + doubleToInt d1.constant + 1) * ((j : Int) + doubleToInt d2.constant + 1)
          let x ← readAt d1.distribution i
          let y ← readAt d2.distribution j
          accumAt acc (value - 1) (x / weight1 * y / weight2)
      pure { d3 with distribution := w }
    else if isUncertain d1 then
      let weight1 ← getTotalWeight d1
      let w ← forRange d1.size.toNat d3.distribution fun i acc => do
        let x ← readAt d1.distribution i
        writeAt acc (doubleToInt ((((i : ℚ) + d1.constant) + 1) * d2.constant) - 1) (x / weight1)
      pure { d3 with distribution := w }
    else if isUncertain d2 then
      let weight2 ← getTotalWeight d2
      let w ← forRange d2.size.toNat d3.distribution fun i acc => do
        let x ← readAt d2.distribution i
        writeAt acc (doubleToInt ((((i : ℚ) + d2.constant) + 1) * d1.constant) - 1) (x / weight2)
      pure { d3 with distribution := w }
    else
      pure d3

/-- The random source: the library constant `RAND_MAX` and the stream of values
that successive calls of `rand()` return. -/
structure RandSource where
  RAND_MAX : Nat
  rand : Nat → Nat

/-- State of the scan loop of `divideAndRoll`. -/
structure ScanState where
  weight_section1 : ℚ
  weight_section2 : ℚ
  divider : Int
deriving DecidableEq, Repr

/-- Source `divideAndRoll`; `pos` is the number of calls of `rand()` made so far,
the result carries the new position. -/
def divideAndRoll (R : RandSource) :
    Nat → List ℚ → Int → Int → ℚ → Nat → Except Fault (Int × Nat)
  | 0, _, _, _, _, _ => .error .outOfFuel
  | fuel + 1, prob, start_index, end_index, sectionWeight, pos => do
    if start_index = end_index then
      pure (start_index, pos)
    else
      let s ← forRange (end_index - start_index + 1).toNat
          ({ weight_section1 := 0, weight_section2 := 0, divider := -1 } : ScanState)
          fun t s => do
            let i : Int := start_index + (t : Int)
            let x ← readAt prob i
            if s.divider = -1 then
              let w1 := s.weight_section1 + x
              if w1 > (1 / 2 : ℚ) * sectionWeight then
                pure { s with weight_section1 := w1, divider := i }
              else
                pure { s with weight_section1 := w1 }
            else
              pure { s with weight_section2 := s.weight_section2 + x }
      let s ←
        if s.weight_section2 = 0 then do
          let x ← readAt prob s.divider
          pure ({ weight_section1 := s.weight_section1 - x
                  weight_section2 := s.weight_section2 + x
                  divider := s.divider - 1 } : ScanState)
        else
          pure s
      let (start_index, end_index) :=
        if start_index = s.divider then (start_index + 1, end_index)
        else if end_index = s.divider then (start_index, end_index - 1)
        else (start_index, end_index)
      let prop_prob_section1 := s.weight_section1 / sectionWeight
      let rand_part1 : Int := truncInt ((R.RAND_MAX : ℚ) * prop_prob_section1)
      if (R.rand pos : Int) ≤ rand_part1 then
        divideAndRoll R fuel prob start_index s.divider s.weight_section1 (pos + 1)
      else
        divideAndRoll R fuel prob (s.divider + 1) end_index s.weight_section2 (pos + 1)

/-- Source `roll`. -/
def roll (R : RandSource) (fuel : Nat) (d : Distribution) (pos : Nat) :
    Except Fault (Distribution × Nat) := do
  if isUncertain d then
    let totalWeight ← getTotalWeight d
    let (idx, pos) ← divideAndRoll R fuel d.distribution 0 (d.size - 1) totalWeight pos
    pure (createDistribution 0 0 (d.constant + (1 + (idx : ℚ))), pos)
  else
    pure (createDistribution 0 0 d.constant, pos)

/-- Source `resolve` (the call of `print` produces output only). -/
def resolve (R : RandSource) (fuel : Nat) (d : Distribution) (pos : Nat) :
    Except Fault (ℚ × Nat) := do
  if isUncertain d then
    let (dn, pos) ← roll R fuel d pos
    pure (dn.constant, pos)
  else
    pure (d.constant, pos)

/-- Source `dice`. The assignments `const_1 = d->constant` convert a double to `int`:
`doubleToInt`. -/
def dice (R : RandSource) (fuel : Nat) (d1 d2 : Distribution) (pos : Nat) :
    Except Fault (Distribution × Nat) := do
  let (const_1, pos) ←
    if isUncertain d1 then do
      let (d_temp, pos) ← roll R fuel d1 pos
      pure (doubleToInt d_temp.constant, pos)
    else
      pure (doubleToInt d1.constant, pos)
  let (const_2, pos) ←
    if isUncertain d2 then do
      let (d_temp, pos) ← roll R fuel d2 pos
      pure (doubleToInt d_temp.constant, pos)
    else
      pure (doubleToInt d2.constant, pos)
  if const_1 = 0 ∨ const_2 = 0 then
    pure (createDistribution 0 0 0, pos)
  else
    let d3 := createDistribution const_2 1 0
    let d_add := createDistribution const_2 1 0
    let d3 ← forRange (const_1 - 1).toNat d3 fun _ d3 => add d3 d_add
    pure (d3, pos)

/-- Source `avg`. -/
def avg (d : Distribution) : Except Fault Distribution := do
  if !isUncertain d then
    pure (createDistribution 0 0 d.constant)
  else
    let (sum, totalWeight) ← forRange d.size.toNat ((0 : ℚ), (0 : ℚ)) fun i st => do
      let x ← readAt d.distribution i
      pure (st.1 + x * ((i : ℚ) + d.constant), st.2 + x)
    pure (createDistribution 0 0 (sum / totalWeight))

/-- Source `prob`. -/
def prob (R : RandSource) (fuel : Nat) (d1 d2 : Distribution) (pos : Nat) :
    Except Fault (Distribution × Nat) := do
  let (const_1, pos) ←
    if isUncertain d1 then do
      let (_, pos) ← roll R fuel d1 pos
      pure (d1.constant, pos)
    else
      pure (d1.constant, pos)
  if isUncertain d2 then
    if const_1 < getMax d2 then
      let probability ← readAt d2.distribution (truncInt (const_1 - d2.constant))
      let total ← getTotalWeight d2
      pure (createDistribution 0 0 (probability / total), pos)
    else
      pure (createDistribution 0 0 0, pos)
  else
    if const_1 = d2.constant then
      pure (createDistribution 0 0 1, pos)
    else
      pure (createDistribution 0 0 0, pos)

/-! ## Specification-side definitions

These follow the wording of the specification (section 3: slot `i` of an
uncertain distribution is the outcome `constant + i + 1`, a certain distribution
is the single value `constant`) and are what the source functions are compared
with. -/

/-- Specification side: the outcome values of a distribution, each with its
probability: `constant + i + 1` with probability `weights[i] / totalWeight` for
an uncertain distribution, the single value `constant` with probability 1 for a
certain one. -/
def outcomeTable (d : Distribution) : List (ℚ × ℚ) :=
  if isUncertain d then
    (List.range d.size.toNat).map fun (i : Nat) =>
      (d.constant + (i : ℚ) + 1, d.distribution.getD i 0 / d.distribution.sum)
  else
    [(d.constant, 1)]

/-- Specification side: the probability that the product of independent outcomes
of `d1` and `d2` equals `v`, as the sum of the joint probabilities of the pairs
of outcome values `(v1, v2)` with `v1 * v2 = v`. -/
def productMass (d1 d2 : Distribution) (v : ℚ) : ℚ :=
  ((outcomeTable d1).map fun p1 =>
    ((outcomeTable d2).map fun p2 =>
      if p1.1 * p2.1 = v then p1.2 * p2.2 else 0).sum).sum

/-- Specification side: the number of `n`-tuples of faces in `1..m` (the face of
die `i` is `f i + 1`) whose sum is `s`. -/
def tupleCount (m n s : Nat) : Nat :=
  (Finset.univ.filter (fun f : Fin n → Fin m => ∑ i, ((f i : Nat) + 1) = s)).card

/-! ## Concrete distributions used to instantiate the theorems -/

/-- Outcomes 3, 4, 5 with weights 1/2, 0, 3/2 (total weight 2). -/
def sampleSkewed : Distribution := ⟨2, [1 / 2, 0, 3 / 2], 3⟩

/-- Outcomes 1, 2 with weights 3, 1 (total weight 4). -/
def samplePair : Distribution := ⟨0, [3, 1], 2⟩

/-- The certain value 5. -/
def sampleFive : Distribution := createDistribution 0 0 5

/-- The certain value 7/2. -/
def sampleHalf : Distribution := createDistribution 0 0 (7 / 2)

/-- The value of `1d1 + 0.5`: the single outcome 3/2. -/
def sampleShifted : Distribution := ⟨1 / 2, [1], 1⟩

/-- The certain value 3/2. -/
def sampleThreeHalves : Distribution := createDistribution 0 0 (3 / 2)

/-- The value of `1d1 + 3000000000`: one outcome, `3000000001`, beyond the range of `int`. -/
def sampleLarge : Distribution := ⟨3000000000, [1], 1⟩

/-- The value of `1d1 + 65535`: one outcome, `65536 = 2 ^ 16`. -/
def sampleWide : Distribution := ⟨65535, [1], 1⟩

/-- The value of `1d1`: one outcome, 1. -/
def sampleOne : Distribution := ⟨0, [1], 1⟩

/-- A random source whose every draw is 0. -/
def sampleLowDraws : RandSource := ⟨2147483647, fun _ => 0⟩

/-- A random source whose every draw is `RAND_MAX`. -/
def sampleHighDraws : RandSource := ⟨2147483647, fun _ => 2147483647⟩

/-! ## The steps of one level of `divideAndRoll`

The same source lines as in `divideAndRoll`, one step at a time, so that the scan,
the degenerate-split guard and the arguments of the recursive call can be named;
`divideAndRoll_succ` shows that `divideAndRoll` is their composition. -/

/-- Source `divideAndRoll`, the scan loop (`for(int i = start_index; i <= end_index; i++)`). -/
def scanSections (prob : List ℚ) (start_index end_index : Int) (sectionWeight : ℚ) :
    Except Fault ScanState :=
  forRange (end_index - start_index + 1).toNat
    ({ weight_section1 := 0, weight_section2 := 0, divider := -1 } : ScanState)
    fun t s => do
      let i : Int := start_index + (t : Int)
      let x ← readAt prob i
      if s.divider = -1 then
        let w1 := s.weight_section1 + x
        if w1 > (1 / 2 : ℚ) * sectionWeight then
          pure { s with weight_section1 := w1, divider := i }
        else
          pure { s with weight_section1 := w1 }
      else
        pure { s with weight_section2 := s.weight_section2 + x }

/-- Source `divideAndRoll`, the edge case `if(weight_section2 == 0)`: the element at the
divider is moved to the second section. -/
def degenerateGuard (prob : List ℚ) (s : ScanState) : Except Fault ScanState :=
  if s.weight_section2 = 0 then do
    let x ← readAt prob s.divider
    pure ({ weight_section1 := s.weight_section1 - x
            weight_section2 := s.weight_section2 + x
            divider := s.divider - 1 } : ScanState)
  else
    pure s

/-- Arguments of a recursive call of `divideAndRoll`, with the position of the random
source after the draw. -/
structure SamplerCall where
  start_index : Int
  end_index : Int
  sectionWeight : ℚ
  pos : Nat
deriving DecidableEq, Repr

/-- Source `divideAndRoll`, from the adjustment of the bounds to the choice of the
recursive call: the draw `rand()` is compared with `rand_part1`. -/
def chooseSection (R : RandSource) (s : ScanState) (start_index end_index : Int)
    (sectionWeight : ℚ) (pos : Nat) : SamplerCall :=
  let (start_index, end_index) :=
    if start_index = s.divider then (start_index + 1, end_index)
    else if end_index = s.divider then (start_index, end_index - 1)
    else (start_index, end_index)
  let prop_prob_section1 := s.weight_section1 / sectionWeight
  let rand_part1 : Int := truncInt ((R.RAND_MAX : ℚ) * prop_prob_section1)
  if (R.rand pos : Int) ≤ rand_part1 then
    { start_index := start_index, end_index := s.divider,
      sectionWeight := s.weight_section1, pos := pos + 1 }
  else
    { start_index := s.divider + 1, end_index := end_index,
      sectionWeight := s.weight_section2, pos := pos + 1 }

/-- One level of `divideAndRoll` on a slice with `start_index != end_index`: the
recursive call that it makes. -/
def nextCall (R : RandSource) (prob : List ℚ) (start_index end_index : Int)
    (sectionWeight : ℚ) (pos : Nat) : Except Fault SamplerCall := do
  let s ← scanSections prob start_index end_index sectionWeight
  let s ← degenerateGuard prob s
  pure (chooseSection R s start_index end_index sectionWeight pos)

/-- A random source whose every draw is 1. -/
def sampleOneDraws : RandSource := ⟨2147483647, fun _ => 1⟩
/-! ## The engine with its global state

The same source functions once more, now with the state that the functions of the
first part leave out: the diagnostic counter `active_distribution_count`, the
distributions handed to `deleteDistribution` (in the order of the calls) and the
number of calls of `rand()` made so far.  `createDistribution` and
`deleteDistribution` are the only functions that touch the counter. -/

/-- The global state of the engine. -/
structure World where
  active_distribution_count : Int
  released : List Distribution
  pos : Nat
deriving DecidableEq, Repr

/-- Source `createDistribution` with its effect `active_distribution_count++`. -/
def createDistributionL (size : Int) (initVal : ℚ) (constant : ℚ) (w : World) :
    Distribution × World :=
  (createDistribution size initVal constant,
    { w with active_distribution_count := w.active_distribution_count + 1 })

/-- Source `deleteDistribution`: the distribution is freed and
`active_distribution_count--`. -/
def deleteDistributionL (dist : Distribution) (w : World) : World :=
  { w with active_distribution_count := w.active_distribution_count - 1
           released := w.released ++ [dist] }

/-- Source `add`, with the global state. -/
def addL (d1 d2 : Distribution) (w : World) : Except Fault (Distribution × World) := do
  let (d3, w) := createDistributionL (d1.size + d2.size) 0 (d1.constant + d2.constant) w
  let weight1 ← getTotalWeight d1
  let weight2 ← getTotalWeight d2
  if isUncertain d1 && isUncertain d2 then
    let a ← forRange d1.size.toNat d3.distribution fun i acc =>
      forRange d2.size.toNat acc fun j acc => do
        let index : Int := (i : Int) + (j : Int) + 1
        let x ← readAt d1.distribution i
        let y ← readAt d2.distribution j
        accumAt acc index (x / weight1 * y / weight2)
    pure ({ d3 with distribution := a }, w)
  else if isUncertain d1 then
    let a ← forRange d1.size.toNat d3.distribution fun i acc => do
      let x ← readAt d1.distribution i
      writeAt acc i x
    pure ({ d3 with distribution := a }, w)
  else if isUncertain d2 then
    let a ← forRange d2.size.toNat d3.distribution fun i acc => do
      let x ← readAt d2.distribution i
      writeAt acc i x
    pure ({ d3 with distribution := a }, w)
  else
    pure (d3, w)

/-- Source `times`, with the global state. -/
def timesL (d1 d2 : Distribution) (w : World) : Except Fault (Distribution × World) := do
  if !isUncertain d1 && !isUncertain d2 then
    pure (createDistributionL 0 0 (d1.constant * d2.constant) w)
  else
    let (d3, w) := createDistributionL (doubleToInt (getMax d1 * getMax d2)) 0 0 w
    if isUncertain d1 && isUncertain d2 then
      let weight1 ← getTotalWeight d1
      let weight2 ← getTotalWeight d2
      let a ← forRange d1.size.toNat d3.distribution fun i acc =>
        forRange d2.size.toNat acc fun j acc => do
          let value : Int :=
            ((i : Int) + doubleToInt d1.constant + 1) * ((j : Int) + doubleToInt d2.constant + 1)
          let x ← readAt d1.distribution i
          let y ← readAt d2.distribution j
          accumAt acc (value - 1) (x / weight1 * y / weight2)
      pure ({ d3 with distribution := a }, w)
    else if isUncertain d1 then
      let weight1 ← getTotalWeight d1
      let a ← forRange d1.size.toNat d3.distribution fun i acc => do
        let x ← readAt d1.distribution i
        writeAt acc (doubleToInt ((((i : ℚ) + d1.constant) + 1) * d2.constant) - 1) (x / weight1)
      pure ({ d3 with distribution := a }, w)
    else if isUncertain d2 then
      let weight2 ← getTotalWeight d2
      let a ← forRange d2.size.toNat d3.distribution fun i acc => do
        let x ← readAt d2.distribution i
        writeAt acc (doubleToInt ((((i : ℚ) + d2.constant) + 1) * d1.constant) - 1) (x / weight2)
      pure ({ d3 with distribution := a }, w)
    else
      pure (d3, w)

/-- Source `roll`, with the global state. -/
def rollL (R : RandSource) (fuel : Nat) (d : Distribution) (w : World) :
    Except Fault (Distribution × World) := do
  if isUncertain d then
    let totalWeight ← getTotalWeight d
    let (idx, pos) ← divideAndRoll R fuel d.distribution 0 (d.size - 1) totalWeight w.pos
    pure (createDistributionL 0 0 (d.constant + (1 + (idx : ℚ))) { w with pos := pos })
  else
    pure (createDistributionL 0 0 d.constant w)

/-- Source `resolve`, with the global state (the call of `print` produces output only). -/
def resolveL (R : RandSource) (fuel : Nat) (d : Distribution) (w : World) :
    Except Fault (ℚ × World) := do
  if isUncertain d then
    let (dn, w) ← rollL R fuel d w
    let result := dn.constant
    let w := deleteDistributionL dn w
    pure (result, w)
  else
    pure (d.constant, w)

/-- Source `dice`, with the global state. -/
def diceL (R : RandSource) (fuel : Nat) (d1 d2 : Distribution) (w : World) :
    Except Fault (Distribution × World) := do
  let (const_1, w) ←
    if isUncertain d1 then do
      let (d_temp, w) ← rollL R fuel d1 w
      let const_1 := doubleToInt d_temp.constant
      let w := deleteDistributionL d_temp w
      pure (const_1, w)
    else
      pure (doubleToInt d1.constant, w)
  let (const_2, w) ←
    if isUncertain d2 then do
      let (d_temp, w) ← rollL R fuel d2 w
      let const_2 := doubleToInt d_temp.constant
      let w := deleteDistributionL d_temp w
      pure (const_2, w)
    else
      pure (doubleToInt d2.constant, w)
  if const_1 = 0 ∨ const_2 = 0 then
    pure (createDistributionL 0 0 0 w)
  else
    let (d3, w) := createDistributionL const_2 1 0 w
    let (d_add, w) := createDistributionL const_2 1 0 w
    let (d3, w) ← forRange (const_1 - 1).toNat (d3, w) fun _ st => do
      let (d3_temp, w) ← addL st.1 d_add st.2
      let w := deleteDistributionL st.1 w
      pure (d3_temp, w)
    let w := deleteDistributionL d_add w
    pure (d3, w)

/-- Source `avg`, with the global state. -/
def avgL (d : Distribution) (w : World) : Except Fault (Distribution × World) := do
  if !isUncertain d then
    pure (createDistributionL 0 0 d.constant w)
  else
    let (sum, totalWeight) ← forRange d.size.toNat ((0 : ℚ), (0 : ℚ)) fun i st => do
      let x ← readAt d.distribution i
      pure (st.1 + x * ((i : ℚ) + d.constant), st.2 + x)
    pure (createDistributionL 0 0 (sum / totalWeight) w)

/-- Source `prob`, with the global state. -/
def probL (R : RandSource) (fuel : Nat) (d1 d2 : Distribution) (w : World) :
    Except Fault (Distribution × World) := do
  let (const_1, w) ←
    if isUncertain d1 then do
      let (d_temp, w) ← rollL R fuel d1 w
      let const_1 := d1.constant
      let w := deleteDistributionL d_temp w
      pure (const_1, w)
    else
      pure (d1.constant, w)
  if isUncertain d2 then
    if const_1 < getMax d2 then
      let probability ← readAt d2.distribution (truncInt (const_1 - d2.constant))
      let total ← getTotalWeight d2
      pure (createDistributionL 0 0 (probability / total) w)
    else
      pure (createDistributionL 0 0 0 w)
  else
    if const_1 = d2.constant then
      pure (createDistributionL 0 0 1 w)
    else
      pure (createDistributionL 0 0 0 w)

/-! ## The expressions of the grammar and their semantic actions -/

/-- The parse trees of the grammar of `calc.y`: literals, `+`, `*`, the dice operator
in its binary form and in its unary form with an implicit count 1, brackets, and
the functions `roll`, `avg` and `prob`. -/
inductive Expr where
  | integer (i : Int)
  | double (f : ℚ)
  | plus (a b : Expr)
  | times (a b : Expr)
  | dice (a b : Expr)
  | diceOne (a : Expr)
  | bracket (a : Expr)
  | roll (a : Expr)
  | avg (a : Expr)
  | prob (a b : Expr)
deriving Repr

/-- The semantic actions of `yyparse` (cases 5 to 18): the operands are reduced from
left to right, the operator is called, then its operands are deleted. -/
def evalExpr (R : RandSource) (fuel : Nat) : Expr → World → Except Fault (Distribution × World)
  | .integer i, w => pure (createDistributionL 0 0 (i : ℚ) w)
  | .double f, w => pure (createDistributionL 0 0 f w)
  | .plus a b, w => do
    let (d1, w) ← evalExpr R fuel a w
    let (d2, w) ← evalExpr R fuel b w
    let (d3, w) ← addL d1 d2 w
    let w := deleteDistributionL d1 w
    let w := deleteDistributionL d2 w
    pure (d3, w)
  | .times a b, w => do
    let (d1, w) ← evalExpr R fuel a w
    let (d2, w) ← evalExpr R fuel b w
    let (d3, w) ← timesL d1 d2 w
    let w := deleteDistributionL d1 w
    let w := deleteDistributionL d2 w
    pure (d3, w)
  | .dice a b, w => do
    let (d1, w) ← evalExpr R fuel a w
    let (d2, w) ← evalExpr R fuel b w
    let (d3, w) ← diceL R fuel d1 d2 w
    let w := deleteDistributionL d1 w
    let w := deleteDistributionL d2 w
    pure (d3, w)
  | .diceOne a, w => do
    let (d2, w) ← evalExpr R fuel a w
    let (d1, w) := createDistributionL 0 0 1 w
    let (d3, w) ← diceL R fuel d1 d2 w
    let w := deleteDistributionL d1 w
    let w := deleteDistributionL d2 w
    pure (d3, w)
  | .bracket a, w => evalExpr R fuel a w
  | .roll a, w => do
    let (d, w) ← evalExpr R fuel a w
    let (r, w) ← rollL R fuel d w
    let w := deleteDistributionL d w
    pure (r, w)
  | .avg a, w => do
    let (d, w) ← evalExpr R fuel a w
    let (r, w) ← avgL d w
    let w := deleteDistributionL d w
    pure (r, w)
  | .prob a b, w => do
    let (d1, w) ← evalExpr R fuel a w
    let (d2, w) ← evalExpr R fuel b w
    let (r, w) ← probL R fuel d1 d2 w
    let w := deleteDistributionL d1 w
    let w := deleteDistributionL d2 w
    pure (r, w)

/-- The semantic action of a line (case 4 of `yyparse`): `resolve` the value of the
expression, delete it, print the result. -/
def evalLine (R : RandSource) (fuel : Nat) (e : Expr) (w : World) :
    Except Fault (ℚ × World) := do
  let (d, w) ← evalExpr R fuel e w
  let (result, w) ← resolveL R fuel d w
  let w := deleteDistributionL d w
  pure (result, w)

/-- The state of a freshly started program. -/
def initialWorld : World := { active_distribution_count := 0, released := [], pos := 0 }

/-- The line `2d6 + avg(d4) * 3`. -/
def sampleLine : Expr :=
  .plus (.dice (.integer 2) (.integer 6)) (.times (.avg (.diceOne (.integer 4))) (.integer 3))
/-! ## Specification-side definitions for the index policy of `times` -/

/-- Specification side: the output index `trunc(v1 * v2) - 1` of the product of the
outcome values `v1` and `v2`. -/
def productIndex (v1 v2 : ℚ) : Int :=
  truncInt (v1 * v2) - 1

/-- Specification side: `times` in which every write goes to `productIndex v1 v2`, where
`v1` and `v2` are the outcome values, `constant + i + 1` for slot `i` of an
uncertain operand and `constant` for a certain one; everything else is as in
`times`. -/
def timesByProductIndex (d1 d2 : Distribution) : Except Fault Distribution := do
  if !isUncertain d1 && !isUncertain d2 then
    pure (createDistribution 0 0 (d1.constant * d2.constant))
  else
    let d3 := createDistribution (doubleToInt (getMax d1 * getMax d2)) 0 0
    if isUncertain d1 && isUncertain d2 then
      let weight1 ← getTotalWeight d1
      let weight2 ← getTotalWeight d2
      let w ← forRange d1.size.toNat d3.distribution fun i acc =>
        forRange d2.size.toNat acc fun j acc => do
          let x ← readAt d1.distribution i
          let y ← readAt d2.distribution j
          accumAt acc (productIndex (d1.constant + (i : ℚ) + 1) (d2.constant + (j : ℚ) + 1))
            (x / weight1 * y / weight2)
      pure { d3 with distribution := w }
    else if isUncertain d1 then
      let weight1 ← getTotalWeight d1
      let w ← forRange d1.size.toNat d3.distribution fun i acc => do
        let x ← readAt d1.distribution i
        writeAt acc (productIndex (d1.constant + (i : ℚ) + 1) d2.constant) (x / weight1)
      pure { d3 with distribution := w }
    else if isUncertain d2 then
      let weight2 ← getTotalWeight d2
      let w ← forRange d2.size.toNat d3.distribution fun i acc => do
        let x ← readAt d2.distribution i
        writeAt acc (productIndex d1.constant (d2.constant + (i : ℚ) + 1)) (x / weight2)
      pure { d3 with distribution := w }
    else
      pure d3

/-- Specification side: `times` in which the writes of the two one-certain branches go to
`productIndex v1 v2` and the writes of the both-uncertain branch go to
`(i + trunc c1 + 1) * (j + trunc c2 + 1) - 1`, each constant being truncated before the
multiplication; everything else is as in `times`. -/
def timesByTruncatedConstants (d1 d2 : Distribution) : Except Fault Distribution := do
  if !isUncertain d1 && !isUncertain d2 then
    pure (createDistribution 0 0 (d1.constant * d2.constant))
  else
    let d3 := createDistribution (doubleToInt (getMax d1 * getMax d2)) 0 0
    if isUncertain d1 && isUncertain d2 then
      let weight1 ← getTotalWeight d1
      let weight2 ← getTotalWeight d2
      let w ← forRange d1.size.toNat d3.distribution fun i acc =>
        forRange d2.size.toNat acc fun j acc => do
          let x ← readAt d1.distribution i
          let y ← readAt d2.distribution j
          accumAt acc
            (((i : Int) + truncInt d1.constant + 1) * ((j : Int) + truncInt d2.constant + 1) - 1)
            (x / weight1 * y / weight2)
      pure { d3 with distribution := w }
    else if isUncertain d1 then
      let weight1 ← getTotalWeight d1
      let w ← forRange d1.size.toNat d3.distribution fun i acc => do
        let x ← readAt d1.distribution i
        writeAt acc (productIndex (d1.constant + (i : ℚ) + 1) d2.constant) (x / weight1)
      pure { d3 with distribution := w }
    else if isUncertain d2 then
      let weight2 ← getTotalWeight d2
      let w ← forRange d2.size.toNat d3.distribution fun i acc => do
        let x ← readAt d2.distribution i
        writeAt acc (productIndex d1.constant (d2.constant + (i : ℚ) + 1)) (x / weight2)
      pure { d3 with distribution := w }
    else
      pure d3

/-! ## Specification-side definitions for the algebraic laws of `add` and `prob` -/

/-- The normalized convolution of two weight tables: slot `k` holds the sum, over the pairs
`i + j + 1 = k`, of `a[i] / sum a * b[j] / sum b`. It is the table that `add` builds for two
uncertain operands, written as a function of the two tables alone. -/
def convWeights (a b : List ℚ) : List ℚ :=
  (List.range (a.length + b.length)).map fun k =>
    ∑ i ∈ Finset.range a.length, ∑ j ∈ Finset.range b.length,
      if i + j + 1 = k then a.getD i 0 / a.sum * b.getD j 0 / b.sum else 0

/-- The table that `add` returns, as a function of the operands: the normalized convolution
when both are uncertain, the table of the uncertain operand when exactly one is, and no
table when both are certain. -/
def addTable (d1 d2 : Distribution) : List ℚ :=
  if isUncertain d1 && isUncertain d2 then convWeights d1.distribution d2.distribution
  else if isUncertain d1 then d1.distribution
  else if isUncertain d2 then d2.distribution
  else []

/-- The sum of C33: the constants of `prob (createDistribution 0 0 v) d2` added up over
the values `v = d2.constant + 1, ..., d2.constant + d2.size` of the domain of `d2`. -/
def probOverDomain (R : RandSource) (fuel : Nat) (d2 : Distribution) (pos : Nat) :
    Except Fault ℚ :=
  forRange d2.size.toNat (0 : ℚ) fun t acc => do
    let (r, _) ← prob R fuel (createDistribution 0 0 (d2.constant + 1 + (t : ℚ))) d2 pos
    pure (acc + r.constant)

/-! ## Generic facts about the fault monad, checked accesses and loops -/

@[simp]
theorem ok_bind {α β : Type} (a : α) (f : α → Except Fault β) :
    (Except.ok a >>= f) = f a := rfl

@[simp]
theorem error_bind {α β : Type} (e : Fault) (f : α → Except Fault β) :
    ((Except.error e : Except Fault α) >>= f) = Except.error e := rfl

@[simp]
theorem pure_eq_ok {α : Type} (a : α) : (pure a : Except Fault α) = Except.ok a := rfl

theorem readAt_nat (a : List ℚ) (i : Nat) (h : i < a.length) :
    readAt a (i : Int) = .ok (a.getD i 0) := by
  simp [readAt, List.getD, List.getElem?_eq_getElem h]

theorem writeAt_nat (a : List ℚ) (i : Nat) (v : ℚ) (h : i < a.length) :
    writeAt a (i : Int) v = .ok (a.set i v) := by
  simp [writeAt, h]

theorem accumAt_nat (a : List ℚ) (i : Nat) (v : ℚ) (h : i < a.length) :
    accumAt a (i : Int) v = .ok (a.set i (a.getD i 0 + v)) := by
  simp [accumAt, readAt_nat a i h, writeAt_nat a i _ h]

theorem getD_set (l : List ℚ) (n k : Nat) (v : ℚ) (h : n < l.length) :
    (l.set n v).getD k 0 = if n = k then v else l.getD k 0 := by
  simp only [List.getD_eq_getElem?_getD, List.getElem?_set]
  by_cases hnk : n = k
  · subst hnk; simp [h]
  · simp [hnk]

@[simp]
theorem forRange_zero {σ : Type} (init : σ) (body : Nat → σ → Except Fault σ) :
    forRange 0 init body = .ok init := rfl

theorem forRange_succ {σ : Type} (n : Nat) (init : σ) (body : Nat → σ → Except Fault σ) :
    forRange (n + 1) init body = forRange n init body >>= body n := by
  unfold forRange
  rw [List.range_succ, List.foldlM_append]
  simp only [List.foldlM_cons, List.foldlM_nil, bind_pure]

/-- Invariant rule for `forRange`: a loop whose every step succeeds and keeps
the invariant runs to completion and establishes the invariant at `n`. -/
theorem forRange_inv {σ : Type} (P : Nat → σ → Prop) (n : Nat) (init : σ)
    (body : Nat → σ → Except Fault σ) (h0 : P 0 init)
    (hstep : ∀ t, t < n → ∀ s, P t s → ∃ s', body t s = .ok s' ∧ P (t + 1) s') :
    ∃ s', forRange n init body = .ok s' ∧ P n s' := by
  induction n with
  | zero => exact ⟨init, rfl, h0⟩
  | succ n ih =>
    obtain ⟨s, hs, hP⟩ := ih (fun t ht s hs => hstep t (Nat.lt_succ_of_lt ht) s hs)
    obtain ⟨s', hs', hP'⟩ := hstep n (Nat.lt_succ_self n) s hP
    exact ⟨s', by rw [forRange_succ, hs, ok_bind, hs'], hP'⟩

/-- A loop of in-bounds compound assignments `acc[idx t] += val t`: it completes,
keeps the length, and slot `k` has gained the values sent to it. -/
theorem accum_loop (n : Nat) (acc : List ℚ) (idx : Nat → Nat) (val : Nat → ℚ)
    (body : Nat → List ℚ → Except Fault (List ℚ))
    (hbody : ∀ t, t < n → ∀ s : List ℚ, s.length = acc.length →
      body t s = accumAt s (idx t : Int) (val t))
    (hidx : ∀ t, t < n → idx t < acc.length) :
    ∃ acc', forRange n acc body = .ok acc' ∧ acc'.length = acc.length ∧
      ∀ k : Nat, acc'.getD k 0 =
        acc.getD k 0 + ∑ t ∈ Finset.range n, if idx t = k then val t else 0 := by
  refine forRange_inv
    (fun t s => s.length = acc.length ∧ ∀ k : Nat, s.getD k 0 =
        acc.getD k 0 + ∑ t' ∈ Finset.range t, if idx t' = k then val t' else 0)
    n acc body ⟨rfl, fun k => by simp⟩ ?_
  intro t ht s ⟨hlen, hs⟩
  have hi : idx t < s.length := hlen ▸ hidx t ht
  refine ⟨_, by rw [hbody t ht s hlen, accumAt_nat s _ _ hi], by simp [hlen], ?_⟩
  intro k
  rw [getD_set _ _ _ _ hi, Finset.sum_range_succ, hs k]
  by_cases hk : idx t = k
  · simp only [hk, if_true]; rw [hs k]; ring
  · simp [hk]

/-- Two nested loops of in-bounds compound assignments. -/
theorem accum_loop2 (n m : Nat) (acc : List ℚ) (idx : Nat → Nat → Nat) (val : Nat → Nat → ℚ)
    (body : Nat → Nat → List ℚ → Except Fault (List ℚ))
    (hbody : ∀ i, i < n → ∀ j, j < m → ∀ s : List ℚ, s.length = acc.length →
      body i j s = accumAt s (idx i j : Int) (val i j))
    (hidx : ∀ i, i < n → ∀ j, j < m → idx i j < acc.length) :
    ∃ acc', forRange n acc (fun i s => forRange m s (body i)) = .ok acc' ∧
      acc'.length = acc.length ∧
      ∀ k : Nat, acc'.getD k 0 = acc.getD k 0 +
        ∑ i ∈ Finset.range n, ∑ j ∈ Finset.range m, if idx i j = k then val i j else 0 := by
  refine forRange_inv
    (fun t s => s.length = acc.length ∧ ∀ k : Nat, s.getD k 0 = acc.getD k 0 +
        ∑ i ∈ Finset.range t, ∑ j ∈ Finset.range m, if idx i j = k then val i j else 0)
    n acc _ ⟨rfl, fun k => by simp⟩ ?_
  intro t ht s ⟨hlen, hs⟩
  obtain ⟨s', hrun, hlen', hs'⟩ := accum_loop m s (idx t) (val t) (body t)
    (fun j hj s0 h0 => hbody t ht j hj s0 (h0.trans hlen))
    (fun j hj => hlen ▸ hidx t ht j hj)
  refine ⟨s', hrun, hlen'.trans hlen, fun k => ?_⟩
  rw [hs' k, hs k, Finset.sum_range_succ]; ring

/-- A loop of in-bounds plain assignments `acc[idx t] = val t` into a zeroed
array, no slot being written twice. -/
theorem write_loop (n : Nat) (acc : List ℚ) (idx : Nat → Nat) (val : Nat → ℚ)
    (body : Nat → List ℚ → Except Fault (List ℚ))
    (hbody : ∀ t, t < n → ∀ s : List ℚ, s.length = acc.length →
      body t s = writeAt s (idx t : Int) (val t))
    (hidx : ∀ t, t < n → idx t < acc.length)
    (hinj : ∀ t, t < n → ∀ u, u < t → idx u ≠ idx t)
    (hzero : ∀ k : Nat, acc.getD k 0 = 0) :
    ∃ acc', forRange n acc body = .ok acc' ∧ acc'.length = acc.length ∧
      ∀ k : Nat, acc'.getD k 0 = ∑ t ∈ Finset.range n, if idx t = k then val t else 0 := by
  refine forRange_inv
    (fun t s => s.length = acc.length ∧ ∀ k : Nat, s.getD k 0 =
        ∑ t' ∈ Finset.range t, if idx t' = k then val t' else 0)
    n acc body ⟨rfl, fun k => by rw [hzero k]; simp⟩ ?_
  intro t ht s ⟨hlen, hs⟩
  have hi : idx t < s.length := hlen ▸ hidx t ht
  refine ⟨_, by rw [hbody t ht s hlen, writeAt_nat s _ _ hi], by simp [hlen], ?_⟩
  intro k
  rw [getD_set _ _ _ _ hi, Finset.sum_range_succ]
  by_cases hk : idx t = k
  · subst hk
    have : ∑ t' ∈ Finset.range t, (if idx t' = idx t then val t' else 0) = 0 := by
      apply Finset.sum_eq_zero
      intro u hu
      rw [if_neg (hinj t ht u (Finset.mem_range.mp hu))]
    simp [this]
  · rw [if_neg hk, if_neg hk, hs k, add_zero]

theorem eq_of_getD_eq (l l' : List ℚ) (hlen : l.length = l'.length)
    (h : ∀ k : Nat, l.getD k 0 = l'.getD k 0) : l = l' := by
  apply List.ext_getElem hlen
  intro k hk hk'
  have := h k
  rwa [List.getD_eq_getElem _ _ hk, List.getD_eq_getElem _ _ hk'] at this

theorem getD_replicate_zero (n k : Nat) : (List.replicate n (0 : ℚ)).getD k 0 = 0 := by
  rw [List.getD_eq_getElem?_getD, List.getElem?_replicate]
  split <;> rfl

theorem list_sum_eq_sum_getD (l : List ℚ) :
    l.sum = ∑ k ∈ Finset.range l.length, l.getD k 0 := by
  induction l with
  | nil => simp
  | cons a l ih =>
    rw [List.length_cons, Finset.sum_range_succ', List.sum_cons, ih, add_comm]
    rfl

theorem list_range_map_sum (n : Nat) (f : Nat → ℚ) :
    ((List.range n).map f).sum = ∑ i ∈ Finset.range n, f i := by
  induction n with
  | zero => simp
  | succ n ih =>
    rw [List.range_succ, List.map_append, List.sum_append, ih, Finset.sum_range_succ]
    simp

theorem truncInt_natCast (n : Nat) : truncInt (n : ℚ) = (n : Int) := by
  unfold truncInt
  rw [if_pos (Nat.cast_nonneg n)]
  exact Int.floor_natCast n

theorem doubleToInt_eq (q : ℚ) (h1 : -2147483648 ≤ truncInt q) (h2 : truncInt q ≤ 2147483647) :
    doubleToInt q = truncInt q := by
  unfold doubleToInt
  rw [if_pos ⟨h1, h2⟩]

theorem doubleToInt_natCast (n : Nat) (h : n < 2147483648) : doubleToInt (n : ℚ) = (n : Int) := by
  rw [doubleToInt_eq _ (by rw [truncInt_natCast]; omega) (by rw [truncInt_natCast]; omega),
    truncInt_natCast]

theorem doubleToInt_eq_zero_iff (q : ℚ) : doubleToInt q = 0 ↔ truncInt q = 0 := by
  unfold doubleToInt
  split
  · exact Iff.rfl
  · rename_i h
    constructor
    · intro h0; omega
    · intro h0; exact absurd ⟨by omega, by omega⟩ h

/-! ## Well-formed distributions and the helpers `getTotalWeight`, `getMax` -/

theorem WF_toNat {d : Distribution} (h : d.WF) : d.size.toNat = d.distribution.length := by
  unfold Distribution.WF at h
  rw [← h]; simp

theorem WF_certain {d : Distribution} (h : d.WF) (hu : isUncertain d = false) :
    d.size = 0 ∧ d.distribution = [] := by
  unfold Distribution.WF at h
  simp only [isUncertain, decide_eq_false_iff_not, not_lt, gt_iff_lt] at hu
  have h0 : d.distribution.length = 0 := by omega
  exact ⟨by omega, List.length_eq_zero.mp h0⟩

theorem WF_uncertain_pos {d : Distribution} (h : d.WF) (hu : isUncertain d = true) :
    0 < d.distribution.length := by
  have : d.size > 0 := by simpa [isUncertain] using hu
  unfold Distribution.WF at h
  omega

theorem WF_createDistribution (size : Int) (hs : 0 ≤ size) (initVal constant : ℚ) :
    (createDistribution size initVal constant).WF := by
  simp [Distribution.WF, createDistribution, hs]

/-- On a well-formed distribution `getTotalWeight` returns the sum of the weight table. -/
theorem getTotalWeight_eq (d : Distribution) (h : d.WF) :
    getTotalWeight d = .ok d.distribution.sum := by
  obtain ⟨s, hs, hP⟩ := forRange_inv (fun t s => s = (d.distribution.take t).sum)
    d.size.toNat (0 : ℚ)
    (fun i totalWeight => do
      let x ← readAt d.distribution i
      pure (totalWeight + x))
    (by simp) (by
      intro t ht s hs
      rw [WF_toNat h] at ht
      refine ⟨s + d.distribution.getD t 0, by simp only [readAt_nat _ _ ht, ok_bind, pure_eq_ok], ?_⟩
      show s + _ = _
      rw [List.sum_take_succ _ _ ht, hs, List.getD_eq_getElem _ _ ht])
  rw [WF_toNat h, List.take_length] at hP
  rw [getTotalWeight, hs, hP]

theorem getMax_natCast (d : Distribution) (h : d.WF) (m : Nat) (hc : d.constant = m) :
    getMax d = ((d.distribution.length + m : Nat) : ℚ) := by
  unfold Distribution.WF at h
  rw [getMax, ← h, hc]; push_cast; rfl

theorem outcomeTable_bounds (d : Distribution) (h : d.WF) (m : Nat) (hc : d.constant = m)
    (p : ℚ × ℚ) (hp : p ∈ outcomeTable d) : 0 ≤ p.1 ∧ p.1 ≤ getMax d := by
  rw [getMax_natCast d h m hc]
  unfold outcomeTable at hp
  cases hu : isUncertain d
  · rw [hu] at hp
    simp only [Bool.false_eq_true, if_false, List.mem_singleton] at hp
    rw [hp, (WF_certain h hu).2, hc]
    simp
  · rw [hu, if_pos rfl, List.mem_map] at hp
    obtain ⟨i, hi, rfl⟩ := hp
    rw [List.mem_range, WF_toNat h] at hi
    rw [hc]
    constructor
    · positivity
    · have : ((i + 1 : Nat) : ℚ) ≤ (d.distribution.length : ℚ) := by exact_mod_cast hi
      push_cast at this ⊢
      linarith

/-! ## The branches of `add` -/

/-- Source `add`, both operands uncertain: the loop nest completes and slot `k` of the
result is the sum of the products sent to it. -/
theorem add_uncertain (d1 d2 : Distribution) (h1 : d1.WF) (h2 : d2.WF)
    (hu1 : isUncertain d1 = true) (hu2 : isUncertain d2 = true) :
    ∃ w : List ℚ,
      add d1 d2 = .ok ⟨d1.constant + d2.constant, w, d1.size + d2.size⟩ ∧
      w.length = d1.distribution.length + d2.distribution.length ∧
      ∀ k : Nat, w.getD k 0 =
        ∑ i ∈ Finset.range d1.distribution.length, ∑ j ∈ Finset.range d2.distribution.length,
          if i + j + 1 = k then
            d1.distribution.getD i 0 / d1.distribution.sum *
              d2.distribution.getD j 0 / d2.distribution.sum
          else 0 := by
  have hlen : (List.replicate (d1.size + d2.size).toNat (0 : ℚ)).length
      = d1.distribution.length + d2.distribution.length := by
    unfold Distribution.WF at h1 h2
    rw [List.length_replicate]; omega
  obtain ⟨w, hrun, hwlen, hw⟩ := accum_loop2 d1.distribution.length d2.distribution.length
    (List.replicate (d1.size + d2.size).toNat (0 : ℚ))
    (fun i j => i + j + 1)
    (fun i j => d1.distribution.getD i 0 / d1.distribution.sum *
              d2.distribution.getD j 0 / d2.distribution.sum)
    (fun i j acc => do
        let index : Int := (i : Int) + (j : Int) + 1
        let x ← readAt d1.distribution i
        let y ← readAt d2.distribution j
        accumAt acc index (x / d1.distribution.sum * y / d2.distribution.sum))
    (by
      intro i hi j hj s _
      simp only [readAt_nat _ _ hi, readAt_nat _ _ hj, ok_bind]
      push_cast; rfl)
    (by intro i hi j hj; rw [hlen]; dsimp only; omega)
  refine ⟨w, ?_, hwlen.trans hlen, fun k => ?_⟩
  · simp only [add, getTotalWeight_eq d1 h1, getTotalWeight_eq d2 h2, ok_bind, hu1, hu2,
      Bool.and_self, if_true, createDistribution, WF_toNat h1, WF_toNat h2]
    rw [hrun]; rfl
  · rw [hw k, getD_replicate_zero, zero_add]

/-- Source `add`, only the first operand uncertain: its table is copied slot by slot. -/
theorem add_uncertain_certain (d1 d2 : Distribution) (h1 : d1.WF) (h2 : d2.WF)
    (hu1 : isUncertain d1 = true) (hu2 : isUncertain d2 = false) :
    add d1 d2 = .ok ⟨d1.constant + d2.constant, d1.distribution, d1.size + d2.size⟩ := by
  have hlen : (List.replicate (d1.size + d2.size).toNat (0 : ℚ)).length
      = d1.distribution.length := by
    rw [List.length_replicate, (WF_certain h2 hu2).1, add_zero, WF_toNat h1]
  obtain ⟨w, hrun, hwlen, hw⟩ := write_loop d1.distribution.length
    (List.replicate (d1.size + d2.size).toNat (0 : ℚ)) (fun i => i)
    (fun i => d1.distribution.getD i 0)
    (fun i acc => do
      let x ← readAt d1.distribution i
      writeAt acc i x)
    (by intro i hi s _; simp only [readAt_nat _ _ hi, ok_bind])
    (by intro i hi; rw [hlen]; exact hi)
    (by intro t _ u hu; dsimp only; omega)
    (fun k => getD_replicate_zero _ k)
  have hwd : w = d1.distribution := by
    apply eq_of_getD_eq _ _ (hwlen.trans hlen)
    intro k
    rw [hw k, Finset.sum_ite_eq' (Finset.range d1.distribution.length) k]
    by_cases hk : k < d1.distribution.length
    · simp [hk]
    · simp only [Finset.mem_range, hk, if_false]
      rw [List.getD_eq_default _ _ (by omega)]
  simp only [add, getTotalWeight_eq d1 h1, getTotalWeight_eq d2 h2, ok_bind, hu1, hu2,
    Bool.and_false, Bool.false_eq_true, if_false, if_true, createDistribution, WF_toNat h1]
  rw [hrun, hwd]; rfl

/-- Source `add`, only the second operand uncertain: its table is copied slot by slot. -/
theorem add_certain_uncertain (d1 d2 : Distribution) (h1 : d1.WF) (h2 : d2.WF)
    (hu1 : isUncertain d1 = false) (hu2 : isUncertain d2 = true) :
    add d1 d2 = .ok ⟨d1.constant + d2.constant, d2.distribution, d1.size + d2.size⟩ := by
  have hlen : (List.replicate (d1.size + d2.size).toNat (0 : ℚ)).length
      = d2.distribution.length := by
    rw [List.length_replicate, (WF_certain h1 hu1).1, zero_add, WF_toNat h2]
  obtain ⟨w, hrun, hwlen, hw⟩ := write_loop d2.distribution.length
    (List.replicate (d1.size + d2.size).toNat (0 : ℚ)) (fun i => i)
    (fun i => d2.distribution.getD i 0)
    (fun i acc => do
      let x ← readAt d2.distribution i
      writeAt acc i x)
    (by intro i hi s _; simp only [readAt_nat _ _ hi, ok_bind])
    (by intro i hi; rw [hlen]; exact hi)
    (by intro t _ u hu; dsimp only; omega)
    (fun k => getD_replicate_zero _ k)
  have hwd : w = d2.distribution := by
    apply eq_of_getD_eq _ _ (hwlen.trans hlen)
    intro k
    rw [hw k, Finset.sum_ite_eq' (Finset.range d2.distribution.length) k]
    by_cases hk : k < d2.distribution.length
    · simp [hk]
    · simp only [Finset.mem_range, hk, if_false]
      rw [List.getD_eq_default _ _ (by omega)]
  simp only [add, getTotalWeight_eq d1 h1, getTotalWeight_eq d2 h2, ok_bind, hu1, hu2,
    Bool.false_and, Bool.false_eq_true, if_false, if_true, createDistribution, WF_toNat h2]
  rw [hrun, hwd]; rfl

/-- Source `add`, both operands certain: no loop runs. -/
theorem add_certain_certain (d1 d2 : Distribution) (h1 : d1.WF) (h2 : d2.WF)
    (hu1 : isUncertain d1 = false) (hu2 : isUncertain d2 = false) :
    add d1 d2 = .ok ⟨d1.constant + d2.constant, [], 0⟩ := by
  simp only [add, getTotalWeight_eq d1 h1, getTotalWeight_eq d2 h2, ok_bind, hu1, hu2,
    Bool.and_self, Bool.false_eq_true, if_false, createDistribution, (WF_certain h1 hu1).1,
    (WF_certain h2 hu2).1]
  rfl

/-- The weights written by `add` on two uncertain operands with nonzero totals sum to 1. -/
theorem add_uncertain_sum (d1 d2 : Distribution) (w : List ℚ)
    (hlen : w.length = d1.distribution.length + d2.distribution.length)
    (hw : ∀ k : Nat, w.getD k 0 =
        ∑ i ∈ Finset.range d1.distribution.length, ∑ j ∈ Finset.range d2.distribution.length,
          if i + j + 1 = k then
            d1.distribution.getD i 0 / d1.distribution.sum *
              d2.distribution.getD j 0 / d2.distribution.sum
          else 0)
    (hp1 : d1.distribution.sum ≠ 0) (hp2 : d2.distribution.sum ≠ 0) : w.sum = 1 := by
  rw [list_sum_eq_sum_getD w, hlen]
  simp_rw [hw]
  rw [Finset.sum_comm]
  have hin : ∀ i ∈ Finset.range d1.distribution.length,
      (∑ k ∈ Finset.range (d1.distribution.length + d2.distribution.length),
        ∑ j ∈ Finset.range d2.distribution.length,
          if i + j + 1 = k then
            d1.distribution.getD i 0 / d1.distribution.sum *
              d2.distribution.getD j 0 / d2.distribution.sum
          else 0)
      = ∑ j ∈ Finset.range d2.distribution.length,
          d1.distribution.getD i 0 / d1.distribution.sum *
            (d2.distribution.getD j 0 / d2.distribution.sum) := by
    intro i hi
    rw [Finset.sum_comm]
    apply Finset.sum_congr rfl
    intro j hj
    rw [Finset.sum_ite_eq, if_pos, mul_div_assoc]
    rw [Finset.mem_range] at hi hj ⊢
    omega
  rw [Finset.sum_congr rfl hin, ← Finset.sum_mul_sum, ← Finset.sum_div, ← Finset.sum_div,
    ← list_sum_eq_sum_getD, ← list_sum_eq_sum_getD, div_self hp1, div_self hp2, mul_one]

/-! ## The branches of `times` -/

/-- Source `times`, both operands uncertain with constants `m1`, `m2` that are natural
numbers: every write is in bounds, and slot `k` is the sum of the joint weights of
the index pairs whose outcome values multiply to `k + 1`. -/
theorem times_uncertain (d1 d2 : Distribution) (h1 : d1.WF) (h2 : d2.WF)
    (hu1 : isUncertain d1 = true) (hu2 : isUncertain d2 = true)
    (m1 m2 : Nat) (hc1 : d1.constant = m1) (hc2 : d2.constant = m2)
    (hr : (d1.distribution.length + m1) * (d2.distribution.length + m2) < 2147483648) :
    ∃ w : List ℚ,
      times d1 d2 = .ok ⟨0, w,
        ((((d1.distribution.length + m1) * (d2.distribution.length + m2) : Nat)) : Int)⟩ ∧
      w.length = (d1.distribution.length + m1) * (d2.distribution.length + m2) ∧
      ∀ k : Nat, w.getD k 0 =
        ∑ i ∈ Finset.range d1.distribution.length, ∑ j ∈ Finset.range d2.distribution.length,
          if (i + m1 + 1) * (j + m2 + 1) = k + 1 then
            d1.distribution.getD i 0 / d1.distribution.sum *
              d2.distribution.getD j 0 / d2.distribution.sum
          else 0 := by
  have hsize : doubleToInt (getMax d1 * getMax d2)
      = (((d1.distribution.length + m1) * (d2.distribution.length + m2) : Nat) : Int) := by
    rw [getMax_natCast d1 h1 m1 hc1, getMax_natCast d2 h2 m2 hc2, ← Nat.cast_mul,
      doubleToInt_natCast _ hr]
  have hlen : (List.replicate (doubleToInt (getMax d1 * getMax d2)).toNat (0 : ℚ)).length
      = (d1.distribution.length + m1) * (d2.distribution.length + m2) := by
    rw [List.length_replicate, hsize, Int.toNat_natCast]
  have hl1 := WF_uncertain_pos h1 hu1
  have hl2 := WF_uncertain_pos h2 hu2
  have hm1r : m1 < 2147483648 :=
    lt_of_le_of_lt (Nat.le_trans (Nat.le_add_left _ _) (Nat.le_mul_of_pos_right _ (by omega))) hr
  have hm2r : m2 < 2147483648 :=
    lt_of_le_of_lt (Nat.le_trans (Nat.le_add_left _ _) (Nat.le_mul_of_pos_left _ (by omega))) hr
  obtain ⟨w, hrun, hwlen, hw⟩ := accum_loop2 d1.distribution.length d2.distribution.length
    (List.replicate (doubleToInt (getMax d1 * getMax d2)).toNat (0 : ℚ))
    (fun i j => (i + m1 + 1) * (j + m2) + i + m1)
    (fun i j => d1.distribution.getD i 0 / d1.distribution.sum *
              d2.distribution.getD j 0 / d2.distribution.sum)
    (fun i j acc => do
        let value : Int :=
          ((i : Int) + doubleToInt d1.constant + 1) * ((j : Int) + doubleToInt d2.constant + 1)
        let x ← readAt d1.distribution i
        let y ← readAt d2.distribution j
        accumAt acc (value - 1) (x / d1.distribution.sum * y / d2.distribution.sum))
    (by
      intro i hi j hj s _
      simp only [readAt_nat _ _ hi, readAt_nat _ _ hj, ok_bind, hc1, hc2,
        doubleToInt_natCast m1 hm1r, doubleToInt_natCast m2 hm2r]
      congr 1
      push_cast; ring)
    (by
      intro i hi j hj
      rw [hlen]
      have e1 : i + m1 + 1 ≤ d1.distribution.length + m1 := by omega
      have e2 : j + m2 + 1 ≤ d2.distribution.length + m2 := by omega
      have := Nat.mul_le_mul e1 e2
      have e3 : (i + m1 + 1) * (j + m2 + 1) = (i + m1 + 1) * (j + m2) + i + m1 + 1 := by ring
      dsimp only
      omega)
  refine ⟨w, ?_, hwlen.trans hlen, fun k => ?_⟩
  · simp only [times, getTotalWeight_eq d1 h1, getTotalWeight_eq d2 h2, ok_bind, hu1, hu2,
      Bool.not_true, Bool.and_self, Bool.false_eq_true, if_false, if_true, createDistribution,
      WF_toNat h1, WF_toNat h2]
    rw [hrun, hsize]; rfl
  · rw [hw k, getD_replicate_zero, zero_add]
    apply Finset.sum_congr rfl; intro i _
    apply Finset.sum_congr rfl; intro j _
    have e3 : (i + m1 + 1) * (j + m2 + 1) = (i + m1 + 1) * (j + m2) + i + m1 + 1 := by ring
    have : ((i + m1 + 1) * (j + m2) + i + m1 = k) ↔ ((i + m1 + 1) * (j + m2 + 1) = k + 1) := by
      rw [e3]; omega
    simp only [this]

/-- Source `times`, first operand uncertain with natural constant `m1`, second operand
certain with natural constant `m2 ≥ 1`: every write is in bounds and no slot is
written twice. -/
theorem times_uncertain_certain (d1 d2 : Distribution) (h1 : d1.WF) (h2 : d2.WF)
    (hu1 : isUncertain d1 = true) (hu2 : isUncertain d2 = false)
    (m1 m2 : Nat) (hc1 : d1.constant = m1) (hc2 : d2.constant = m2) (hm2 : 1 ≤ m2)
    (hr : (d1.distribution.length + m1) * m2 < 2147483648) :
    ∃ w : List ℚ,
      times d1 d2 = .ok ⟨0, w, ((((d1.distribution.length + m1) * m2 : Nat)) : Int)⟩ ∧
      w.length = (d1.distribution.length + m1) * m2 ∧
      ∀ k : Nat, w.getD k 0 =
        ∑ i ∈ Finset.range d1.distribution.length,
          if (i + m1 + 1) * m2 = k + 1 then d1.distribution.getD i 0 / d1.distribution.sum
          else 0 := by
  have hd2 := WF_certain h2 hu2
  have hsize : doubleToInt (getMax d1 * getMax d2)
      = (((d1.distribution.length + m1) * m2 : Nat) : Int) := by
    rw [getMax_natCast d1 h1 m1 hc1, getMax_natCast d2 h2 m2 hc2, hd2.2, List.length_nil,
      zero_add, ← Nat.cast_mul, doubleToInt_natCast _ hr]
  have hlen : (List.replicate (doubleToInt (getMax d1 * getMax d2)).toNat (0 : ℚ)).length
      = (d1.distribution.length + m1) * m2 := by
    rw [List.length_replicate, hsize, Int.toNat_natCast]
  have hidx : ∀ i : Nat, 1 ≤ (i + m1 + 1) * m2 := fun i =>
    Nat.mul_pos (Nat.succ_pos _) hm2
  obtain ⟨w, hrun, hwlen, hw⟩ := write_loop d1.distribution.length
    (List.replicate (doubleToInt (getMax d1 * getMax d2)).toNat (0 : ℚ))
    (fun i => (i + m1 + 1) * m2 - 1)
    (fun i => d1.distribution.getD i 0 / d1.distribution.sum)
    (fun i acc => do
      let x ← readAt d1.distribution i
      writeAt acc (doubleToInt ((((i : ℚ) + d1.constant) + 1) * d2.constant) - 1)
        (x / d1.distribution.sum))
    (by
      intro i hi s _
      have e : (((i : ℚ) + d1.constant) + 1) * d2.constant = (((i + m1 + 1) * m2 : Nat) : ℚ) := by
        rw [hc1, hc2]; push_cast; ring
      have hb : (i + m1 + 1) * m2 < 2147483648 :=
        lt_of_le_of_lt (Nat.mul_le_mul_right m2 (by omega)) hr
      simp only [readAt_nat _ _ hi, ok_bind, e, doubleToInt_natCast _ hb]
      congr 1
      have := hidx i
      omega)
    (by
      intro i hi
      rw [hlen]
      have e1 : i + m1 + 1 ≤ d1.distribution.length + m1 := by omega
      have := Nat.mul_le_mul_right m2 e1
      have := hidx i
      dsimp only
      omega)
    (by
      intro t _ u hu
      have e1 : u + m1 + 1 + 1 ≤ t + m1 + 1 := by omega
      have := Nat.mul_le_mul_right m2 e1
      have e2 : (u + m1 + 1 + 1) * m2 = (u + m1 + 1) * m2 + m2 := by ring
      have := hidx u
      dsimp only
      omega)
    (fun k => getD_replicate_zero _ k)
  refine ⟨w, ?_, hwlen.trans hlen, fun k => ?_⟩
  · simp only [times, getTotalWeight_eq d1 h1, ok_bind, hu1, hu2,
      Bool.not_true, Bool.not_false, Bool.and_false, Bool.false_and, Bool.false_eq_true,
      if_false, if_true, createDistribution, WF_toNat h1]
    rw [hrun, hsize]; rfl
  · rw [hw k]
    apply Finset.sum_congr rfl; intro i _
    have := hidx i
    have : ((i + m1 + 1) * m2 - 1 = k) ↔ ((i + m1 + 1) * m2 = k + 1) := by omega
    simp only [this]

/-- Source `times`, first operand certain with natural constant `m1 ≥ 1`, second operand
uncertain with natural constant `m2`: every write is in bounds and no slot is
written twice. -/
theorem times_certain_uncertain (d1 d2 : Distribution) (h1 : d1.WF) (h2 : d2.WF)
    (hu1 : isUncertain d1 = false) (hu2 : isUncertain d2 = true)
    (m1 m2 : Nat) (hc1 : d1.constant = m1) (hc2 : d2.constant = m2) (hm1 : 1 ≤ m1)
    (hr : m1 * (d2.distribution.length + m2) < 2147483648) :
    ∃ w : List ℚ,
      times d1 d2 = .ok ⟨0, w, (((m1 * (d2.distribution.length + m2) : Nat)) : Int)⟩ ∧
      w.length = m1 * (d2.distribution.length + m2) ∧
      ∀ k : Nat, w.getD k 0 =
        ∑ j ∈ Finset.range d2.distribution.length,
          if m1 * (j + m2 + 1) = k + 1 then d2.distribution.getD j 0 / d2.distribution.sum
          else 0 := by
  have hd1 := WF_certain h1 hu1
  have hsize : doubleToInt (getMax d1 * getMax d2)
      = ((m1 * (d2.distribution.length + m2) : Nat) : Int) := by
    rw [getMax_natCast d1 h1 m1 hc1, getMax_natCast d2 h2 m2 hc2, hd1.2, List.length_nil,
      zero_add, ← Nat.cast_mul, doubleToInt_natCast _ hr]
  have hlen : (List.replicate (doubleToInt (getMax d1 * getMax d2)).toNat (0 : ℚ)).length
      = m1 * (d2.distribution.length + m2) := by
    rw [List.length_replicate, hsize, Int.toNat_natCast]
  have hidx : ∀ j : Nat, 1 ≤ (j + m2 + 1) * m1 := fun j =>
    Nat.mul_pos (Nat.succ_pos _) hm1
  obtain ⟨w, hrun, hwlen, hw⟩ := write_loop d2.distribution.length
    (List.replicate (doubleToInt (getMax d1 * getMax d2)).toNat (0 : ℚ))
    (fun j => (j + m2 + 1) * m1 - 1)
    (fun j => d2.distribution.getD j 0 / d2.distribution.sum)
    (fun i acc => do
      let x ← readAt d2.distribution i
      writeAt acc (doubleToInt ((((i : ℚ) + d2.constant) + 1) * d1.constant) - 1)
        (x / d2.distribution.sum))
    (by
      intro i hi s _
      have e : (((i : ℚ) + d2.constant) + 1) * d1.constant = (((i + m2 + 1) * m1 : Nat) : ℚ) := by
        rw [hc1, hc2]; push_cast; ring
      have hb : (i + m2 + 1) * m1 < 2147483648 := by
        rw [Nat.mul_comm] at hr
        exact lt_of_le_of_lt (Nat.mul_le_mul_right m1 (by omega)) hr
      simp only [readAt_nat _ _ hi, ok_bind, e, doubleToInt_natCast _ hb]
      congr 1
      have := hidx i
      omega)
    (by
      intro j hj
      rw [hlen]
      have e1 : j + m2 + 1 ≤ d2.distribution.length + m2 := by omega
      have := Nat.mul_le_mul_right m1 e1
      have := hidx j
      have e2 : (d2.distribution.length + m2) * m1 = m1 * (d2.distribution.length + m2) :=
        Nat.mul_comm _ _
      dsimp only
      omega)
    (by
      intro t _ u hu
      have e1 : u + m2 + 1 + 1 ≤ t + m2 + 1 := by omega
      have := Nat.mul_le_mul_right m1 e1
      have e2 : (u + m2 + 1 + 1) * m1 = (u + m2 + 1) * m1 + m1 := by ring
      have := hidx u
      dsimp only
      omega)
    (fun k => getD_replicate_zero _ k)
  refine ⟨w, ?_, hwlen.trans hlen, fun k => ?_⟩
  · simp only [times, getTotalWeight_eq d2 h2, ok_bind, hu1, hu2,
      Bool.not_true, Bool.not_false, Bool.and_false, Bool.false_and, Bool.false_eq_true,
      Bool.true_and, if_false, if_true, createDistribution, WF_toNat h2]
    rw [hrun, hsize]; rfl
  · rw [hw k]
    apply Finset.sum_congr rfl; intro j _
    have := hidx j
    have e2 : (j + m2 + 1) * m1 = m1 * (j + m2 + 1) := Nat.mul_comm _ _
    have : ((j + m2 + 1) * m1 - 1 = k) ↔ (m1 * (j + m2 + 1) = k + 1) := by omega
    simp only [this]

/-! ## Claims about `add` -/

/-- C1. For uncertain `d1`, `d2` with non-negative weights and positive total
weight, `add d1 d2` returns a distribution whose weights sum to exactly 1 (and
`getTotalWeight` of the result returns 1). -/
theorem add_totalWeight_eq_one (d1 d2 : Distribution) (h1 : d1.WF) (h2 : d2.WF)
    (hu1 : isUncertain d1 = true) (hu2 : isUncertain d2 = true)
    (_hn1 : ∀ x ∈ d1.distribution, 0 ≤ x) (_hn2 : ∀ x ∈ d2.distribution, 0 ≤ x)
    (hp1 : 0 < d1.distribution.sum) (hp2 : 0 < d2.distribution.sum) :
    ∃ d3, add d1 d2 = .ok d3 ∧ d3.distribution.sum = 1 ∧ getTotalWeight d3 = .ok 1 := by
  obtain ⟨w, hadd, hlen, hw⟩ := add_uncertain d1 d2 h1 h2 hu1 hu2
  have hsum : w.sum = 1 := add_uncertain_sum d1 d2 w hlen hw hp1.ne' hp2.ne'
  have hwf : (⟨d1.constant + d2.constant, w, d1.size + d2.size⟩ : Distribution).WF := by
    unfold Distribution.WF at h1 h2 ⊢
    simp only [hlen]; omega
  exact ⟨_, hadd, hsum, by rw [getTotalWeight_eq _ hwf]; exact congrArg _ hsum⟩

/-- Instance of C1 at `sampleSkewed` and `samplePair`. -/
theorem add_totalWeight_eq_one_witness :
    (0 < sampleSkewed.distribution.sum ∧ 0 < samplePair.distribution.sum) ∧
    ∃ d3, add sampleSkewed samplePair = .ok d3 ∧ d3.distribution.sum = 1 ∧
      getTotalWeight d3 = .ok 1 :=
  ⟨⟨by norm_num [sampleSkewed], by norm_num [samplePair]⟩,
    add_totalWeight_eq_one sampleSkewed samplePair (by decide) (by decide) rfl rfl
      (by intro x hx; simp only [sampleSkewed, List.mem_cons, List.mem_nil_iff, or_false] at hx
          rcases hx with rfl | rfl | rfl <;> norm_num)
      (by intro x hx; simp only [samplePair, List.mem_cons, List.mem_nil_iff, or_false] at hx
          rcases hx with rfl | rfl <;> norm_num)
      (by norm_num [sampleSkewed]) (by norm_num [samplePair])⟩

/-- C2. For uncertain `d1`, `d2` with positive total weights and every output index
`k < d1.size + d2.size`, slot `k` of `add d1 d2` holds the sum over the pairs
`(i, j)` with `i + j + 1 = k` of `(w1[i] / total1) * (w2[j] / total2)`; these are
the pairs whose outcomes `constant + i + 1` and `constant + j + 1` sum to the
outcome `constant + k + 1` of the result. -/
theorem add_weight_at (d1 d2 : Distribution) (h1 : d1.WF) (h2 : d2.WF)
    (hu1 : isUncertain d1 = true) (hu2 : isUncertain d2 = true)
    (_hp1 : 0 < d1.distribution.sum) (_hp2 : 0 < d2.distribution.sum) :
    ∃ d3, add d1 d2 = .ok d3 ∧
      ∀ k : Nat, (k : Int) < d1.size + d2.size →
        d3.distribution[k]? = some
          (∑ i ∈ Finset.range d1.size.toNat, ∑ j ∈ Finset.range d2.size.toNat,
            if i + j + 1 = k then
              (d1.distribution.getD i 0 / d1.distribution.sum) *
                (d2.distribution.getD j 0 / d2.distribution.sum)
            else 0) ∧
        d3.distribution[k]? = some
          (∑ i ∈ Finset.range d1.size.toNat, ∑ j ∈ Finset.range d2.size.toNat,
            if (d1.constant + i + 1) + (d2.constant + j + 1) = d3.constant + k + 1 then
              (d1.distribution.getD i 0 / d1.distribution.sum) *
                (d2.distribution.getD j 0 / d2.distribution.sum)
            else 0) := by
  obtain ⟨w, hadd, hlen, hw⟩ := add_uncertain d1 d2 h1 h2 hu1 hu2
  refine ⟨_, hadd, fun k hk => ?_⟩
  have hkl : k < w.length := by
    unfold Distribution.WF at h1 h2
    omega
  have hget : w[k]? = some (w.getD k 0) := by
    rw [List.getD_eq_getElem _ _ hkl, List.getElem?_eq_getElem hkl]
  have hcond : ∀ i j : Nat,
      ((d1.constant + i + 1) + (d2.constant + j + 1) = d1.constant + d2.constant + k + 1)
        ↔ i + j + 1 = k := by
    intro i j
    constructor
    · intro h
      have h' : ((i + j + 1 : Nat) : ℚ) = (k : ℚ) := by push_cast; linarith
      exact_mod_cast h'
    · intro h
      have h' : ((i + j + 1 : Nat) : ℚ) = (k : ℚ) := by rw [h]
      push_cast at h'; linarith
  simp only [hcond, hget, hw k, WF_toNat h1, WF_toNat h2, mul_div_assoc, and_self]

/-- Instance of C2 at `sampleSkewed` and `samplePair`. -/
theorem add_weight_at_witness :
    ∃ d3, add sampleSkewed samplePair = .ok d3 ∧
      ∀ k : Nat, (k : Int) < sampleSkewed.size + samplePair.size →
        d3.distribution[k]? = some
          (∑ i ∈ Finset.range sampleSkewed.size.toNat,
            ∑ j ∈ Finset.range samplePair.size.toNat,
              if i + j + 1 = k then
                (sampleSkewed.distribution.getD i 0 / sampleSkewed.distribution.sum) *
                  (samplePair.distribution.getD j 0 / samplePair.distribution.sum)
              else 0) ∧
        d3.distribution[k]? = some
          (∑ i ∈ Finset.range sampleSkewed.size.toNat,
            ∑ j ∈ Finset.range samplePair.size.toNat,
              if (sampleSkewed.constant + i + 1) + (samplePair.constant + j + 1)
                  = d3.constant + k + 1 then
                (sampleSkewed.distribution.getD i 0 / sampleSkewed.distribution.sum) *
                  (samplePair.distribution.getD j 0 / samplePair.distribution.sum)
              else 0) :=
  add_weight_at sampleSkewed samplePair (by decide) (by decide) rfl rfl
    (by norm_num [sampleSkewed]) (by norm_num [samplePair])

/-- C3. For well-formed `d1`, `d2` (certain or uncertain) `add d1 d2` returns a
distribution with `constant = d1.constant + d2.constant` and
`size = d1.size + d2.size`. -/
theorem add_constant_size (d1 d2 : Distribution) (h1 : d1.WF) (h2 : d2.WF) :
    ∃ d3, add d1 d2 = .ok d3 ∧ d3.constant = d1.constant + d2.constant ∧
      d3.size = d1.size + d2.size := by
  cases hu1 : isUncertain d1 <;> cases hu2 : isUncertain d2
  · exact ⟨_, add_certain_certain d1 d2 h1 h2 hu1 hu2, rfl,
      by rw [(WF_certain h1 hu1).1, (WF_certain h2 hu2).1]; rfl⟩
  · exact ⟨_, add_certain_uncertain d1 d2 h1 h2 hu1 hu2, rfl, rfl⟩
  · exact ⟨_, add_uncertain_certain d1 d2 h1 h2 hu1 hu2, rfl, rfl⟩
  · obtain ⟨w, hadd, _, _⟩ := add_uncertain d1 d2 h1 h2 hu1 hu2
    exact ⟨_, hadd, rfl, rfl⟩

/-- Instance of C3 at `sampleSkewed` and `sampleFive`. -/
theorem add_constant_size_witness :
    ∃ d3, add sampleSkewed sampleFive = .ok d3 ∧
      d3.constant = sampleSkewed.constant + sampleFive.constant ∧
      d3.size = sampleSkewed.size + sampleFive.size :=
  add_constant_size sampleSkewed sampleFive (by decide) (by decide)

/-- C4. When exactly one of the well-formed operands is uncertain, `add` returns a
distribution whose weight table is that operand's table (same length, same
unnormalized values, same size), the constant being shifted by the constant of
the certain operand. -/
theorem add_one_uncertain (d1 d2 : Distribution) (h1 : d1.WF) (h2 : d2.WF)
    (hx : isUncertain d1 ≠ isUncertain d2) :
    ∃ d3, add d1 d2 = .ok d3 ∧
      (isUncertain d1 = true →
        d3.distribution = d1.distribution ∧ d3.size = d1.size ∧
          d3.constant = d1.constant + d2.constant) ∧
      (isUncertain d2 = true →
        d3.distribution = d2.distribution ∧ d3.size = d2.size ∧
          d3.constant = d2.constant + d1.constant) := by
  cases hu1 : isUncertain d1 <;> cases hu2 : isUncertain d2
  · exact absurd (hu1.trans hu2.symm) hx
  · refine ⟨_, add_certain_uncertain d1 d2 h1 h2 hu1 hu2,
      ⟨fun h => Bool.noConfusion h, fun _ => ?_⟩⟩
    exact ⟨rfl, by simp [(WF_certain h1 hu1).1], add_comm _ _⟩
  · refine ⟨_, add_uncertain_certain d1 d2 h1 h2 hu1 hu2,
      ⟨fun _ => ?_, fun h => Bool.noConfusion h⟩⟩
    exact ⟨rfl, by simp [(WF_certain h2 hu2).1], rfl⟩
  · exact absurd (hu1.trans hu2.symm) hx

/-- Instance of C4 at the certain `sampleFive` and the uncertain `samplePair`. -/
theorem add_one_uncertain_witness :
    ∃ d3, add sampleFive samplePair = .ok d3 ∧
      (isUncertain sampleFive = true →
        d3.distribution = sampleFive.distribution ∧ d3.size = sampleFive.size ∧
          d3.constant = sampleFive.constant + samplePair.constant) ∧
      (isUncertain samplePair = true →
        d3.distribution = samplePair.distribution ∧ d3.size = samplePair.size ∧
          d3.constant = samplePair.constant + sampleFive.constant) :=
  add_one_uncertain sampleFive samplePair (by decide) (by decide) (by decide)

/-! ## Claims about `times` -/

/-- C5. For certain well-formed `d1`, `d2` with constants `a` and `b`, `add` returns
the certain distribution (size 0) with constant `a + b` and `times` returns the
certain distribution (size 0) with constant `a * b`. -/
theorem add_times_certain (d1 d2 : Distribution) (h1 : d1.WF) (h2 : d2.WF)
    (hu1 : isUncertain d1 = false) (hu2 : isUncertain d2 = false) :
    add d1 d2 = .ok ⟨d1.constant + d2.constant, [], 0⟩ ∧
      times d1 d2 = .ok ⟨d1.constant * d2.constant, [], 0⟩ := by
  refine ⟨add_certain_certain d1 d2 h1 h2 hu1 hu2, ?_⟩
  simp only [times, hu1, hu2, Bool.not_false, Bool.and_self, if_true]
  rfl

/-- Instance of C5 at the certain values 5 and 7/2. -/
theorem add_times_certain_witness :
    add sampleFive sampleHalf = .ok ⟨sampleFive.constant + sampleHalf.constant, [], 0⟩ ∧
      times sampleFive sampleHalf = .ok ⟨sampleFive.constant * sampleHalf.constant, [], 0⟩ :=
  add_times_certain sampleFive sampleHalf (by decide) (by decide) rfl rfl

/-- C6 (the code departs from the claim). `1d6 * 0`: the output allocated by
`times` has `getMax d1 * getMax d2 = 0` slots and the first write goes to index
`-1`, so the call is an out-of-bounds write. -/
theorem times_zero_factor_out_of_bounds :
    truncInt (getMax (createDistribution 6 1 0) * getMax (createDistribution 0 0 0)) = 0 ∧
    truncInt (((((0 : Nat) : ℚ) + (createDistribution 6 1 0).constant) + 1) *
      (createDistribution 0 0 0).constant) - 1 = -1 ∧
    times (createDistribution 6 1 0) (createDistribution 0 0 0) = .error Fault.outOfBounds := by
  refine ⟨?_, ?_, ?_⟩ <;> with_unfolding_all rfl

/-- C7 (as stated, refuted). `(1d1 + 3000000000) * 1`: the operands have non-negative
integer constants and the pair of outcomes `(3000000001, 1)` has joint probability 1, but
the size `3000000001` of the output is converted to the 32-bit `int` of the program, which
it does not fit: no slot is allocated, the write of `times` is outside the array and no
weight is returned for the index `k = 3000000000`. -/
theorem times_size_out_of_int_range :
    sampleLarge.WF ∧ isUncertain sampleLarge = true ∧ 0 < sampleLarge.distribution.sum ∧
    productMass sampleLarge (createDistribution 0 0 1) ((3000000000 : ℚ) + 1) = 1 ∧
    doubleToInt (getMax sampleLarge * getMax (createDistribution 0 0 1)) = -2147483648 ∧
    times sampleLarge (createDistribution 0 0 1) = .error Fault.outOfBounds := by
  refine ⟨by decide, rfl, by norm_num [sampleLarge], ?_,
    by with_unfolding_all rfl, by with_unfolding_all rfl⟩
  norm_num [productMass, outcomeTable, sampleLarge, isUncertain, createDistribution,
    List.range_succ]

/-- The product of the maximal values as a natural number. -/
theorem getMax_mul_natCast (d1 d2 : Distribution) (h1 : d1.WF) (h2 : d2.WF) (m1 m2 : Nat)
    (hc1 : d1.constant = m1) (hc2 : d2.constant = m2) :
    getMax d1 * getMax d2
      = (((d1.distribution.length + m1) * (d2.distribution.length + m2) : Nat) : ℚ) := by
  rw [getMax_natCast d1 h1 m1 hc1, getMax_natCast d2 h2 m2 hc2, Nat.cast_mul]

/-- Source `times` under the hypotheses of C7 with a size in the range of `int`: the call
returns a table of `getMax d1 * getMax d2` slots, with the weights of the three
branches. -/
theorem times_table (d1 d2 : Distribution) (h1 : d1.WF) (h2 : d2.WF)
    (hunc : isUncertain d1 = true ∨ isUncertain d2 = true)
    (m1 m2 : Nat) (hc1 : d1.constant = m1) (hc2 : d2.constant = m2)
    (hcert1 : isUncertain d1 = false → 1 ≤ m1) (hcert2 : isUncertain d2 = false → 1 ≤ m2)
    (hr : getMax d1 * getMax d2 < 2147483648) :
    ∃ w : List ℚ,
      times d1 d2 = .ok ⟨0, w,
        ((((d1.distribution.length + m1) * (d2.distribution.length + m2) : Nat)) : Int)⟩ ∧
      w.length = (d1.distribution.length + m1) * (d2.distribution.length + m2) ∧
      (isUncertain d1 = false →
        ∀ k : Nat, w.getD k 0 = ∑ j ∈ Finset.range d2.distribution.length,
          if m1 * (j + m2 + 1) = k + 1 then d2.distribution.getD j 0 / d2.distribution.sum
          else 0) ∧
      (isUncertain d2 = false →
        ∀ k : Nat, w.getD k 0 = ∑ i ∈ Finset.range d1.distribution.length,
          if (i + m1 + 1) * m2 = k + 1 then d1.distribution.getD i 0 / d1.distribution.sum
          else 0) ∧
      (isUncertain d1 = true → isUncertain d2 = true →
        ∀ k : Nat, w.getD k 0 =
          ∑ i ∈ Finset.range d1.distribution.length,
            ∑ j ∈ Finset.range d2.distribution.length,
              if (i + m1 + 1) * (j + m2 + 1) = k + 1 then
                d1.distribution.getD i 0 / d1.distribution.sum *
                  d2.distribution.getD j 0 / d2.distribution.sum
              else 0) := by
  have hrN : (d1.distribution.length + m1) * (d2.distribution.length + m2) < 2147483648 := by
    rw [getMax_mul_natCast d1 d2 h1 h2 m1 m2 hc1 hc2] at hr
    exact_mod_cast hr
  cases hu1 : isUncertain d1 <;> cases hu2 : isUncertain d2
  · rw [hu1, hu2] at hunc; simp at hunc
  · have e := (WF_certain h1 hu1).2
    rw [e, List.length_nil, zero_add] at hrN ⊢
    obtain ⟨w, ht, hlen, hw⟩ :=
      times_certain_uncertain d1 d2 h1 h2 hu1 hu2 m1 m2 hc1 hc2 (hcert1 hu1) hrN
    exact ⟨w, ht, hlen, fun _ => hw, fun h => absurd h (by simp),
      fun h => absurd h (by simp)⟩
  · have e := (WF_certain h2 hu2).2
    rw [e, List.length_nil, zero_add] at hrN ⊢
    obtain ⟨w, ht, hlen, hw⟩ :=
      times_uncertain_certain d1 d2 h1 h2 hu1 hu2 m1 m2 hc1 hc2 (hcert2 hu2) hrN
    exact ⟨w, ht, hlen, fun h => absurd h (by simp), fun _ => hw,
      fun _ h => absurd h (by simp)⟩
  · obtain ⟨w, ht, hlen, hw⟩ := times_uncertain d1 d2 h1 h2 hu1 hu2 m1 m2 hc1 hc2 hrN
    exact ⟨w, ht, hlen, fun h => absurd h (by simp), fun h => absurd h (by simp),
      fun _ _ => hw⟩

/-- C7 (amended). For well-formed operands with constants that are natural numbers, at
least one of them uncertain, a certain operand being at least 1, an uncertain one having
positive total weight, and `getMax d1 * getMax d2 < 2 ^ 31` (the size of the output is a
32-bit `int`), `times d1 d2` returns a well-formed distribution of size
`getMax d1 * getMax d2` whose slot `k`, for every index `k` below that size, holds the sum
over the pairs of outcome values `(v1, v2)` with `v1 * v2 = k + 1` of the joint
probability `weight1[i] / total1 * weight2[j] / total2`, a certain operand contributing
its single value with probability 1. -/
theorem times_weight_at (d1 d2 : Distribution) (h1 : d1.WF) (h2 : d2.WF)
    (hunc : isUncertain d1 = true ∨ isUncertain d2 = true)
    (m1 m2 : Nat) (hc1 : d1.constant = m1) (hc2 : d2.constant = m2)
    (hcert1 : isUncertain d1 = false → 1 ≤ m1) (hcert2 : isUncertain d2 = false → 1 ≤ m2)
    (_hp1 : isUncertain d1 = true → 0 < d1.distribution.sum)
    (_hp2 : isUncertain d2 = true → 0 < d2.distribution.sum)
    (hr : getMax d1 * getMax d2 < 2147483648) :
    ∃ d3, times d1 d2 = .ok d3 ∧ d3.WF ∧ (d3.size : ℚ) = getMax d1 * getMax d2 ∧
      ∀ k : Nat, (k : ℚ) < getMax d1 * getMax d2 →
        d3.distribution[k]? = some (productMass d1 d2 ((k : ℚ) + 1)) := by
  have hget : ∀ (w : List ℚ) (k : Nat), k < w.length → w[k]? = some (w.getD k 0) := by
    intro w k hk
    rw [List.getD_eq_getElem _ _ hk, List.getElem?_eq_getElem hk]
  have hmax := getMax_mul_natCast d1 d2 h1 h2 m1 m2 hc1 hc2
  obtain ⟨w, ht, hlen, hw1, hw2, hw12⟩ :=
    times_table d1 d2 h1 h2 hunc m1 m2 hc1 hc2 hcert1 hcert2 hr
  refine ⟨_, ht, by unfold Distribution.WF; rw [hlen], by rw [hmax]; norm_cast,
    fun k hk => ?_⟩
  have hk' : k < w.length := by
    rw [hlen]
    rw [hmax] at hk
    exact_mod_cast hk
  show w[k]? = _
  rw [hget w k hk']
  congr 1
  cases hu1 : isUncertain d1 <;> cases hu2 : isUncertain d2
  · rw [hu1, hu2] at hunc; simp at hunc
  · rw [hw1 hu1 k]
    simp only [productMass, outcomeTable, hu1, hu2, Bool.false_eq_true, if_false, if_true,
      List.map_cons, List.map_nil, List.sum_cons, List.sum_nil, add_zero, List.map_map,
      Function.comp_def, list_range_map_sum, WF_toNat h2, one_mul, hc1, hc2]
    apply Finset.sum_congr rfl; intro j _
    have : ((m1 : ℚ) * ((m2 : ℚ) + (j : ℚ) + 1) = (k : ℚ) + 1) ↔ (m1 * (j + m2 + 1) = k + 1) := by
      rw [show (m1 : ℚ) * ((m2 : ℚ) + (j : ℚ) + 1) = ((m1 * (j + m2 + 1) : Nat) : ℚ) by
        push_cast; ring, show (k : ℚ) + 1 = ((k + 1 : Nat) : ℚ) by push_cast; ring]
      exact Nat.cast_inj
    simp only [this]
  · rw [hw2 hu2 k]
    simp only [productMass, outcomeTable, hu1, hu2, Bool.false_eq_true, if_false, if_true,
      List.map_cons, List.map_nil, List.sum_cons, List.sum_nil, add_zero, List.map_map,
      Function.comp_def, list_range_map_sum, WF_toNat h1, mul_one, hc1, hc2]
    apply Finset.sum_congr rfl; intro i _
    have : (((m1 : ℚ) + (i : ℚ) + 1) * (m2 : ℚ) = (k : ℚ) + 1) ↔ ((i + m1 + 1) * m2 = k + 1) := by
      rw [show ((m1 : ℚ) + (i : ℚ) + 1) * (m2 : ℚ) = (((i + m1 + 1) * m2 : Nat) : ℚ) by
        push_cast; ring, show (k : ℚ) + 1 = ((k + 1 : Nat) : ℚ) by push_cast; ring]
      exact Nat.cast_inj
    simp only [this]
  · rw [hw12 hu1 hu2 k]
    simp only [productMass, outcomeTable, hu1, hu2, if_true, List.map_map,
      Function.comp_def, list_range_map_sum, WF_toNat h1, WF_toNat h2, hc1, hc2]
    apply Finset.sum_congr rfl; intro i _
    apply Finset.sum_congr rfl; intro j _
    have : (((m1 : ℚ) + (i : ℚ) + 1) * ((m2 : ℚ) + (j : ℚ) + 1) = (k : ℚ) + 1)
        ↔ ((i + m1 + 1) * (j + m2 + 1) = k + 1) := by
      rw [show ((m1 : ℚ) + (i : ℚ) + 1) * ((m2 : ℚ) + (j : ℚ) + 1)
          = (((i + m1 + 1) * (j + m2 + 1) : Nat) : ℚ) by
        push_cast; ring, show (k : ℚ) + 1 = ((k + 1 : Nat) : ℚ) by push_cast; ring]
      exact Nat.cast_inj
    simp only [this, mul_div_assoc]

/-- Instance of C7 (amended) at the uncertain `sampleSkewed` (constant 2) and the
certain 5. -/
theorem times_weight_at_witness :
    getMax sampleSkewed * getMax sampleFive < 2147483648 ∧
    ∃ d3, times sampleSkewed sampleFive = .ok d3 ∧ d3.WF ∧
      (d3.size : ℚ) = getMax sampleSkewed * getMax sampleFive ∧
      ∀ k : Nat, (k : ℚ) < getMax sampleSkewed * getMax sampleFive →
        d3.distribution[k]? = some (productMass sampleSkewed sampleFive ((k : ℚ) + 1)) :=
  ⟨by norm_num [getMax, sampleSkewed, sampleFive, createDistribution],
    times_weight_at sampleSkewed sampleFive (by decide) (by decide) (Or.inl rfl) 2 5
      (by norm_num [sampleSkewed]) (by norm_num [sampleFive, createDistribution])
      (fun _ => by decide) (fun _ => by decide)
      (fun _ => by norm_num [sampleSkewed]) (fun h => Bool.noConfusion h)
      (by norm_num [getMax, sampleSkewed, sampleFive, createDistribution])⟩

/-- C8 (as stated, refuted). For `d1 = 1d1 + 0.5` (single outcome 3/2) and the
certain `d2 = 3/2`, `times` returns a distribution of size 2, which is neither
`getMax d1 * getMax d2 = 9/4` nor an upper bound of the product of outcomes
`3/2 * 3/2 = 9/4`. And for `d1 = d2 = 1d1 + 65535` (single outcome `2 ^ 16`) the product
`getMax d1 * getMax d2 = 2 ^ 32` does not fit the 32-bit `int` of the size: no slot is
allocated and `times` returns no distribution. -/
theorem times_size_truncated :
    times sampleShifted sampleThreeHalves = .ok ⟨0, [0, 1], 2⟩ ∧
    ((2 : Int) : ℚ) ≠ getMax sampleShifted * getMax sampleThreeHalves ∧
    (∃ p1 ∈ outcomeTable sampleShifted, ∃ p2 ∈ outcomeTable sampleThreeHalves,
      ((2 : Int) : ℚ) < p1.1 * p2.1) ∧
    getMax sampleWide * getMax sampleWide = 4294967296 ∧
    doubleToInt (getMax sampleWide * getMax sampleWide) = -2147483648 ∧
    times sampleWide sampleWide = .error Fault.outOfBounds := by
  refine ⟨by with_unfolding_all rfl, ?_, ?_, ?_, by with_unfolding_all rfl,
    by with_unfolding_all rfl⟩
  · norm_num [getMax, sampleShifted, sampleThreeHalves, createDistribution]
  · refine ⟨(3 / 2, 1), ?_, (3 / 2, 1), ?_, by norm_num⟩
    · norm_num [outcomeTable, sampleShifted, isUncertain]
    · norm_num [outcomeTable, sampleThreeHalves, isUncertain, createDistribution]
  · norm_num [getMax, sampleWide]

/-- C8 (amended). For well-formed operands whose constants are natural numbers, at
least one of them uncertain, a certain operand being at least 1, and
`getMax d1 * getMax d2 < 2 ^ 31` (the size is a 32-bit `int`), `times` returns a
distribution with constant 0 and size `getMax d1 * getMax d2`, and that size is an upper
bound of every product of an outcome of `d1` with an outcome of `d2`. -/
theorem times_size_bound (d1 d2 : Distribution) (h1 : d1.WF) (h2 : d2.WF)
    (hunc : isUncertain d1 = true ∨ isUncertain d2 = true)
    (m1 m2 : Nat) (hc1 : d1.constant = m1) (hc2 : d2.constant = m2)
    (hcert1 : isUncertain d1 = false → 1 ≤ m1) (hcert2 : isUncertain d2 = false → 1 ≤ m2)
    (hr : getMax d1 * getMax d2 < 2147483648) :
    ∃ d3, times d1 d2 = .ok d3 ∧ d3.constant = 0 ∧
      (d3.size : ℚ) = getMax d1 * getMax d2 ∧
      ∀ p1 ∈ outcomeTable d1, ∀ p2 ∈ outcomeTable d2, p1.1 * p2.1 ≤ (d3.size : ℚ) := by
  have hbound : ∀ p1 ∈ outcomeTable d1, ∀ p2 ∈ outcomeTable d2,
      p1.1 * p2.1 ≤ getMax d1 * getMax d2 := by
    intro p1 hp1 p2 hp2
    have b1 := outcomeTable_bounds d1 h1 m1 hc1 p1 hp1
    have b2 := outcomeTable_bounds d2 h2 m2 hc2 p2 hp2
    exact mul_le_mul b1.2 b2.2 b2.1 (b1.1.trans b1.2)
  have hmax := getMax_mul_natCast d1 d2 h1 h2 m1 m2 hc1 hc2
  obtain ⟨w, ht, _, _⟩ := times_table d1 d2 h1 h2 hunc m1 m2 hc1 hc2 hcert1 hcert2 hr
  have hs : ((((d1.distribution.length + m1) * (d2.distribution.length + m2) : Nat) : Int) : ℚ)
      = getMax d1 * getMax d2 := by
    rw [hmax]; norm_cast
  exact ⟨_, ht, rfl, hs, fun p1 hp1 p2 hp2 => hs ▸ hbound p1 hp1 p2 hp2⟩

/-- Instance of C8 (amended) at the uncertain `sampleSkewed` and `samplePair`. -/
theorem times_size_bound_witness :
    getMax sampleSkewed * getMax samplePair < 2147483648 ∧
    ∃ d3, times sampleSkewed samplePair = .ok d3 ∧ d3.constant = 0 ∧
      (d3.size : ℚ) = getMax sampleSkewed * getMax samplePair ∧
      ∀ p1 ∈ outcomeTable sampleSkewed, ∀ p2 ∈ outcomeTable samplePair,
        p1.1 * p2.1 ≤ (d3.size : ℚ) :=
  ⟨by norm_num [getMax, sampleSkewed, samplePair],
    times_size_bound sampleSkewed samplePair (by decide) (by decide) (Or.inl rfl) 2 0
      (by norm_num [sampleSkewed]) (by norm_num [samplePair])
      (fun h => Bool.noConfusion h) (fun h => Bool.noConfusion h)
      (by norm_num [getMax, sampleSkewed, samplePair])⟩

/-! ## Claims about `dice` and `avg` -/

/-- C9. `dice(create(0,0,3), create(0,0,6))` returns, without consulting the
random source, a distribution with size 18 and constant 0 whose weights at
indices 0 and 1 are zero and whose weights at indices 2..17 are the classic 3d6
table `[1,3,6,10,15,21,25,27,27,25,21,15,10,6,3,1]` divided by 216. -/
theorem dice_3d6 (R : RandSource) (fuel pos : Nat) :
    ∃ d3, dice R fuel (createDistribution 0 0 3) (createDistribution 0 0 6) pos = .ok (d3, pos) ∧
      d3.size = 18 ∧ d3.constant = 0 ∧
      d3.distribution = [0, 0] ++
        ([1, 3, 6, 10, 15, 21, 25, 27, 27, 25, 21, 15, 10, 6, 3, 1] : List ℚ).map
          (fun x => x / 216) :=
  ⟨⟨0, [0, 0, 1 / 216, 3 / 216, 6 / 216, 10 / 216, 15 / 216, 21 / 216, 25 / 216, 27 / 216,
      27 / 216, 25 / 216, 21 / 216, 15 / 216, 10 / 216, 6 / 216, 3 / 216, 1 / 216], 18⟩,
    by with_unfolding_all rfl, rfl, rfl, by with_unfolding_all rfl⟩

/-- C10 (the code departs from the claim). `avg` applied to the 3d6 distribution
returns the certain distribution with constant 19/2, that is 9.5 and not the
expected value 10.5 of three dice. -/
theorem avg_3d6 (R : RandSource) (fuel pos : Nat) :
    ∃ d3, dice R fuel (createDistribution 0 0 3) (createDistribution 0 0 6) pos = .ok (d3, pos) ∧
      avg d3 = .ok ⟨19 / 2, [], 0⟩ ∧ (19 / 2 : ℚ) ≠ 21 / 2 :=
  ⟨⟨0, [0, 0, 1 / 216, 3 / 216, 6 / 216, 10 / 216, 15 / 216, 21 / 216, 25 / 216, 27 / 216,
      27 / 216, 25 / 216, 21 / 216, 15 / 216, 10 / 216, 6 / 216, 3 / 216, 1 / 216], 18⟩,
    by with_unfolding_all rfl, by with_unfolding_all rfl, by norm_num⟩

/-! ## Counting the tuples of faces -/

theorem tupleCount_succ (m n s : Nat) :
    tupleCount m (n + 1) s =
      ∑ a ∈ Finset.range m, if a + 1 ≤ s then tupleCount m n (s - (a + 1)) else 0 := by
  unfold tupleCount
  rw [Finset.card_filter, ← Fin.sum_univ_eq_sum_range
    (fun a => if a + 1 ≤ s then
      (Finset.univ.filter (fun f : Fin n → Fin m => ∑ i, ((f i : Nat) + 1) = s - (a + 1))).card
      else 0) m]
  rw [← Fintype.sum_equiv (Fin.consEquiv (fun _ : Fin (n + 1) => Fin m))
    (fun p : Fin m × (Fin n → Fin m) =>
      if ((p.1 : Nat) + 1) + ∑ i, ((p.2 i : Nat) + 1) = s then 1 else 0)
    (fun f : Fin (n + 1) → Fin m => if ∑ i, ((f i : Nat) + 1) = s then 1 else 0)
    (by
      intro p
      simp only [Fin.consEquiv, Equiv.coe_fn_mk, Fin.sum_univ_succ, Fin.cons_zero,
        Fin.cons_succ])]
  rw [Fintype.sum_prod_type]
  apply Finset.sum_congr rfl
  intro a _
  dsimp only
  by_cases ha : (a : Nat) + 1 ≤ s
  · rw [if_pos ha, Finset.card_filter]
    apply Finset.sum_congr rfl
    intro g _
    have : ((a : Nat) + 1 + ∑ i, ((g i : Nat) + 1) = s)
        ↔ (∑ i, ((g i : Nat) + 1) = s - ((a : Nat) + 1)) := by omega
    simp only [this]
  · rw [if_neg ha]
    apply Finset.sum_eq_zero
    intro g _
    rw [if_neg]
    omega

theorem tupleCount_zero (m s : Nat) : tupleCount m 0 s = if s = 0 then 1 else 0 := by
  unfold tupleCount
  rw [Finset.card_filter]
  simp [eq_comm]

theorem tupleCount_eq_zero_of_lt (m n s : Nat) (h : s < n) : tupleCount m n s = 0 := by
  unfold tupleCount
  rw [Finset.card_eq_zero, Finset.filter_eq_empty_iff]
  intro f _ hf
  have : ∑ _i : Fin n, 1 ≤ ∑ i, ((f i : Nat) + 1) :=
    Finset.sum_le_sum (fun i _ => Nat.le_add_left 1 _)
  simp at this
  omega

theorem tupleCount_eq_zero_of_gt (m n s : Nat) (h : n * m < s) : tupleCount m n s = 0 := by
  unfold tupleCount
  rw [Finset.card_eq_zero, Finset.filter_eq_empty_iff]
  intro f _ hf
  have : ∑ i, ((f i : Nat) + 1) ≤ ∑ _i : Fin n, m :=
    Finset.sum_le_sum (fun i _ => (f i).isLt)
  simp at this
  omega

theorem tupleCount_one (m k : Nat) : tupleCount m 1 (k + 1) = if k < m then 1 else 0 := by
  rw [tupleCount_succ]
  simp only [tupleCount_zero]
  by_cases hk : k < m
  · rw [if_pos hk, Finset.sum_eq_single k]
    · simp
    · intro b _ hb
      by_cases h : b + 1 ≤ k + 1
      · rw [if_pos h, if_neg]; omega
      · rw [if_neg h]
    · intro h; exact absurd (Finset.mem_range.mpr hk) h
  · rw [if_neg hk]
    apply Finset.sum_eq_zero
    intro b hb
    rw [Finset.mem_range] at hb
    by_cases h : b + 1 ≤ k + 1
    · rw [if_pos h, if_neg]; omega
    · rw [if_neg h]

/-- The recursion in the shape in which `add` computes it. -/
theorem tupleCount_conv (m t k : Nat) (ht : 1 ≤ t) :
    tupleCount m (t + 1) (k + 1) =
      ∑ i ∈ Finset.range (t * m), ∑ j ∈ Finset.range m,
        if i + j + 1 = k then tupleCount m t (i + 1) else 0 := by
  rw [tupleCount_succ, Finset.sum_comm]
  apply Finset.sum_congr rfl
  intro j _
  by_cases hj : j + 1 ≤ k
  · rw [if_pos (by omega)]
    by_cases hi : k - j - 1 < t * m
    · rw [Finset.sum_eq_single (k - j - 1)]
      · rw [if_pos (by omega)]; congr 1; omega
      · intro b _ hb; rw [if_neg]; omega
      · intro h; exact absurd (Finset.mem_range.mpr hi) h
    · rw [tupleCount_eq_zero_of_gt m t _ (by omega)]
      symm
      apply Finset.sum_eq_zero
      intro b hb
      rw [Finset.mem_range] at hb
      rw [if_neg]; omega
  · have hz : (if j + 1 ≤ k + 1 then tupleCount m t (k + 1 - (j + 1)) else 0) = 0 := by
      by_cases h : j + 1 ≤ k + 1
      · rw [if_pos h]
        exact tupleCount_eq_zero_of_lt m t _ (by omega)
      · rw [if_neg h]
    rw [hz]
    symm
    apply Finset.sum_eq_zero
    intro b _
    rw [if_neg]; omega

/-! ## The loop of `dice` -/

theorem getD_replicate_one (m j : Nat) (hj : j < m) :
    (List.replicate m (1 : ℚ)).getD j 0 = 1 := by
  rw [List.getD_eq_getElem?_getD, List.getElem?_replicate, if_pos hj]; rfl

/-- The accumulator of `dice` after `t` additions of the uniform die with `m` faces:
it is well formed, has constant 0 and size `(t + 1) * m`, a positive total
weight, and the normalized weight of slot `k` is the share of the
`(t + 1)`-tuples of faces whose sum is `k + 1`. -/
theorem dice_loop (m : Nat) (hm : 1 ≤ m) (t : Nat) :
    ∃ acc, forRange t (createDistribution (m : Int) 1 0)
        (fun _ d3 => add d3 (createDistribution (m : Int) 1 0)) = .ok acc ∧
      acc.WF ∧ acc.constant = 0 ∧ acc.size = (((t + 1) * m : Nat) : Int) ∧
      0 < acc.distribution.sum ∧
      ∀ k : Nat, acc.distribution.getD k 0 / acc.distribution.sum
        = (tupleCount m (t + 1) (k + 1) : ℚ) / (m : ℚ) ^ (t + 1) := by
  have hmq : (m : ℚ) ≠ 0 := by exact_mod_cast (by omega : m ≠ 0)
  have hdie : (createDistribution (m : Int) 1 0).distribution = List.replicate m 1 := by
    simp [createDistribution]
  have hdwf : (createDistribution (m : Int) 1 0).WF := by
    simp [Distribution.WF, createDistribution]
  have hdu : isUncertain (createDistribution (m : Int) 1 0) = true := by
    simp [isUncertain, createDistribution]; omega
  have hdsum : (createDistribution (m : Int) 1 0).distribution.sum = (m : ℚ) := by
    rw [hdie]; simp
  refine forRange_inv
    (fun t (acc : Distribution) =>
      acc.WF ∧ acc.constant = 0 ∧ acc.size = (((t + 1) * m : Nat) : Int) ∧
      0 < acc.distribution.sum ∧
      ∀ k : Nat, acc.distribution.getD k 0 / acc.distribution.sum
        = (tupleCount m (t + 1) (k + 1) : ℚ) / (m : ℚ) ^ (t + 1))
    t _ _ ⟨hdwf, rfl, by simp [createDistribution], ?_, ?_⟩ ?_
  · rw [hdsum]; exact_mod_cast hm
  · intro k
    rw [hdsum, hdie, tupleCount_one, zero_add, pow_one]
    by_cases hk : k < m
    · rw [getD_replicate_one m k hk, if_pos hk]; simp
    · rw [List.getD_eq_default _ _ (by simp; omega), if_neg hk]; simp
  · intro t _ acc ⟨hwf, hc, hs, hpos, hratio⟩
    have hu : isUncertain acc = true := by
      simp only [isUncertain, hs, gt_iff_lt, decide_eq_true_eq]
      have : 0 < (t + 1) * m := Nat.mul_pos (Nat.succ_pos t) hm
      exact_mod_cast this
    have hL : acc.distribution.length = (t + 1) * m := by
      have := WF_toNat hwf
      rw [hs, Int.toNat_natCast] at this
      exact this.symm
    obtain ⟨w, hadd, hlen, hw⟩ := add_uncertain acc _ hwf hdwf hu hdu
    have hsum : w.sum = 1 :=
      add_uncertain_sum acc _ w hlen hw hpos.ne' (by rw [hdsum]; exact hmq)
    refine ⟨_, hadd, ?_, ?_, ?_, ?_, ?_⟩
    · unfold Distribution.WF at hwf hdwf ⊢
      show ((w.length : Nat) : Int) = acc.size + (createDistribution (m : Int) 1 0).size
      rw [hlen, ← hwf, ← hdwf]; push_cast; rfl
    · show acc.constant + (createDistribution (m : Int) 1 0).constant = 0
      rw [hc]; simp [createDistribution]
    · show acc.size + (createDistribution (m : Int) 1 0).size = _
      rw [hs]; simp only [createDistribution]; push_cast; ring
    · show 0 < w.sum
      rw [hsum]; exact one_pos
    · intro k
      show w.getD k 0 / w.sum = _
      rw [hsum, div_one, hw k, hL, hdie, List.length_replicate, tupleCount_conv m (t + 1) k
        (Nat.succ_pos t)]
      have hterm : ∀ i ∈ Finset.range ((t + 1) * m), ∀ j ∈ Finset.range m,
          (if i + j + 1 = k then
            acc.distribution.getD i 0 / acc.distribution.sum *
              (List.replicate m (1 : ℚ)).getD j 0 / (List.replicate m (1 : ℚ)).sum
          else 0)
          = (if i + j + 1 = k then (tupleCount m (t + 1) (i + 1) : ℚ) else 0)
              / (m : ℚ) ^ (t + 1 + 1) := by
        intro i _ j hj
        by_cases hc : i + j + 1 = k
        · rw [if_pos hc, if_pos hc, hratio i, getD_replicate_one m j (Finset.mem_range.mp hj),
            ← hdie, hdsum, mul_one, div_div, ← pow_succ]
        · rw [if_neg hc, if_neg hc, zero_div]
      rw [Finset.sum_congr rfl (fun i hi => Finset.sum_congr rfl (hterm i hi))]
      simp_rw [← Finset.sum_div]
      push_cast
      rfl

/-- C11 (as stated, refuted). The count is converted to the 32-bit `int` of the program:
for `n = 2 ^ 32` and `m = 6` the conversion is out of range, the loop of `dice` does not
run, and `dice` returns the table of one die (six weights 1, size 6), not a distribution
of size `n * m`. -/
theorem dice_count_out_of_int_range :
    dice sampleLowDraws 0 (createDistribution 0 0 4294967296) (createDistribution 0 0 6) 0
      = .ok (⟨0, [1, 1, 1, 1, 1, 1], 6⟩, 0) ∧
    (6 : Int) ≠ 4294967296 * 6 := by
  refine ⟨by with_unfolding_all rfl, by decide⟩

/-- C11 (amended). For naturals `n ≥ 1` and `m ≥ 1` with `n * m < 2 ^ 31` (the sizes are
values of the 32-bit `int`), `dice(create(0,0,n), create(0,0,m))` returns, without
consulting the random source, a distribution with constant 0, size `n * m` and positive
total weight in which, for every index `k < n * m`, `weights[k] / totalWeight` is the
number of `n`-tuples of faces in `1..m` whose sum is `k + 1`, divided by `m ^ n`. -/
theorem dice_is_sum_of_dice (R : RandSource) (fuel pos : Nat) (n m : Nat)
    (hn : 1 ≤ n) (hm : 1 ≤ m) (hr : n * m < 2147483648) :
    ∃ d3, dice R fuel (createDistribution 0 0 (n : ℚ)) (createDistribution 0 0 (m : ℚ)) pos
        = .ok (d3, pos) ∧
      d3.constant = 0 ∧ d3.size = (n : Int) * (m : Int) ∧
      getTotalWeight d3 = .ok d3.distribution.sum ∧ 0 < d3.distribution.sum ∧
      ∀ k : Nat, k < n * m →
        ∃ x, d3.distribution[k]? = some x ∧
          x / d3.distribution.sum = (tupleCount m n (k + 1) : ℚ) / (m : ℚ) ^ n := by
  obtain ⟨acc, hrun, hwf, hc, hs, hpos, hratio⟩ := dice_loop m hm (n - 1)
  have hn1 : n - 1 + 1 = n := by omega
  rw [hn1] at hs hratio
  have hnr : n < 2147483648 := lt_of_le_of_lt (Nat.le_mul_of_pos_right n (by omega)) hr
  have hmr : m < 2147483648 := lt_of_le_of_lt (Nat.le_mul_of_pos_left m (by omega)) hr
  have hcert : ∀ x : ℚ, isUncertain (createDistribution 0 0 x) = false := fun x => rfl
  have hloop : ((n : Int) - 1).toNat = n - 1 := by omega
  have hnz : ¬ ((n : Int) = 0 ∨ (m : Int) = 0) := by omega
  refine ⟨acc, ?_, hc, by rw [hs]; push_cast; rfl, getTotalWeight_eq acc hwf, hpos, ?_⟩
  · have hconst : ∀ x : ℚ, (createDistribution 0 0 x).constant = x := fun _ => rfl
    simp only [dice, hcert, Bool.false_eq_true, if_false, pure_eq_ok, ok_bind, hconst,
      doubleToInt_natCast n hnr, doubleToInt_natCast m hmr, hnz, hloop, hrun]
  · intro k hk
    have hL : k < acc.distribution.length := by
      have := WF_toNat hwf
      rw [hs, Int.toNat_natCast] at this
      omega
    exact ⟨acc.distribution.getD k 0,
      by rw [List.getD_eq_getElem _ _ hL, List.getElem?_eq_getElem hL], hratio k⟩

/-- Instance of C11 (amended) at 3d6. -/
theorem dice_is_sum_of_dice_witness :
    ∃ d3, dice sampleLowDraws 0 (createDistribution 0 0 ((3 : Nat) : ℚ))
        (createDistribution 0 0 ((6 : Nat) : ℚ)) 0 = .ok (d3, 0) ∧
      d3.constant = 0 ∧ d3.size = ((3 : Nat) : Int) * ((6 : Nat) : Int) ∧
      getTotalWeight d3 = .ok d3.distribution.sum ∧ 0 < d3.distribution.sum ∧
      ∀ k : Nat, k < 3 * 6 →
        ∃ x, d3.distribution[k]? = some x ∧
          x / d3.distribution.sum = (tupleCount 6 3 (k + 1) : ℚ) / ((6 : Nat) : ℚ) ^ 3 :=
  dice_is_sum_of_dice sampleLowDraws 0 0 3 6 (by decide) (by decide) (by decide)

/-! ## Claims about `roll`, `prob` and `avg` -/

/-- C12 (the code departs from the claim). `roll(1d2)` when every draw is 0: the
sampler puts slot 0 alone into section 1, steps `start_index` past the divider
and recurses on the inverted slice `[1, 0]`, where it reads `prob[-1]`: the call
is an out-of-bounds read and returns no outcome. -/
theorem roll_1d2_out_of_bounds (fuel pos : Nat) :
    roll sampleLowDraws (fuel + 2) (createDistribution 2 1 0) pos
      = .error Fault.outOfBounds := by
  with_unfolding_all rfl

/-- C13 (the code departs from the claim). `prob(2, 2d6)`: the weight of the
outcome 2 is slot 1 of the 2d6 table, `1/36` of a total weight 1, but `prob`
reads slot `2 - 0 = 2` and returns `1/18`; and for the largest outcome 12, whose
weight is `1/36`, `prob` returns 0. -/
theorem prob_2d6_off_by_one (R : RandSource) (fuel pos : Nat) :
    ∃ d2, dice R fuel (createDistribution 0 0 2) (createDistribution 0 0 6) pos = .ok (d2, pos) ∧
      isUncertain d2 = true ∧ d2.constant = 0 ∧ getMax d2 = 12 ∧
      getTotalWeight d2 = .ok 1 ∧
      d2.distribution[1]? = some (1 / 36) ∧
      prob R fuel (createDistribution 0 0 2) d2 pos = .ok (⟨1 / 18, [], 0⟩, pos) ∧
      d2.distribution[11]? = some (1 / 36) ∧
      prob R fuel (createDistribution 0 0 12) d2 pos = .ok (⟨0, [], 0⟩, pos) :=
  ⟨⟨0, [0, 1 / 36, 2 / 36, 3 / 36, 4 / 36, 5 / 36, 6 / 36, 5 / 36, 4 / 36, 3 / 36, 2 / 36,
      1 / 36], 12⟩,
    by with_unfolding_all rfl, by with_unfolding_all rfl, rfl, by with_unfolding_all rfl,
    by with_unfolding_all rfl, by with_unfolding_all rfl, by with_unfolding_all rfl,
    by with_unfolding_all rfl, by with_unfolding_all rfl⟩

/-- C14 (the code departs from the claim). A target below the domain: `prob(0, 1d6)`
returns `1/6` instead of 0 (the value 0 equals `d2.constant`, slot 0 is read), and
`prob(0, 1d6 + 1)` reads slot `-1` of the weight table, an out-of-bounds read. -/
theorem prob_below_domain (R : RandSource) (fuel pos : Nat) :
    prob R fuel (createDistribution 0 0 0) (createDistribution 6 1 0) pos
      = .ok (⟨1 / 6, [], 0⟩, pos) ∧
    prob R fuel (createDistribution 0 0 0) ⟨1, [1, 1, 1, 1, 1, 1], 6⟩ pos
      = .error Fault.outOfBounds :=
  ⟨by with_unfolding_all rfl, by with_unfolding_all rfl⟩

/-- C15 (the code departs from the claim). On the 1d6 built by `dice`, the query for
the face 4 returns `1/6`, but the query for the largest face 6 returns 0. -/
theorem prob_1d6_largest_face (R : RandSource) (fuel pos : Nat) :
    ∃ d2, dice R fuel (createDistribution 0 0 1) (createDistribution 0 0 6) pos = .ok (d2, pos) ∧
      prob R fuel (createDistribution 0 0 4) d2 pos = .ok (⟨1 / 6, [], 0⟩, pos) ∧
      prob R fuel (createDistribution 0 0 6) d2 pos = .ok (⟨0, [], 0⟩, pos) :=
  ⟨createDistribution 6 1 0, by with_unfolding_all rfl, by with_unfolding_all rfl,
    by with_unfolding_all rfl⟩

/-- C16 (the code departs from the claim). `prob(1d6, 6)` when every draw is
`RAND_MAX`: rolling the 1d6 gives 6, and `prob` of that rolled value against the
certain 6 is 1, but `prob(1d6, 6)` itself compares `d1.constant = 0` with 6 and
returns 0 (it makes the same two draws). -/
theorem prob_ignores_rolled_value (fuel : Nat) :
    roll sampleHighDraws (fuel + 3) (createDistribution 6 1 0) 0 = .ok (⟨6, [], 0⟩, 2) ∧
    prob sampleHighDraws (fuel + 3) ⟨6, [], 0⟩ (createDistribution 0 0 6) 2
      = .ok (⟨1, [], 0⟩, 2) ∧
    prob sampleHighDraws (fuel + 3) (createDistribution 6 1 0) (createDistribution 0 0 6) 0
      = .ok (⟨0, [], 0⟩, 2) :=
  ⟨by with_unfolding_all rfl, by with_unfolding_all rfl, by with_unfolding_all rfl⟩

/-- C17. For certain `d1` (value `v`) and certain `d2`, `prob` returns, without
consulting the random source, the certain distribution with constant 1 if
`v = d2.constant` and constant 0 otherwise. -/
theorem prob_certain_certain (R : RandSource) (fuel pos : Nat) (d1 d2 : Distribution)
    (hu1 : isUncertain d1 = false) (hu2 : isUncertain d2 = false) :
    prob R fuel d1 d2 pos
      = .ok (⟨if d1.constant = d2.constant then 1 else 0, [], 0⟩, pos) := by
  simp only [prob, hu1, hu2, Bool.false_eq_true, if_false, pure_eq_ok, ok_bind]
  by_cases h : d1.constant = d2.constant
  · simp only [h, if_true]; rfl
  · simp only [h, if_false]; rfl

/-- Instance of C17 at the certain values 5 and 7/2. -/
theorem prob_certain_certain_witness :
    prob sampleLowDraws 0 sampleFive sampleHalf 0
      = .ok (⟨if sampleFive.constant = sampleHalf.constant then 1 else 0, [], 0⟩, 0) :=
  prob_certain_certain sampleLowDraws 0 0 sampleFive sampleHalf rfl rfl

/-- C18. For an uncertain well-formed `d` with positive total weight, `avg d`
returns the certain distribution (size 0) whose constant is
`(∑ i < size, weights[i] * (constant + i)) / totalWeight`. -/
theorem avg_uncertain (d : Distribution) (h : d.WF) (hu : isUncertain d = true)
    (_hp : 0 < d.distribution.sum) :
    avg d = .ok ⟨(∑ i ∈ Finset.range d.size.toNat,
        d.distribution.getD i 0 * (d.constant + (i : ℚ))) / d.distribution.sum, [], 0⟩ := by
  obtain ⟨st, hrun, hP⟩ := forRange_inv
    (fun t (st : ℚ × ℚ) => st = (∑ i ∈ Finset.range t,
        d.distribution.getD i 0 * (d.constant + (i : ℚ)), (d.distribution.take t).sum))
    d.size.toNat ((0 : ℚ), (0 : ℚ))
    (fun i st => do
      let x ← readAt d.distribution i
      pure (st.1 + x * ((i : ℚ) + d.constant), st.2 + x))
    (by simp) (by
      intro t ht st hst
      rw [WF_toNat h] at ht
      refine ⟨(st.1 + d.distribution.getD t 0 * ((t : ℚ) + d.constant),
        st.2 + d.distribution.getD t 0),
        by simp only [readAt_nat _ _ ht, ok_bind, pure_eq_ok], ?_⟩
      show (_, _) = (_, _)
      rw [hst, Finset.sum_range_succ, List.sum_take_succ _ _ ht,
        List.getD_eq_getElem _ _ ht, add_comm (t : ℚ) d.constant])
  rw [WF_toNat h, List.take_length] at hP
  simp only [avg, hu, Bool.not_true, Bool.false_eq_true, if_false]
  rw [hrun, hP, WF_toNat h]
  rfl

/-- Instance of C18 at `sampleSkewed`. -/
theorem avg_uncertain_witness :
    avg sampleSkewed = .ok ⟨(∑ i ∈ Finset.range sampleSkewed.size.toNat,
        sampleSkewed.distribution.getD i 0 * (sampleSkewed.constant + (i : ℚ)))
          / sampleSkewed.distribution.sum, [], 0⟩ :=
  avg_uncertain sampleSkewed (by decide) rfl (by norm_num [sampleSkewed])

/-- C19. For a certain distribution with constant `x`, `roll` and `avg` each return
the certain distribution (size 0) with constant `x`, `roll` leaving the position
of the random source unchanged; in particular `avg (createDistribution 0 0 x)`
has constant `x`. -/
theorem roll_avg_certain (R : RandSource) (fuel pos : Nat) (d : Distribution)
    (hu : isUncertain d = false) :
    roll R fuel d pos = .ok (⟨d.constant, [], 0⟩, pos) ∧
    avg d = .ok ⟨d.constant, [], 0⟩ ∧
    ∀ x : ℚ, avg (createDistribution 0 0 x) = .ok ⟨x, [], 0⟩ := by
  refine ⟨?_, ?_, fun x => rfl⟩
  · simp only [roll, hu, Bool.false_eq_true, if_false]; rfl
  · simp only [avg, hu, Bool.not_false, if_true]; rfl

/-- Instance of C19 at the certain value 7/2. -/
theorem roll_avg_certain_witness :
    roll sampleHighDraws 0 sampleHalf 4 = .ok (⟨sampleHalf.constant, [], 0⟩, 4) ∧
    avg sampleHalf = .ok ⟨sampleHalf.constant, [], 0⟩ ∧
    ∀ x : ℚ, avg (createDistribution 0 0 x) = .ok ⟨x, [], 0⟩ :=
  roll_avg_certain sampleHighDraws 0 4 sampleHalf rfl

/-- With at least two slots, all of weight zero, the scan of `divideAndRoll` never sets
the divider and the sampler reads `prob[-1]`. -/
theorem roll_all_zero_out_of_bounds (R : RandSource) (fuel pos : Nat) (d : Distribution)
    (h : d.WF) (hs : 2 ≤ d.size) (hz : ∀ x ∈ d.distribution, x = 0) :
    roll R (fuel + 1) d pos = .error Fault.outOfBounds := by
  have hu : isUncertain d = true := by
    simp only [isUncertain, gt_iff_lt, decide_eq_true_eq]; omega
  have hsum : d.distribution.sum = 0 := List.sum_eq_zero hz
  have hL := WF_toNat h
  have hget : ∀ t : Nat, t < d.distribution.length → d.distribution.getD t 0 = 0 := by
    intro t ht
    rw [List.getD_eq_getElem _ _ ht]
    exact hz _ (List.getElem_mem _)
  obtain ⟨s, hrun, hP⟩ := forRange_inv
    (fun _ (s : ScanState) => s = ⟨0, 0, -1⟩)
    (d.size - 1 - 0 + 1).toNat
    ({ weight_section1 := 0, weight_section2 := 0, divider := -1 } : ScanState)
    (fun t s => do
      let i : Int := 0 + (t : Int)
      let x ← readAt d.distribution i
      if s.divider = -1 then
        let w1 := s.weight_section1 + x
        if w1 > (1 / 2 : ℚ) * (0 : ℚ) then
          pure { s with weight_section1 := w1, divider := i }
        else
          pure { s with weight_section1 := w1 }
      else
        pure { s with weight_section2 := s.weight_section2 + x })
    rfl (by
      intro t ht s hs'
      have ht' : t < d.distribution.length := by omega
      refine ⟨s, ?_, hs'⟩
      subst hs'
      simp only [zero_add, readAt_nat _ _ ht', hget t ht', ok_bind, if_true, add_zero,
        mul_zero, gt_iff_lt, lt_self_iff_false, if_false, pure_eq_ok])
  have hne : ¬ ((0 : Int) = d.size - 1) := by omega
  simp only [roll, hu, if_true, getTotalWeight_eq d h, hsum, ok_bind, divideAndRoll, hne,
    if_false, hrun, hP]
  rfl

/-- C20 (as stated, refuted). For the uncertain distribution with the single weight 0
(total weight 0), `roll` raises no error: it returns the index 0, that is the
certain distribution with constant 1, without consulting the random source. -/
theorem roll_zero_weight_returns :
    isUncertain (createDistribution 1 0 0) = true ∧
    getTotalWeight (createDistribution 1 0 0) = .ok 0 ∧
    roll sampleLowDraws 1 (createDistribution 1 0 0) 0 = .ok (⟨1, [], 0⟩, 0) :=
  ⟨rfl, by with_unfolding_all rfl, by with_unfolding_all rfl⟩

/-- C20 (amended). For every well-formed distribution with a single weight slot, in
particular one whose weight is zero, `roll` returns without error and without
consulting the random source the certain distribution with constant
`d.constant + 1` (the index 0). -/
theorem roll_single_slot (R : RandSource) (fuel pos : Nat) (d : Distribution)
    (h : d.WF) (hs : d.size = 1) :
    roll R (fuel + 1) d pos = .ok (⟨d.constant + 1, [], 0⟩, pos) := by
  have hu : isUncertain d = true := by simp [isUncertain, hs]
  simp only [roll, hu, if_true, getTotalWeight_eq d h, ok_bind, hs, divideAndRoll, sub_self,
    pure_eq_ok, createDistribution]
  norm_num

/-- Instance of C20 (amended) at the single zero weight with constant 7. -/
theorem roll_single_slot_witness :
    roll sampleHighDraws 1 ⟨7, [0], 1⟩ 3 = .ok (⟨7 + 1, [], 0⟩, 3) :=
  roll_single_slot sampleHighDraws 0 3 ⟨7, [0], 1⟩ (by decide) rfl

/-! ## Claims about the operands of `dice` -/

theorem truncInt_intCast (z : Int) : truncInt (z : ℚ) = z := by
  unfold truncInt
  split
  · exact Int.floor_intCast z
  · exact Int.ceil_intCast z

/-- The result of `roll` is a certain distribution. -/
theorem roll_result_certain (R : RandSource) (fuel : Nat) (d : Distribution) (pos : Nat)
    (r : Distribution) (p : Nat) (h : roll R fuel d pos = .ok (r, p)) :
    isUncertain r = false := by
  unfold roll at h
  split at h
  · cases hT : getTotalWeight d with
    | error e => rw [hT] at h; cases h
    | ok W =>
      rw [hT] at h
      simp only [ok_bind] at h
      cases hD : divideAndRoll R fuel d.distribution 0 (d.size - 1) W pos with
      | error e => rw [hD] at h; cases h
      | ok v =>
        rw [hD] at h
        simp only [ok_bind, pure_eq_ok] at h
        injection h with h
        injection h with h1 h2
        rw [← h1]; rfl
  · simp only [pure_eq_ok] at h
    injection h with h
    injection h with h1 h2
    rw [← h1]; rfl

/-- Source `dice` on two certain operands: the counts are the constants converted to
`int`. -/
theorem dice_certain (R : RandSource) (fuel pos : Nat) (d1 d2 : Distribution)
    (hu1 : isUncertain d1 = false) (hu2 : isUncertain d2 = false) :
    dice R fuel d1 d2 pos =
      if doubleToInt d1.constant = 0 ∨ doubleToInt d2.constant = 0 then
        .ok (createDistribution 0 0 0, pos)
      else
        (forRange (doubleToInt d1.constant - 1).toNat (createDistribution (doubleToInt d2.constant) 1 0)
          fun _ d3 => add d3 (createDistribution (doubleToInt d2.constant) 1 0)) >>=
          fun d3 => .ok (d3, pos) := by
  simp only [dice, hu1, hu2, Bool.false_eq_true, if_false, pure_eq_ok, ok_bind]

/-- Source `dice`: each uncertain operand is replaced by the result of rolling it, first
`d1`, then `d2`, before anything else is done. -/
theorem dice_resolved (R : RandSource) (fuel pos : Nat) (d1 d2 : Distribution) :
    dice R fuel d1 d2 pos =
      ((if isUncertain d1 = true then roll R fuel d1 pos else .ok (d1, pos)) >>= fun a =>
        (if isUncertain d2 = true then roll R fuel d2 a.2 else .ok (d2, a.2)) >>= fun b =>
          dice R fuel a.1 b.1 b.2) := by
  cases hu1 : isUncertain d1
  · cases hu2 : isUncertain d2
    · simp only [Bool.false_eq_true, if_false, ok_bind]
    · simp only [Bool.false_eq_true, if_false, if_true, ok_bind]
      cases hr : roll R fuel d2 pos with
      | error e => simp only [dice, hu1, hu2, hr, Bool.false_eq_true, if_false, if_true,
          pure_eq_ok, ok_bind, error_bind]
      | ok b =>
        have hb := roll_result_certain R fuel d2 pos b.1 b.2 hr
        simp only [dice, hu1, hu2, hr, hb, Bool.false_eq_true, if_false, if_true, pure_eq_ok,
          ok_bind]
  · cases hr1 : roll R fuel d1 pos with
    | error e => simp only [dice, hu1, hr1, if_true, error_bind]
    | ok a =>
      have ha := roll_result_certain R fuel d1 pos a.1 a.2 hr1
      cases hu2 : isUncertain d2
      · simp only [dice, hu1, hu2, hr1, ha, Bool.false_eq_true, if_false, if_true, pure_eq_ok,
          ok_bind]
      · cases hr2 : roll R fuel d2 a.2 with
        | error e => simp only [dice, hu1, hu2, hr1, hr2, ha, Bool.false_eq_true, if_false,
            if_true, pure_eq_ok, ok_bind, error_bind]
        | ok b =>
          have hb := roll_result_certain R fuel d2 a.2 b.1 b.2 hr2
          simp only [dice, hu1, hu2, hr1, hr2, ha, hb, Bool.false_eq_true, if_false, if_true,
            pure_eq_ok, ok_bind]

/-- C22. When the resolved dice count or face count is 0 (each operand being rolled
first if it is uncertain, `d1` before `d2`, and truncated to an integer), `dice`
returns the certain distribution (size 0) with constant 0. -/
theorem dice_zero_count (R : RandSource) (fuel pos : Nat) (d1 d2 : Distribution)
    (a b : Distribution × Nat)
    (h1 : (if isUncertain d1 = true then roll R fuel d1 pos else .ok (d1, pos)) = .ok a)
    (h2 : (if isUncertain d2 = true then roll R fuel d2 a.2 else .ok (d2, a.2)) = .ok b)
    (h0 : truncInt a.1.constant = 0 ∨ truncInt b.1.constant = 0) :
    dice R fuel d1 d2 pos = .ok (⟨0, [], 0⟩, b.2) := by
  have ha : isUncertain a.1 = false := by
    cases hu : isUncertain d1
    · rw [hu] at h1
      simp only [Bool.false_eq_true, if_false] at h1
      injection h1 with h1
      rw [← h1]; exact hu
    · rw [hu, if_pos rfl] at h1
      exact roll_result_certain R fuel d1 pos a.1 a.2 h1
  have hb : isUncertain b.1 = false := by
    cases hu : isUncertain d2
    · rw [hu] at h2
      simp only [Bool.false_eq_true, if_false] at h2
      injection h2 with h2
      rw [← h2]; exact hu
    · rw [hu, if_pos rfl] at h2
      exact roll_result_certain R fuel d2 a.2 b.1 b.2 h2
  have h0' : doubleToInt a.1.constant = 0 ∨ doubleToInt b.1.constant = 0 :=
    h0.imp (doubleToInt_eq_zero_iff _).2 (doubleToInt_eq_zero_iff _).2
  rw [dice_resolved, h1, ok_bind, h2, ok_bind, dice_certain R fuel b.2 a.1 b.1 ha hb, if_pos h0']
  rfl

/-- Instance of C22: the certain count 0 and the faces `1d2` rolled with draws `RAND_MAX`. -/
theorem dice_zero_count_witness :
    dice sampleHighDraws 2 (createDistribution 0 0 0) (createDistribution 2 1 0) 0
      = .ok (⟨0, [], 0⟩, 1) :=
  dice_zero_count sampleHighDraws 2 0 (createDistribution 0 0 0) (createDistribution 2 1 0)
    (createDistribution 0 0 0, 0) (⟨2, [], 0⟩, 1)
    (by with_unfolding_all rfl) (by with_unfolding_all rfl) (Or.inl (by with_unfolding_all rfl))

/-- C23. With at least one uncertain operand, `dice d1 d2` is `dice` applied to the
results of rolling the uncertain operands on the same draws, first `d1`, then
`d2` (a roll that faults makes `dice` fault in the same way); the rolled values
are certain, so the result is the table for the sampled count and faces. -/
theorem dice_uses_rolled_operands (R : RandSource) (fuel pos : Nat) (d1 d2 : Distribution)
    (_hunc : isUncertain d1 = true ∨ isUncertain d2 = true) :
    dice R fuel d1 d2 pos =
      ((if isUncertain d1 = true then roll R fuel d1 pos else .ok (d1, pos)) >>= fun a =>
        (if isUncertain d2 = true then roll R fuel d2 a.2 else .ok (d2, a.2)) >>= fun b =>
          dice R fuel a.1 b.1 b.2) ∧
    ∀ a b : Distribution × Nat,
      (if isUncertain d1 = true then roll R fuel d1 pos else .ok (d1, pos)) = .ok a →
      (if isUncertain d2 = true then roll R fuel d2 a.2 else .ok (d2, a.2)) = .ok b →
      isUncertain a.1 = false ∧ isUncertain b.1 = false ∧
        dice R fuel d1 d2 pos = dice R fuel a.1 b.1 b.2 := by
  refine ⟨dice_resolved R fuel pos d1 d2, fun a b h1 h2 => ⟨?_, ?_, ?_⟩⟩
  · cases hu : isUncertain d1
    · rw [hu] at h1
      simp only [Bool.false_eq_true, if_false] at h1
      injection h1 with h1
      rw [← h1]; exact hu
    · rw [hu, if_pos rfl] at h1
      exact roll_result_certain R fuel d1 pos a.1 a.2 h1
  · cases hu : isUncertain d2
    · rw [hu] at h2
      simp only [Bool.false_eq_true, if_false] at h2
      injection h2 with h2
      rw [← h2]; exact hu
    · rw [hu, if_pos rfl] at h2
      exact roll_result_certain R fuel d2 a.2 b.1 b.2 h2
  · rw [dice_resolved, h1, ok_bind, h2, ok_bind]

/-- Instance of C23: `(1d2)d6` with draws `RAND_MAX` rolls the count 2. -/
theorem dice_uses_rolled_operands_witness :
    roll sampleHighDraws 2 (createDistribution 2 1 0) 0 = .ok (⟨2, [], 0⟩, 1) ∧
    dice sampleHighDraws 2 (createDistribution 2 1 0) (createDistribution 0 0 6) 0
      = dice sampleHighDraws 2 ⟨2, [], 0⟩ (createDistribution 0 0 6) 1 :=
  ⟨by with_unfolding_all rfl,
    ((dice_uses_rolled_operands sampleHighDraws 2 0 (createDistribution 2 1 0)
      (createDistribution 0 0 6) (Or.inl rfl)).2 (⟨2, [], 0⟩, 1) (createDistribution 0 0 6, 1)
      (by with_unfolding_all rfl) (by with_unfolding_all rfl)).2.2⟩

/-! ## The engine with its global state: relation to the functional model -/

/-- The state after one more `createDistribution`. -/
theorem createDistributionL_snd (size : Int) (initVal constant : ℚ) (w : World) :
    (createDistributionL size initVal constant w).2
      = { w with active_distribution_count := w.active_distribution_count + 1 } := rfl

theorem bind_pair {α β σ : Type} (x : Except Fault α) (g : α → β) (s : σ) :
    (x >>= fun a => (Except.ok (g a, s) : Except Fault (β × σ)))
      = ((x >>= fun a => (Except.ok (g a) : Except Fault β)) >>= fun b => Except.ok (b, s)) := by
  cases x <;> rfl

/-- Source `add` with the global state: the result of `add`, one distribution more. -/
theorem addL_eq (d1 d2 : Distribution) (w : World) :
    addL d1 d2 w = add d1 d2 >>= fun d =>
      .ok (d, { w with active_distribution_count := w.active_distribution_count + 1 }) := by
  simp only [addL, add, createDistributionL, pure_eq_ok]
  cases getTotalWeight d1 with
  | error e => rfl
  | ok W1 =>
    cases getTotalWeight d2 with
    | error e => rfl
    | ok W2 =>
      simp only [ok_bind]
      split
      · exact bind_pair _ _ _
      · split
        · exact bind_pair _ _ _
        · split
          · exact bind_pair _ _ _
          · rfl

/-- Source `times` with the global state: the result of `times`, one distribution more. -/
theorem timesL_eq (d1 d2 : Distribution) (w : World) :
    timesL d1 d2 w = times d1 d2 >>= fun d =>
      .ok (d, { w with active_distribution_count := w.active_distribution_count + 1 }) := by
  simp only [timesL, times, createDistributionL, pure_eq_ok]
  split
  · rfl
  · split
    · cases getTotalWeight d1 with
      | error e => rfl
      | ok W1 =>
        cases getTotalWeight d2 with
        | error e => rfl
        | ok W2 =>
          simp only [ok_bind]
          exact bind_pair _ _ _
    · split
      · cases getTotalWeight d1 with
        | error e => rfl
        | ok W1 =>
          simp only [ok_bind]
          exact bind_pair _ _ _
      · split
        · cases getTotalWeight d2 with
          | error e => rfl
          | ok W2 =>
            simp only [ok_bind]
            exact bind_pair _ _ _
        · rfl

/-- Source `avg` with the global state: the result of `avg`, one distribution more. -/
theorem avgL_eq (d : Distribution) (w : World) :
    avgL d w = avg d >>= fun r =>
      .ok (r, { w with active_distribution_count := w.active_distribution_count + 1 }) := by
  simp only [avgL, avg, createDistributionL, pure_eq_ok]
  split
  · rfl
  · exact bind_pair _ (fun st : ℚ × ℚ => createDistribution 0 0 (st.1 / st.2)) _

/-- Source `roll` with the global state: the result of `roll` from the current position,
one distribution more, the position moved. -/
theorem rollL_eq (R : RandSource) (fuel : Nat) (d : Distribution) (w : World) :
    rollL R fuel d w = roll R fuel d w.pos >>= fun r =>
      .ok (r.1, { w with active_distribution_count := w.active_distribution_count + 1,
                         pos := r.2 }) := by
  simp only [rollL, roll, createDistributionL, pure_eq_ok]
  split
  · cases getTotalWeight d with
    | error e => rfl
    | ok W =>
      simp only [ok_bind]
      cases divideAndRoll R fuel d.distribution 0 (d.size - 1) W w.pos with
      | error e => rfl
      | ok v => rfl
  · rfl

/-- Partial-correctness rule for `forRange`: an invariant kept by every step that
completes holds for the state in which the loop completes. -/
theorem forRange_ok_inv {σ : Type} (P : Nat → σ → Prop) (n : Nat) (init : σ)
    (body : Nat → σ → Except Fault σ) (h0 : P 0 init)
    (hstep : ∀ t, t < n → ∀ s s', P t s → body t s = .ok s' → P (t + 1) s') :
    ∀ s', forRange n init body = .ok s' → P n s' := by
  induction n with
  | zero =>
    intro s' h
    rw [forRange_zero] at h
    injection h with h
    rw [← h]; exact h0
  | succ n ih =>
    intro s' h
    rw [forRange_succ] at h
    cases hs : forRange n init body with
    | error e => rw [hs] at h; cases h
    | ok s =>
      rw [hs, ok_bind] at h
      exact hstep n (Nat.lt_succ_self n) s s'
        (ih (fun t ht => hstep t (Nat.lt_succ_of_lt ht)) s hs) h

theorem addL_count (d1 d2 d : Distribution) (w w' : World) (h : addL d1 d2 w = .ok (d, w')) :
    w'.active_distribution_count = w.active_distribution_count + 1 := by
  rw [addL_eq] at h
  cases ha : add d1 d2 with
  | error e => rw [ha] at h; cases h
  | ok d0 =>
    rw [ha, ok_bind] at h
    injection h with h
    injection h with _ h2
    rw [← h2]

theorem timesL_count (d1 d2 d : Distribution) (w w' : World)
    (h : timesL d1 d2 w = .ok (d, w')) :
    w'.active_distribution_count = w.active_distribution_count + 1 := by
  rw [timesL_eq] at h
  cases ha : times d1 d2 with
  | error e => rw [ha] at h; cases h
  | ok d0 =>
    rw [ha, ok_bind] at h
    injection h with h
    injection h with _ h2
    rw [← h2]

theorem avgL_count (d r : Distribution) (w w' : World) (h : avgL d w = .ok (r, w')) :
    w'.active_distribution_count = w.active_distribution_count + 1 := by
  rw [avgL_eq] at h
  cases ha : avg d with
  | error e => rw [ha] at h; cases h
  | ok d0 =>
    rw [ha, ok_bind] at h
    injection h with h
    injection h with _ h2
    rw [← h2]

/-- A completed `roll` leaves one distribution more, the rolled value, which is certain;
nothing is released. -/
theorem rollL_frame (R : RandSource) (fuel : Nat) (d r : Distribution) (w w' : World)
    (h : rollL R fuel d w = .ok (r, w')) :
    w'.active_distribution_count = w.active_distribution_count + 1 ∧
    w'.released = w.released ∧ isUncertain r = false ∧
    roll R fuel d w.pos = .ok (r, w'.pos) := by
  rw [rollL_eq] at h
  cases ha : roll R fuel d w.pos with
  | error e => rw [ha] at h; cases h
  | ok v =>
    rw [ha, ok_bind] at h
    injection h with h
    injection h with h1 h2
    have hc := roll_result_certain R fuel d w.pos v.1 v.2 ha
    rw [← h2, ← h1]
    exact ⟨rfl, rfl, hc, rfl⟩

/-- A completed `resolve` leaves the counter as it was and releases at most the rolled
value. -/
theorem resolveL_frame (R : RandSource) (fuel : Nat) (d : Distribution) (w w' : World)
    (result : ℚ) (h : resolveL R fuel d w = .ok (result, w')) :
    w'.active_distribution_count = w.active_distribution_count ∧
    ∃ l, w'.released = w.released ++ l ∧ d ∉ l := by
  unfold resolveL at h
  cases hu : isUncertain d
  · rw [hu] at h
    simp only [Bool.false_eq_true, if_false, pure_eq_ok] at h
    injection h with h
    injection h with _ h2
    rw [← h2]
    exact ⟨rfl, [], by simp, by simp⟩
  · rw [hu, if_pos rfl] at h
    cases hr : rollL R fuel d w with
    | error e => rw [hr] at h; cases h
    | ok v =>
      obtain ⟨hc, hrel, hcert, _⟩ := rollL_frame R fuel d v.1 w v.2 hr
      rw [hr] at h
      simp only [ok_bind, pure_eq_ok, deleteDistributionL] at h
      injection h with h
      injection h with _ h2
      rw [← h2]
      refine ⟨by simp only [hc]; ring, [v.1], by simp only [hrel], ?_⟩
      intro hmem
      rw [List.mem_singleton] at hmem
      rw [hmem, hcert] at hu
      cases hu

/-- C24. `resolve d` returns `d.constant` and changes nothing when `d` is certain; when
`d` is uncertain it is `roll d` on the same draws followed by the release of the
rolled value, whose constant it returns (a roll that faults makes `resolve`
fault). Whenever `resolve` returns, the live count is what it was before the call
and `d` is not among the distributions that were released. -/
theorem resolve_spec (R : RandSource) (fuel : Nat) (d : Distribution) (w : World) :
    (isUncertain d = false → resolveL R fuel d w = .ok (d.constant, w)) ∧
    (isUncertain d = true →
      resolveL R fuel d w = roll R fuel d w.pos >>= fun r =>
        .ok (r.1.constant, { w with released := w.released ++ [r.1], pos := r.2 })) ∧
    ∀ (result : ℚ) (w' : World), resolveL R fuel d w = .ok (result, w') →
      w'.active_distribution_count = w.active_distribution_count ∧
      ∃ l, w'.released = w.released ++ l ∧ d ∉ l := by
  refine ⟨fun hu => ?_, fun hu => ?_, fun result w' h => resolveL_frame R fuel d w w' result h⟩
  · simp only [resolveL, hu, Bool.false_eq_true, if_false, pure_eq_ok]
  · simp only [resolveL, hu, if_true, rollL_eq]
    cases roll R fuel d w.pos with
    | error e => rfl
    | ok v =>
      simp only [ok_bind, pure_eq_ok, deleteDistributionL, add_sub_cancel_right]

/-- Instance of C24 at `1d2` with draws `RAND_MAX`: the roll gives 2. -/
theorem resolve_spec_witness :
    resolveL sampleHighDraws 2 (createDistribution 2 1 0) initialWorld
      = .ok (2, { initialWorld with released := [⟨2, [], 0⟩], pos := 1 }) ∧
    (isUncertain (createDistribution 2 1 0) = true →
      resolveL sampleHighDraws 2 (createDistribution 2 1 0) initialWorld
        = roll sampleHighDraws 2 (createDistribution 2 1 0) initialWorld.pos >>= fun r =>
          .ok (r.1.constant,
            { initialWorld with released := initialWorld.released ++ [r.1], pos := r.2 })) :=
  ⟨by with_unfolding_all rfl,
    (resolve_spec sampleHighDraws 2 (createDistribution 2 1 0) initialWorld).2.1⟩

/-- A completed `prob` leaves one distribution more. -/
theorem probL_count (R : RandSource) (fuel : Nat) (d1 d2 r : Distribution) (w w' : World)
    (h : probL R fuel d1 d2 w = .ok (r, w')) :
    w'.active_distribution_count = w.active_distribution_count + 1 := by
  unfold probL at h
  have key : ∀ (c : ℚ) (w1 : World),
      w1.active_distribution_count = w.active_distribution_count →
      (if isUncertain d2 = true then
          if c < getMax d2 then do
            let probability ← readAt d2.distribution (truncInt (c - d2.constant))
            let total ← getTotalWeight d2
            pure (createDistributionL 0 0 (probability / total) w1)
          else pure (createDistributionL 0 0 0 w1)
        else if c = d2.constant then pure (createDistributionL 0 0 1 w1)
          else pure (createDistributionL 0 0 0 w1)) = Except.ok (r, w') →
      w'.active_distribution_count = w.active_distribution_count + 1 := by
    intro c w1 hw1 hk
    split at hk
    · split at hk
      · cases hr : readAt d2.distribution (truncInt (c - d2.constant)) with
        | error e => rw [hr] at hk; cases hk
        | ok x =>
          rw [hr, ok_bind] at hk
          cases hT : getTotalWeight d2 with
          | error e => rw [hT] at hk; cases hk
          | ok T =>
            rw [hT, ok_bind] at hk
            injection hk with hk
            injection hk with _ h2
            rw [← h2]; show w1.active_distribution_count + 1 = _; rw [hw1]
      · injection hk with hk
        injection hk with _ h2
        rw [← h2]; show w1.active_distribution_count + 1 = _; rw [hw1]
    · split at hk
      · injection hk with hk
        injection hk with _ h2
        rw [← h2]; show w1.active_distribution_count + 1 = _; rw [hw1]
      · injection hk with hk
        injection hk with _ h2
        rw [← h2]; show w1.active_distribution_count + 1 = _; rw [hw1]
  cases hu : isUncertain d1
  · rw [hu] at h
    simp only [Bool.false_eq_true, if_false, pure_eq_ok, ok_bind] at h
    exact key d1.constant w rfl h
  · rw [hu, if_pos rfl] at h
    cases hr : rollL R fuel d1 w with
    | error e => rw [hr] at h; cases h
    | ok v =>
      have hc := (rollL_frame R fuel d1 v.1 w v.2 hr).1
      rw [hr] at h
      simp only [ok_bind, pure_eq_ok] at h
      exact key d1.constant (deleteDistributionL v.1 v.2)
        (by simp only [deleteDistributionL, hc]; ring) h

/-- A completed `dice` leaves one distribution more. -/
theorem diceL_count (R : RandSource) (fuel : Nat) (d1 d2 r : Distribution) (w w' : World)
    (h : diceL R fuel d1 d2 w = .ok (r, w')) :
    w'.active_distribution_count = w.active_distribution_count + 1 := by
  unfold diceL at h
  have key : ∀ (c1 c2 : Int) (w1 : World),
      w1.active_distribution_count = w.active_distribution_count →
      (if c1 = 0 ∨ c2 = 0 then pure (createDistributionL 0 0 0 w1)
        else do
          let (d3, w) := createDistributionL c2 1 0 w1
          let (d_add, w) := createDistributionL c2 1 0 w
          let (d3, w) ← forRange (c1 - 1).toNat (d3, w) fun _ st => do
            let (d3_temp, w) ← addL st.1 d_add st.2
            let w := deleteDistributionL st.1 w
            pure (d3_temp, w)
          let w := deleteDistributionL d_add w
          pure (d3, w)) = Except.ok (r, w') →
      w'.active_distribution_count = w.active_distribution_count + 1 := by
    intro c1 c2 w1 hw1 hk
    split at hk
    · injection hk with hk
      injection hk with _ h2
      rw [← h2]; show w1.active_distribution_count + 1 = _; rw [hw1]
    · simp only [createDistributionL] at hk
      cases hl : forRange (c1 - 1).toNat
          (createDistribution c2 1 0,
            ({ w1 with active_distribution_count := w1.active_distribution_count + 1 + 1 }
              : World))
          (fun _ st => do
            let (d3_temp, w) ← addL st.1 (createDistribution c2 1 0) st.2
            let w := deleteDistributionL st.1 w
            pure (d3_temp, w)) with
      | error e => rw [hl] at hk; cases hk
      | ok st =>
        have hinv := forRange_ok_inv
          (fun _ (st : Distribution × World) =>
            st.2.active_distribution_count = w.active_distribution_count + 2)
          (c1 - 1).toNat _ _ (by simp only [hw1]; ring)
          (by
            intro t _ s s' hs hb
            cases ha : addL s.1 (createDistribution c2 1 0) s.2 with
            | error e => rw [ha] at hb; cases hb
            | ok u =>
              have hcu := addL_count _ _ u.1 s.2 u.2 ha
              rw [ha] at hb
              simp only [ok_bind, pure_eq_ok] at hb
              injection hb with hb
              rw [← hb]
              simp only [deleteDistributionL, hcu, hs]; ring)
          st hl
        rw [hl] at hk
        simp only [ok_bind, pure_eq_ok] at hk
        injection hk with hk
        injection hk with _ h'
        rw [← h']
        simp only [deleteDistributionL, hinv]; ring
  cases hu1 : isUncertain d1
  · cases hu2 : isUncertain d2
    · rw [hu1, hu2] at h
      simp only [Bool.false_eq_true, if_false, pure_eq_ok, ok_bind] at h
      exact key _ _ w rfl h
    · rw [hu1, hu2] at h
      simp only [Bool.false_eq_true, if_false, if_true, pure_eq_ok, ok_bind] at h
      cases hr : rollL R fuel d2 w with
      | error e => rw [hr] at h; cases h
      | ok v =>
        have hc := (rollL_frame R fuel d2 v.1 w v.2 hr).1
        rw [hr] at h
        simp only [ok_bind] at h
        exact key _ _ (deleteDistributionL v.1 v.2)
          (by simp only [deleteDistributionL, hc]; ring) h
  · rw [hu1, if_pos rfl] at h
    cases hr1 : rollL R fuel d1 w with
    | error e => rw [hr1] at h; cases h
    | ok v1 =>
      have hc1 := (rollL_frame R fuel d1 v1.1 w v1.2 hr1).1
      rw [hr1] at h
      simp only [ok_bind, pure_eq_ok] at h
      cases hu2 : isUncertain d2
      · rw [hu2] at h
        simp only [Bool.false_eq_true, if_false, ok_bind] at h
        exact key _ _ (deleteDistributionL v1.1 v1.2)
          (by simp only [deleteDistributionL, hc1]; ring) h
      · rw [hu2, if_pos rfl] at h
        cases hr2 : rollL R fuel d2 (deleteDistributionL v1.1 v1.2) with
        | error e => rw [hr2] at h; cases h
        | ok v2 =>
          have hc2 := (rollL_frame R fuel d2 v2.1 _ v2.2 hr2).1
          rw [hr2] at h
          simp only [ok_bind] at h
          exact key _ _ (deleteDistributionL v2.1 v2.2)
            (by simp only [deleteDistributionL, hc2, hc1]; ring) h

/-! ## The live count over a line of input -/

/-- A binary semantic action (operands, operator, deletion of the two operands) leaves
one distribution more when its parts do. -/
theorem binaryAction_count
    (x y : World → Except Fault (Distribution × World))
    (op : Distribution → Distribution → World → Except Fault (Distribution × World))
    (hx : ∀ w d w', x w = .ok (d, w') →
      w'.active_distribution_count = w.active_distribution_count + 1)
    (hy : ∀ w d w', y w = .ok (d, w') →
      w'.active_distribution_count = w.active_distribution_count + 1)
    (hop : ∀ d1 d2 w d w', op d1 d2 w = .ok (d, w') →
      w'.active_distribution_count = w.active_distribution_count + 1)
    (w : World) (d : Distribution) (w' : World)
    (h : (do
      let (d1, w) ← x w
      let (d2, w) ← y w
      let (d3, w) ← op d1 d2 w
      let w := deleteDistributionL d1 w
      let w := deleteDistributionL d2 w
      pure (d3, w)) = Except.ok (d, w')) :
    w'.active_distribution_count = w.active_distribution_count + 1 := by
  cases h1 : x w with
  | error e => rw [h1] at h; cases h
  | ok v1 =>
    rw [h1] at h
    simp only [ok_bind] at h
    cases h2 : y v1.2 with
    | error e => rw [h2] at h; cases h
    | ok v2 =>
      rw [h2] at h
      simp only [ok_bind] at h
      cases h3 : op v1.1 v2.1 v2.2 with
      | error e => rw [h3] at h; cases h
      | ok v3 =>
        rw [h3] at h
        simp only [ok_bind, pure_eq_ok] at h
        injection h with h
        injection h with _ h'
        rw [← h']
        simp only [deleteDistributionL, hop _ _ _ _ _ h3, hy _ _ _ h2, hx _ _ _ h1]
        ring

/-- A unary semantic action (operand, function, deletion of the operand) leaves one
distribution more when its parts do. -/
theorem unaryAction_count
    (x : World → Except Fault (Distribution × World))
    (op : Distribution → World → Except Fault (Distribution × World))
    (hx : ∀ w d w', x w = .ok (d, w') →
      w'.active_distribution_count = w.active_distribution_count + 1)
    (hop : ∀ d1 w d w', op d1 w = .ok (d, w') →
      w'.active_distribution_count = w.active_distribution_count + 1)
    (w : World) (d : Distribution) (w' : World)
    (h : (do
      let (d1, w) ← x w
      let (r, w) ← op d1 w
      let w := deleteDistributionL d1 w
      pure (r, w)) = Except.ok (d, w')) :
    w'.active_distribution_count = w.active_distribution_count + 1 := by
  cases h1 : x w with
  | error e => rw [h1] at h; cases h
  | ok v1 =>
    rw [h1] at h
    simp only [ok_bind] at h
    cases h3 : op v1.1 v1.2 with
    | error e => rw [h3] at h; cases h
    | ok v3 =>
      rw [h3] at h
      simp only [ok_bind, pure_eq_ok] at h
      injection h with h
      injection h with _ h'
      rw [← h']
      simp only [deleteDistributionL, hop _ _ _ _ h3, hx _ _ _ h1]
      ring

/-- The evaluation of an expression, when it completes, leaves exactly one distribution
more than before: the value of the expression. -/
theorem evalExpr_count (R : RandSource) (fuel : Nat) (e : Expr) :
    ∀ (w : World) (d : Distribution) (w' : World), evalExpr R fuel e w = .ok (d, w') →
      w'.active_distribution_count = w.active_distribution_count + 1 := by
  induction e with
  | integer i =>
    intro w d w' h
    rw [evalExpr] at h
    injection h with h
    injection h with _ h'
    rw [← h']
  | double f =>
    intro w d w' h
    rw [evalExpr] at h
    injection h with h
    injection h with _ h'
    rw [← h']
  | plus a b iha ihb =>
    intro w d w' h
    rw [evalExpr] at h
    exact binaryAction_count _ _ addL iha ihb
      (fun d1 d2 w d w' => addL_count d1 d2 d w w') w d w' h
  | times a b iha ihb =>
    intro w d w' h
    rw [evalExpr] at h
    exact binaryAction_count _ _ timesL iha ihb
      (fun d1 d2 w d w' => timesL_count d1 d2 d w w') w d w' h
  | dice a b iha ihb =>
    intro w d w' h
    rw [evalExpr] at h
    exact binaryAction_count _ _ (diceL R fuel) iha ihb
      (fun d1 d2 w d w' => diceL_count R fuel d1 d2 d w w') w d w' h
  | diceOne a iha =>
    intro w d w' h
    rw [evalExpr] at h
    cases h1 : evalExpr R fuel a w with
    | error e => rw [h1] at h; cases h
    | ok v1 =>
      rw [h1] at h
      simp only [ok_bind, createDistributionL] at h
      cases h3 : diceL R fuel (createDistribution 0 0 1) v1.1
          { v1.2 with active_distribution_count := v1.2.active_distribution_count + 1 } with
      | error e => rw [h3] at h; cases h
      | ok v3 =>
        have hc3 := diceL_count R fuel _ _ v3.1 _ v3.2 h3
        rw [h3] at h
        simp only [ok_bind, pure_eq_ok] at h
        injection h with h
        injection h with _ h'
        rw [← h']
        simp only [deleteDistributionL, hc3, iha _ _ _ h1]
        ring
  | bracket a iha =>
    intro w d w' h
    rw [evalExpr] at h
    exact iha w d w' h
  | roll a iha =>
    intro w d w' h
    rw [evalExpr] at h
    exact unaryAction_count _ (rollL R fuel) iha
      (fun d1 w d w' hr => (rollL_frame R fuel d1 d w w' hr).1) w d w' h
  | avg a iha =>
    intro w d w' h
    rw [evalExpr] at h
    exact unaryAction_count _ avgL iha
      (fun d1 w d w' => avgL_count d1 d w w') w d w' h
  | prob a b iha ihb =>
    intro w d w' h
    rw [evalExpr] at h
    exact binaryAction_count _ _ (probL R fuel) iha ihb
      (fun d1 d2 w d w' => probL_count R fuel d1 d2 d w w') w d w' h

/-- C25. For every expression tree, when the semantic actions of a line (evaluate the
expression, `resolve` its value, delete it) run to completion, the live count is
what it was before the line; from the initial state it is zero. -/
theorem evalLine_count (R : RandSource) (fuel : Nat) (e : Expr) (w w' : World) (result : ℚ)
    (h : evalLine R fuel e w = .ok (result, w')) :
    w'.active_distribution_count = w.active_distribution_count ∧
    (w = initialWorld → w'.active_distribution_count = 0) := by
  have hmain : w'.active_distribution_count = w.active_distribution_count := by
    unfold evalLine at h
    cases h1 : evalExpr R fuel e w with
    | error e => rw [h1] at h; cases h
    | ok v1 =>
      have hc1 := evalExpr_count R fuel e w v1.1 v1.2 h1
      rw [h1] at h
      simp only [ok_bind] at h
      cases h2 : resolveL R fuel v1.1 v1.2 with
      | error e => rw [h2] at h; cases h
      | ok v2 =>
        have hc2 := (resolveL_frame R fuel v1.1 v1.2 v2.2 v2.1 h2).1
        rw [h2] at h
        simp only [ok_bind, pure_eq_ok] at h
        injection h with h
        injection h with _ h'
        rw [← h']
        simp only [deleteDistributionL, hc2, hc1]
        ring
  exact ⟨hmain, fun hw => by rw [hmain, hw]; rfl⟩

/-- Instance of C25: the line `2d6 + avg(d4) * 3` with draws `RAND_MAX` runs to
completion and leaves the live count at zero. -/
theorem evalLine_count_witness :
    ∃ result w', evalLine sampleHighDraws 20 sampleLine initialWorld = .ok (result, w') ∧
      w'.active_distribution_count = initialWorld.active_distribution_count := by
  have hok : (evalLine sampleHighDraws 20 sampleLine initialWorld).toBool = true := by
    with_unfolding_all rfl
  cases h : evalLine sampleHighDraws 20 sampleLine initialWorld with
  | error e => rw [h] at hok; cases hok
  | ok v =>
    exact ⟨v.1, v.2, rfl,
      (evalLine_count sampleHighDraws 20 sampleLine initialWorld v.2 v.1 h).1⟩

/-! ## One level of `divideAndRoll` -/

/-- Source `divideAndRoll` with fuel left is the base case or one level followed by the
recursive call. -/
theorem divideAndRoll_succ (R : RandSource) (fuel : Nat) (prob : List ℚ)
    (start_index end_index : Int) (sectionWeight : ℚ) (pos : Nat) :
    divideAndRoll R (fuel + 1) prob start_index end_index sectionWeight pos =
      if start_index = end_index then .ok (start_index, pos)
      else nextCall R prob start_index end_index sectionWeight pos >>= fun c =>
        divideAndRoll R fuel prob c.start_index c.end_index c.sectionWeight c.pos := by
  rw [divideAndRoll]
  by_cases h : start_index = end_index
  · simp only [h, if_true, pure_eq_ok]
  · simp only [h, if_false, nextCall]
    rw [← scanSections]
    cases hs : scanSections prob start_index end_index sectionWeight with
    | error e => rfl
    | ok s =>
      simp only [ok_bind, degenerateGuard]
      by_cases hw : s.weight_section2 = 0
      · simp only [hw, if_true]
        cases hr : readAt prob s.divider with
        | error e => rfl
        | ok x =>
          simp only [ok_bind, pure_eq_ok, chooseSection]
          split <;> split <;> rfl
      · simp only [hw, if_false, ok_bind, pure_eq_ok, chooseSection]
        split <;> split <;> rfl

/-- The scan of `divideAndRoll` on an in-bounds slice `[a, b]` whose weights sum to
`sectionWeight > 0`: it completes, the divider is the first index `a + j` of the
slice at which the running sum exceeds half of `sectionWeight`, the first weight
is the running sum up to it and the second weight is the rest. -/
theorem scanSections_spec (prob : List ℚ) (a b : Nat) (W : ℚ) (hab : a ≤ b)
    (hb : b < prob.length)
    (hW : ∑ u ∈ Finset.range (b - a + 1), prob.getD (a + u) 0 = W) (hpos : 0 < W) :
    ∃ s j, scanSections prob (a : Int) (b : Int) W = .ok s ∧ j ≤ b - a ∧
      s.divider = ((a + j : Nat) : Int) ∧
      s.weight_section1 = ∑ u ∈ Finset.range (j + 1), prob.getD (a + u) 0 ∧
      W / 2 < s.weight_section1 ∧
      ∑ u ∈ Finset.range j, prob.getD (a + u) 0 ≤ W / 2 ∧
      s.weight_section1 + s.weight_section2 = W := by
  have hn : ((b : Int) - (a : Int) + 1).toNat = b - a + 1 := by omega
  obtain ⟨s, hrun, hP⟩ := forRange_inv
    (fun t (s : ScanState) =>
      s.weight_section1 + s.weight_section2 = ∑ u ∈ Finset.range t, prob.getD (a + u) 0 ∧
      ((s.divider = -1 ∧ s.weight_section2 = 0 ∧ s.weight_section1 ≤ W / 2) ∨
       (∃ j, j < t ∧ s.divider = ((a + j : Nat) : Int) ∧
          s.weight_section1 = ∑ u ∈ Finset.range (j + 1), prob.getD (a + u) 0 ∧
          W / 2 < s.weight_section1 ∧
          ∑ u ∈ Finset.range j, prob.getD (a + u) 0 ≤ W / 2)))
    (b - a + 1)
    ({ weight_section1 := 0, weight_section2 := 0, divider := -1 } : ScanState)
    (fun t s => do
      let i : Int := (a : Int) + (t : Int)
      let x ← readAt prob i
      if s.divider = -1 then
        let w1 := s.weight_section1 + x
        if w1 > (1 / 2 : ℚ) * W then
          pure { s with weight_section1 := w1, divider := i }
        else
          pure { s with weight_section1 := w1 }
      else
        pure { s with weight_section2 := s.weight_section2 + x })
    (by
      refine ⟨by simp, Or.inl ⟨rfl, rfl, ?_⟩⟩
      show (0 : ℚ) ≤ W / 2
      linarith)
    (by
      intro t ht s ⟨hsum, hcase⟩
      have hin : a + t < prob.length := by omega
      have hread : readAt prob ((a : Int) + (t : Int)) = .ok (prob.getD (a + t) 0) := by
        rw [← Nat.cast_add]; exact readAt_nat prob (a + t) hin
      rcases hcase with ⟨hd, hw2, hle⟩ | ⟨j, hj, hd, hw1, hgt, hprev⟩
      · by_cases hc : s.weight_section1 + prob.getD (a + t) 0 > (1 / 2 : ℚ) * W
        · refine ⟨{ s with weight_section1 := s.weight_section1 + prob.getD (a + t) 0,
                           divider := (a : Int) + (t : Int) }, ?_, ?_, ?_⟩
          · simp only [hread, ok_bind, hd, if_true, hc, pure_eq_ok]
          · show s.weight_section1 + prob.getD (a + t) 0 + s.weight_section2 = _
            rw [Finset.sum_range_succ, ← hsum]; ring
          · refine Or.inr ⟨t, Nat.lt_succ_self t, by push_cast; rfl, ?_, ?_, ?_⟩
            · show s.weight_section1 + prob.getD (a + t) 0 = _
              rw [Finset.sum_range_succ, ← hsum, hw2, add_zero]
            · show W / 2 < s.weight_section1 + prob.getD (a + t) 0
              linarith
            · rw [← hsum, hw2, add_zero]; exact hle
        · refine ⟨{ s with weight_section1 := s.weight_section1 + prob.getD (a + t) 0 },
            ?_, ?_, ?_⟩
          · simp only [hread, ok_bind, hd, if_true, hc, if_false, pure_eq_ok]
          · show s.weight_section1 + prob.getD (a + t) 0 + s.weight_section2 = _
            rw [Finset.sum_range_succ, ← hsum]; ring
          · refine Or.inl ⟨hd, hw2, ?_⟩
            show s.weight_section1 + prob.getD (a + t) 0 ≤ W / 2
            linarith [not_lt.mp hc]
      · have hne : ¬ (s.divider = -1) := by rw [hd]; omega
        refine ⟨{ s with weight_section2 := s.weight_section2 + prob.getD (a + t) 0 },
          ?_, ?_, ?_⟩
        · simp only [hread, ok_bind, hne, if_false, pure_eq_ok]
        · show s.weight_section1 + (s.weight_section2 + prob.getD (a + t) 0) = _
          rw [Finset.sum_range_succ, ← hsum]; ring
        · exact Or.inr ⟨j, Nat.lt_succ_of_lt hj, hd, hw1, hgt, hprev⟩)
  obtain ⟨hsum, hcase⟩ := hP
  rw [hW] at hsum
  rcases hcase with ⟨_, hw2, hle⟩ | ⟨j, hj, hd, hw1, hgt, hprev⟩
  · exfalso
    rw [hw2, add_zero] at hsum
    linarith
  · exact ⟨s, j, by rw [scanSections, hn]; exact hrun, by omega, hd, hw1, hgt, hprev, hsum⟩

/-- After the scan of `scanSections_spec` the guard of `divideAndRoll` reads inside the
table, so the two steps complete. -/
theorem scan_guard_ok (prob : List ℚ) (a b : Nat) (W : ℚ) (hab : a ≤ b)
    (hb : b < prob.length)
    (hW : ∑ u ∈ Finset.range (b - a + 1), prob.getD (a + u) 0 = W) (hpos : 0 < W) :
    ∃ s g, scanSections prob (a : Int) (b : Int) W = .ok s ∧ degenerateGuard prob s = .ok g := by
  obtain ⟨s, j, hs, hj, hd, _⟩ := scanSections_spec prob a b W hab hb hW hpos
  refine ⟨s, ?_⟩
  unfold degenerateGuard
  by_cases hw : s.weight_section2 = 0
  · rw [if_pos hw, hd, readAt_nat prob (a + j) (by omega)]
    exact ⟨_, hs, rfl⟩
  · rw [if_neg hw]
    exact ⟨_, hs, rfl⟩

/-! ## Claims about `divideAndRoll` -/

/-- On the table of `1d2 * 2` with every draw 1 the sampler, once on the slice `[1, 2]`,
calls itself on the same slice with the same weight. -/
theorem sampler_repeats_slice (fuel pos : Nat) :
    divideAndRoll sampleOneDraws fuel [0, 1 / 2, 0, 1 / 2] 1 2 (1 / 2) pos
      = .error Fault.outOfFuel := by
  induction fuel generalizing pos with
  | zero => rfl
  | succ n ih =>
    have hstep : nextCall sampleOneDraws [0, 1 / 2, 0, 1 / 2] 1 2 (1 / 2) pos
        = .ok ⟨1, 2, 1 / 2, pos + 1⟩ := by with_unfolding_all rfl
    rw [divideAndRoll_succ, if_neg (by decide), hstep, ok_bind]
    exact ih (pos + 1)

/-- C26 (the code departs from the claim). `roll(1d2 * 2)` with every draw 1: the
table `[0, 1/2, 0, 1/2]` has non-negative weights and total weight 1, and the
sampler does not terminate: whatever the fuel, the recursion is still running
when it is used up (from the second level on it calls itself on the slice
`[1, 2]` again and again). -/
theorem roll_does_not_terminate :
    times (createDistribution 2 1 0) (createDistribution 0 0 2)
      = .ok ⟨0, [0, 1 / 2, 0, 1 / 2], 4⟩ ∧
    getTotalWeight ⟨0, [0, 1 / 2, 0, 1 / 2], 4⟩ = .ok 1 ∧
    ∀ fuel : Nat, roll sampleOneDraws fuel ⟨0, [0, 1 / 2, 0, 1 / 2], 4⟩ 0
      = .error Fault.outOfFuel := by
  refine ⟨by with_unfolding_all rfl, by with_unfolding_all rfl, fun fuel => ?_⟩
  have hT : getTotalWeight ⟨0, [0, 1 / 2, 0, 1 / 2], 4⟩ = .ok 1 := by with_unfolding_all rfl
  have hu : isUncertain ⟨0, [0, 1 / 2, 0, 1 / 2], 4⟩ = true := rfl
  simp only [roll, hu, if_true, hT, ok_bind]
  have hlevels : divideAndRoll sampleOneDraws fuel [0, 1 / 2, 0, 1 / 2] 0 (4 - 1) 1 0
      = .error Fault.outOfFuel := by
    match fuel with
    | 0 => rfl
    | 1 =>
      have h1 : nextCall sampleOneDraws [0, 1 / 2, 0, 1 / 2] 0 (4 - 1) 1 0
          = .ok ⟨0, 2, 1 / 2, 1⟩ := by with_unfolding_all rfl
      rw [divideAndRoll_succ, if_neg (by decide), h1, ok_bind]
      rfl
    | n + 2 =>
      have h1 : nextCall sampleOneDraws [0, 1 / 2, 0, 1 / 2] 0 (4 - 1) 1 0
          = .ok ⟨0, 2, 1 / 2, 1⟩ := by with_unfolding_all rfl
      have h2 : nextCall sampleOneDraws [0, 1 / 2, 0, 1 / 2] 0 2 (1 / 2) 1
          = .ok ⟨1, 2, 1 / 2, 2⟩ := by with_unfolding_all rfl
      rw [divideAndRoll_succ, if_neg (by decide), h1, ok_bind, divideAndRoll_succ,
        if_neg (by decide), h2, ok_bind]
      exact sampler_repeats_slice n 2
  rw [hlevels]
  rfl

/-- C27 (the code departs from the claim). On the table `[1, 1]` (slice `[0, 1]`,
weight 2) the scan stops at index 1, the guard lowers the divider to 0, so
section 1 is the slice `[0, 0]` of weight 1; with a draw 0 the recursive call is
made with weight 1 on the slice `[1, 0]`, not on `[0, 0]`. -/
theorem sampler_call_skips_start :
    scanSections [1, 1] 0 1 2 = .ok ⟨2, 0, 1⟩ ∧
    degenerateGuard [1, 1] ⟨2, 0, 1⟩ = .ok ⟨1, 1, 0⟩ ∧
    nextCall sampleLowDraws [1, 1] 0 1 2 0 = .ok ⟨1, 0, 1, 1⟩ :=
  ⟨by with_unfolding_all rfl, by with_unfolding_all rfl, by with_unfolding_all rfl⟩

/-- C28 (the code departs from the claim). On the slice `[1, 2]` (weights `1/2, 0`,
weight `1/2`) of the table of `1d2 * 2` the scan stops at index 1, which is not
the end of the slice, yet the guard applies, because the rest of the slice has
weight 0; after it the divider is 0, below the start of the slice. -/
theorem guard_applies_before_end :
    scanSections [0, 1 / 2, 0, 1 / 2] 1 2 (1 / 2) = .ok ⟨1 / 2, 0, 1⟩ ∧
    degenerateGuard [0, 1 / 2, 0, 1 / 2] ⟨1 / 2, 0, 1⟩ = .ok ⟨0, 1 / 2, 0⟩ :=
  ⟨by with_unfolding_all rfl, by with_unfolding_all rfl⟩

/-- C29. On an in-bounds slice `a < b` whose non-negative weights sum to
`sectionWeight > 0`, one level of `divideAndRoll` completes and draws exactly
one value `r = rand()`: the recursive call is made at position `pos + 1`, on
section 1 (up to the divider, with `weight1`) if
`r ≤ trunc(RAND_MAX * weight1 / sectionWeight)` and on section 2 (from the
divider on, with `weight2`) otherwise. -/
theorem sampler_one_draw (R : RandSource) (fuel : Nat) (prob : List ℚ) (a b : Nat) (W : ℚ)
    (pos : Nat) (hab : a < b) (hb : b < prob.length) (_hnn : ∀ x ∈ prob, 0 ≤ x)
    (hW : ∑ u ∈ Finset.range (b - a + 1), prob.getD (a + u) 0 = W) (hpos : 0 < W) :
    ∃ s g c, scanSections prob (a : Int) (b : Int) W = .ok s ∧
      degenerateGuard prob s = .ok g ∧
      nextCall R prob (a : Int) (b : Int) W pos = .ok c ∧ c.pos = pos + 1 ∧
      ((R.rand pos : Int) ≤ truncInt ((R.RAND_MAX : ℚ) * g.weight_section1 / W) →
        c.end_index = g.divider ∧ c.sectionWeight = g.weight_section1) ∧
      (¬ (R.rand pos : Int) ≤ truncInt ((R.RAND_MAX : ℚ) * g.weight_section1 / W) →
        c.start_index = g.divider + 1 ∧ c.sectionWeight = g.weight_section2) ∧
      divideAndRoll R (fuel + 1) prob (a : Int) (b : Int) W pos
        = divideAndRoll R fuel prob c.start_index c.end_index c.sectionWeight (pos + 1) := by
  obtain ⟨s, g, hs, hg⟩ := scan_guard_ok prob a b W (Nat.le_of_lt hab) hb hW hpos
  have hne : ¬ ((a : Int) = (b : Int)) := by omega
  have hnext : nextCall R prob (a : Int) (b : Int) W pos
      = .ok (chooseSection R g (a : Int) (b : Int) W pos) := by
    simp only [nextCall, hs, hg, ok_bind, pure_eq_ok]
  refine ⟨s, g, _, hs, hg, hnext, ?_, ?_, ?_, ?_⟩
  · unfold chooseSection; dsimp only; split <;> rfl
  · intro hc
    rw [mul_div_assoc] at hc
    unfold chooseSection; dsimp only
    rw [if_pos hc]; exact ⟨rfl, rfl⟩
  · intro hc
    rw [mul_div_assoc] at hc
    unfold chooseSection; dsimp only
    rw [if_neg hc]; exact ⟨rfl, rfl⟩
  · rw [divideAndRoll_succ, if_neg hne, hnext, ok_bind]
    congr 1
    unfold chooseSection; dsimp only; split <;> rfl

/-- Instance of C29 on the table of 1d6 with draws 0. -/
theorem sampler_one_draw_witness :
    ∃ s g c, scanSections [1, 1, 1, 1, 1, 1] ((0 : Nat) : Int) ((5 : Nat) : Int) 6 = .ok s ∧
      degenerateGuard [1, 1, 1, 1, 1, 1] s = .ok g ∧
      nextCall sampleLowDraws [1, 1, 1, 1, 1, 1] ((0 : Nat) : Int) ((5 : Nat) : Int) 6 0
        = .ok c ∧ c.pos = 0 + 1 ∧
      ((sampleLowDraws.rand 0 : Int)
          ≤ truncInt ((sampleLowDraws.RAND_MAX : ℚ) * g.weight_section1 / 6) →
        c.end_index = g.divider ∧ c.sectionWeight = g.weight_section1) ∧
      (¬ (sampleLowDraws.rand 0 : Int)
          ≤ truncInt ((sampleLowDraws.RAND_MAX : ℚ) * g.weight_section1 / 6) →
        c.start_index = g.divider + 1 ∧ c.sectionWeight = g.weight_section2) ∧
      divideAndRoll sampleLowDraws (3 + 1) [1, 1, 1, 1, 1, 1] ((0 : Nat) : Int)
          ((5 : Nat) : Int) 6 0
        = divideAndRoll sampleLowDraws 3 [1, 1, 1, 1, 1, 1] c.start_index c.end_index
            c.sectionWeight (0 + 1) :=
  sampler_one_draw sampleLowDraws 3 [1, 1, 1, 1, 1, 1] 0 5 6 0 (by decide) (by decide)
    (by intro x hx; simp only [List.mem_cons, List.mem_nil_iff, or_false, or_self] at hx
        rw [hx]; norm_num)
    (by norm_num [Finset.sum_range_succ]) (by norm_num)

/-! ## The convolution table of `add` -/

theorem convWeights_length (a b : List ℚ) :
    (convWeights a b).length = a.length + b.length := by
  simp [convWeights]

theorem convWeights_getD (a b : List ℚ) (k : Nat) :
    (convWeights a b).getD k 0 =
      ∑ i ∈ Finset.range a.length, ∑ j ∈ Finset.range b.length,
        if i + j + 1 = k then a.getD i 0 / a.sum * b.getD j 0 / b.sum else 0 := by
  by_cases hk : k < a.length + b.length
  · rw [List.getD_eq_getElem _ _ (by rw [convWeights_length]; exact hk)]
    simp [convWeights]
  · rw [List.getD_eq_default _ _ (by rw [convWeights_length]; omega)]
    symm
    apply Finset.sum_eq_zero
    intro i hi
    apply Finset.sum_eq_zero
    intro j hj
    rw [Finset.mem_range] at hi hj
    rw [if_neg (by omega)]

theorem add_uncertain_conv (d1 d2 : Distribution) (h1 : d1.WF) (h2 : d2.WF)
    (hu1 : isUncertain d1 = true) (hu2 : isUncertain d2 = true) :
    add d1 d2 = .ok ⟨d1.constant + d2.constant,
      convWeights d1.distribution d2.distribution, d1.size + d2.size⟩ := by
  obtain ⟨w, hadd, hlen, hw⟩ := add_uncertain d1 d2 h1 h2 hu1 hu2
  rw [hadd]
  have : w = convWeights d1.distribution d2.distribution := by
    apply eq_of_getD_eq
    · rw [hlen, convWeights_length]
    · intro k
      rw [hw k, convWeights_getD]
  rw [this]

theorem convWeights_comm (a b : List ℚ) : convWeights a b = convWeights b a := by
  apply eq_of_getD_eq
  · rw [convWeights_length, convWeights_length, add_comm]
  · intro k
    rw [convWeights_getD, convWeights_getD, Finset.sum_comm]
    apply Finset.sum_congr rfl
    intro j _
    apply Finset.sum_congr rfl
    intro i _
    rw [add_comm j i]
    by_cases h : i + j + 1 = k
    · rw [if_pos h, if_pos h]; ring
    · rw [if_neg h, if_neg h]
theorem convWeights_sum (a b : List ℚ) (ha : a.sum ≠ 0) (hb : b.sum ≠ 0) :
    (convWeights a b).sum = 1 :=
  add_uncertain_sum ⟨0, a, 0⟩ ⟨0, b, 0⟩ _ (convWeights_length a b) (convWeights_getD a b) ha hb

theorem sum_collapse (N e l k : Nat) (v : ℚ) (he : e < N) :
    (∑ m ∈ Finset.range N, if m + l + 1 = k then (if e = m then v else 0) else 0) =
      if e + l + 1 = k then v else 0 := by
  rw [Finset.sum_eq_single e]
  · simp
  · intro m _ hm
    rw [if_neg (fun h : e = m => hm h.symm)]
    simp
  · intro h
    exact absurd (Finset.mem_range.2 he) h

theorem sum_collapse_left (N e i k : Nat) (v : ℚ) (he : e < N) :
    (∑ m ∈ Finset.range N, if i + m + 1 = k then (if e = m then v else 0) else 0) =
      if i + e + 1 = k then v else 0 := by
  rw [Finset.sum_eq_single e]
  · simp
  · intro m _ hm
    rw [if_neg (fun h : e = m => hm h.symm)]
    simp
  · intro h
    exact absurd (Finset.mem_range.2 he) h

theorem convWeights_assoc (a b c : List ℚ) (ha : a.sum ≠ 0) (hb : b.sum ≠ 0)
    (hc : c.sum ≠ 0) :
    convWeights (convWeights a b) c = convWeights a (convWeights b c) := by
  apply eq_of_getD_eq
  · simp only [convWeights_length]; omega
  · intro k
    have hT1 : (convWeights (convWeights a b) c).getD k 0 =
        ∑ i ∈ Finset.range a.length, ∑ j ∈ Finset.range b.length,
          ∑ l ∈ Finset.range c.length,
            if i + j + 1 + l + 1 = k then
              a.getD i 0 / a.sum * (b.getD j 0 / b.sum) * (c.getD l 0 / c.sum) else 0 := by
      rw [convWeights_getD, convWeights_length, convWeights_sum a b ha hb]
      have step : ∀ m l : Nat,
          (if m + l + 1 = k then
            (convWeights a b).getD m 0 / 1 * c.getD l 0 / c.sum else 0) =
          ∑ i ∈ Finset.range a.length, ∑ j ∈ Finset.range b.length,
            if m + l + 1 = k then
              (if i + j + 1 = m then
                a.getD i 0 / a.sum * (b.getD j 0 / b.sum) * (c.getD l 0 / c.sum) else 0)
            else 0 := by
        intro m l
        by_cases h : m + l + 1 = k
        · simp only [h, if_true]
          rw [convWeights_getD, div_one, mul_div_assoc, Finset.sum_mul]
          apply Finset.sum_congr rfl
          intro i _
          rw [Finset.sum_mul]
          apply Finset.sum_congr rfl
          intro j _
          by_cases h2 : i + j + 1 = m
          · rw [if_pos h2, if_pos h2]; ring
          · rw [if_neg h2, if_neg h2, zero_mul]
        · simp only [h, if_false]
          simp
      simp only [step]
      rw [Finset.sum_comm]
      calc _ = ∑ l ∈ Finset.range c.length, ∑ i ∈ Finset.range a.length,
              ∑ j ∈ Finset.range b.length,
                if i + j + 1 + l + 1 = k then
                  a.getD i 0 / a.sum * (b.getD j 0 / b.sum) * (c.getD l 0 / c.sum) else 0 := by
            apply Finset.sum_congr rfl
            intro l _
            rw [Finset.sum_comm]
            apply Finset.sum_congr rfl
            intro i hi
            rw [Finset.sum_comm]
            apply Finset.sum_congr rfl
            intro j hj
            rw [Finset.mem_range] at hi hj
            exact sum_collapse _ (i + j + 1) l k _ (by omega)
        _ = _ := by
            rw [Finset.sum_comm]
            apply Finset.sum_congr rfl
            intro i _
            rw [Finset.sum_comm]
    have hT2 : (convWeights a (convWeights b c)).getD k 0 =
        ∑ i ∈ Finset.range a.length, ∑ j ∈ Finset.range b.length,
          ∑ l ∈ Finset.range c.length,
            if i + j + 1 + l + 1 = k then
              a.getD i 0 / a.sum * (b.getD j 0 / b.sum) * (c.getD l 0 / c.sum) else 0 := by
      rw [convWeights_getD, convWeights_length, convWeights_sum b c hb hc]
      have step : ∀ i m : Nat,
          (if i + m + 1 = k then
            a.getD i 0 / a.sum * (convWeights b c).getD m 0 / 1 else 0) =
          ∑ j ∈ Finset.range b.length, ∑ l ∈ Finset.range c.length,
            if i + m + 1 = k then
              (if j + l + 1 = m then
                a.getD i 0 / a.sum * (b.getD j 0 / b.sum) * (c.getD l 0 / c.sum) else 0)
            else 0 := by
        intro i m
        by_cases h : i + m + 1 = k
        · simp only [h, if_true]
          rw [convWeights_getD, div_one, Finset.mul_sum]
          apply Finset.sum_congr rfl
          intro j _
          rw [Finset.mul_sum]
          apply Finset.sum_congr rfl
          intro l _
          by_cases h2 : j + l + 1 = m
          · rw [if_pos h2, if_pos h2]; ring
          · rw [if_neg h2, if_neg h2, mul_zero]
        · simp only [h, if_false]
          simp
      simp only [step]
      apply Finset.sum_congr rfl
      intro i _
      rw [Finset.sum_comm]
      apply Finset.sum_congr rfl
      intro j hj
      rw [Finset.sum_comm]
      apply Finset.sum_congr rfl
      intro l hl
      rw [Finset.mem_range] at hj hl
      rw [sum_collapse_left _ (j + l + 1) i k _ (by omega)]
      have : (i + (j + l + 1) + 1 = k) ↔ (i + j + 1 + l + 1 = k) := by omega
      simp only [this]
    rw [hT1, hT2]
theorem add_eq_addTable (d1 d2 : Distribution) (h1 : d1.WF) (h2 : d2.WF) :
    add d1 d2 = .ok ⟨d1.constant + d2.constant, addTable d1 d2, d1.size + d2.size⟩ := by
  cases hu1 : isUncertain d1 <;> cases hu2 : isUncertain d2
  · rw [add_certain_certain d1 d2 h1 h2 hu1 hu2]
    simp [addTable, hu1, hu2, (WF_certain h1 hu1).1, (WF_certain h2 hu2).1]
  · rw [add_certain_uncertain d1 d2 h1 h2 hu1 hu2]
    simp [addTable, hu1, hu2]
  · rw [add_uncertain_certain d1 d2 h1 h2 hu1 hu2]
    simp [addTable, hu1, hu2]
  · rw [add_uncertain_conv d1 d2 h1 h2 hu1 hu2]
    simp [addTable, hu1, hu2]

theorem addTable_length (d1 d2 : Distribution) (h1 : d1.WF) (h2 : d2.WF) :
    (addTable d1 d2).length = d1.distribution.length + d2.distribution.length := by
  cases hu1 : isUncertain d1 <;> cases hu2 : isUncertain d2
  · simp [addTable, hu1, hu2, (WF_certain h1 hu1).2, (WF_certain h2 hu2).2]
  · simp [addTable, hu1, hu2, (WF_certain h1 hu1).2]
  · simp [addTable, hu1, hu2, (WF_certain h2 hu2).2]
  · simp [addTable, hu1, hu2, convWeights_length]

theorem addTable_WF (d1 d2 : Distribution) (h1 : d1.WF) (h2 : d2.WF) (c : ℚ) :
    (⟨c, addTable d1 d2, d1.size + d2.size⟩ : Distribution).WF := by
  unfold Distribution.WF at *
  rw [addTable_length d1 d2 h1 h2]
  push_cast
  rw [h1, h2]

theorem addTable_comm (d1 d2 : Distribution) : addTable d1 d2 = addTable d2 d1 := by
  cases hu1 : isUncertain d1 <;> cases hu2 : isUncertain d2 <;>
    simp [addTable, hu1, hu2, convWeights_comm d1.distribution d2.distribution]

theorem isUncertain_sum (d1 d2 : Distribution) (h1 : d1.WF) (h2 : d2.WF) (c : ℚ)
    (w : List ℚ) :
    isUncertain ⟨c, w, d1.size + d2.size⟩ = (isUncertain d1 || isUncertain d2) := by
  have e1 : (0 : Int) ≤ d1.size := by rw [← h1]; exact Int.natCast_nonneg _
  have e2 : (0 : Int) ≤ d2.size := by rw [← h2]; exact Int.natCast_nonneg _
  unfold isUncertain
  by_cases a1 : d1.size > 0 <;> by_cases a2 : d2.size > 0 <;> simp [a1, a2] <;> omega

theorem addTable_assoc (a b c : Distribution) (ha : a.WF) (hb : b.WF) (hc : c.WF)
    (hpa : isUncertain a = true → 0 < a.distribution.sum)
    (hpb : isUncertain b = true → 0 < b.distribution.sum)
    (hpc : isUncertain c = true → 0 < c.distribution.sum) (k1 k2 : ℚ) :
    addTable ⟨k1, addTable a b, a.size + b.size⟩ c =
      addTable a ⟨k2, addTable b c, b.size + c.size⟩ := by
  unfold addTable
  rw [isUncertain_sum a b ha hb, isUncertain_sum b c hb hc]
  cases hua : isUncertain a <;> cases hub : isUncertain b <;> cases huc : isUncertain c <;>
    simp only [Bool.or_true, Bool.or_false, Bool.and_true, Bool.and_false, Bool.true_and,
      Bool.false_and, Bool.or_self, Bool.and_self, if_true, if_false, Bool.false_eq_true]
  · exact convWeights_assoc _ _ _ (ne_of_gt (hpa hua)) (ne_of_gt (hpb hub))
      (ne_of_gt (hpc huc))
/-! ## C35, C36: `add` is commutative and associative -/

/-- C35. In exact arithmetic `add` is commutative: for every pair of distributions
`d1`, `d2` (an uncertain one having positive total weight), `add d1 d2` and
`add d2 d1` both return, and the two results have the same constant, the same size
and the same weight at every index (they are the same distribution). -/
theorem add_commutative (d1 d2 : Distribution) (h1 : d1.WF) (h2 : d2.WF)
    (_hp1 : isUncertain d1 = true → 0 < d1.distribution.sum)
    (_hp2 : isUncertain d2 = true → 0 < d2.distribution.sum) :
    ∃ r1 r2, add d1 d2 = .ok r1 ∧ add d2 d1 = .ok r2 ∧
      r1.constant = r2.constant ∧ r1.size = r2.size ∧
      (∀ k : Nat, r1.distribution.getD k 0 = r2.distribution.getD k 0) ∧ r1 = r2 := by
  refine ⟨_, _, add_eq_addTable d1 d2 h1 h2, add_eq_addTable d2 d1 h2 h1,
    add_comm _ _, add_comm _ _, ?_, ?_⟩
  · intro k
    show (addTable d1 d2).getD k 0 = (addTable d2 d1).getD k 0
    rw [addTable_comm]
  · rw [addTable_comm d1 d2, add_comm d1.constant, add_comm d1.size]

/-- Instance of C35 at `sampleSkewed` and `samplePair`. -/
theorem add_commutative_witness :
    (0 < sampleSkewed.distribution.sum ∧ 0 < samplePair.distribution.sum) ∧
    ∃ r1 r2, add sampleSkewed samplePair = .ok r1 ∧ add samplePair sampleSkewed = .ok r2 ∧
      r1.constant = r2.constant ∧ r1.size = r2.size ∧
      (∀ k : Nat, r1.distribution.getD k 0 = r2.distribution.getD k 0) ∧ r1 = r2 :=
  ⟨⟨by norm_num [sampleSkewed], by norm_num [samplePair]⟩,
    add_commutative sampleSkewed samplePair (by decide) (by decide)
      (fun _ => by norm_num [sampleSkewed]) (fun _ => by norm_num [samplePair])⟩

/-- C36. In exact arithmetic `add` is associative: for all distributions `a`, `b`, `c`
(each certain, or uncertain with positive total weight), the four calls in
`add (add a b) c` and `add a (add b c)` return, and the two results have the same
constant, the same size and the same weight at every index (they are the same
distribution). -/
theorem add_associative (a b c : Distribution) (ha : a.WF) (hb : b.WF) (hc : c.WF)
    (hpa : isUncertain a = true → 0 < a.distribution.sum)
    (hpb : isUncertain b = true → 0 < b.distribution.sum)
    (hpc : isUncertain c = true → 0 < c.distribution.sum) :
    ∃ ab bc r1 r2, add a b = .ok ab ∧ add ab c = .ok r1 ∧
      add b c = .ok bc ∧ add a bc = .ok r2 ∧
      r1.constant = r2.constant ∧ r1.size = r2.size ∧
      (∀ k : Nat, r1.distribution.getD k 0 = r2.distribution.getD k 0) ∧ r1 = r2 := by
  have hab := addTable_WF a b ha hb (a.constant + b.constant)
  have hbc := addTable_WF b c hb hc (b.constant + c.constant)
  have ht := addTable_assoc a b c ha hb hc hpa hpb hpc (a.constant + b.constant)
    (b.constant + c.constant)
  refine ⟨_, _, _, _, add_eq_addTable a b ha hb, add_eq_addTable _ c hab hc,
    add_eq_addTable b c hb hc, add_eq_addTable a _ ha hbc, add_assoc _ _ _, add_assoc _ _ _,
    ?_, ?_⟩
  · intro k
    show (addTable _ c).getD k 0 = (addTable a _).getD k 0
    rw [ht]
  · show (⟨_, addTable _ c, _⟩ : Distribution) = ⟨_, addTable a _, _⟩
    rw [ht, add_assoc a.constant, add_assoc a.size]

/-- Instance of C36 at `sampleSkewed`, `samplePair` and `sampleSkewed`. -/
theorem add_associative_witness :
    (0 < sampleSkewed.distribution.sum ∧ 0 < samplePair.distribution.sum) ∧
    ∃ ab bc r1 r2, add sampleSkewed samplePair = .ok ab ∧ add ab sampleSkewed = .ok r1 ∧
      add samplePair sampleSkewed = .ok bc ∧ add sampleSkewed bc = .ok r2 ∧
      r1.constant = r2.constant ∧ r1.size = r2.size ∧
      (∀ k : Nat, r1.distribution.getD k 0 = r2.distribution.getD k 0) ∧ r1 = r2 :=
  ⟨⟨by norm_num [sampleSkewed], by norm_num [samplePair]⟩,
    add_associative sampleSkewed samplePair sampleSkewed (by decide) (by decide) (by decide)
      (fun _ => by norm_num [sampleSkewed]) (fun _ => by norm_num [samplePair])
      (fun _ => by norm_num [sampleSkewed])⟩
/-! ## C34: `avg` of a sum -/

theorem avg_weighted (d : Distribution) (h : d.WF) (hu : isUncertain d = true) :
    avg d = .ok ⟨(∑ i ∈ Finset.range d.distribution.length,
        d.distribution.getD i 0 * (d.constant + (i : ℚ))) / d.distribution.sum, [], 0⟩ := by
  obtain ⟨st, hrun, hP⟩ := forRange_inv
    (fun t (st : ℚ × ℚ) => st = (∑ i ∈ Finset.range t,
        d.distribution.getD i 0 * (d.constant + (i : ℚ)), (d.distribution.take t).sum))
    d.size.toNat ((0 : ℚ), (0 : ℚ))
    (fun i st => do
      let x ← readAt d.distribution i
      pure (st.1 + x * ((i : ℚ) + d.constant), st.2 + x))
    (by simp) (by
      intro t ht st hst
      rw [WF_toNat h] at ht
      refine ⟨(st.1 + d.distribution.getD t 0 * ((t : ℚ) + d.constant),
        st.2 + d.distribution.getD t 0),
        by simp only [readAt_nat _ _ ht, ok_bind, pure_eq_ok], ?_⟩
      show (_, _) = (_, _)
      rw [hst, Finset.sum_range_succ, List.sum_take_succ _ _ ht,
        List.getD_eq_getElem _ _ ht, add_comm (t : ℚ) d.constant])
  rw [WF_toNat h, List.take_length] at hP
  simp only [avg, hu, Bool.not_true, Bool.false_eq_true, if_false]
  rw [hrun, hP]
  rfl

theorem normalized_sum_eq_one (a : List ℚ) (ha : a.sum ≠ 0) :
    ∑ i ∈ Finset.range a.length, a.getD i 0 / a.sum = 1 := by
  rw [← Finset.sum_div, ← list_sum_eq_sum_getD, div_self ha]

theorem convWeights_mean (a b : List ℚ) (ha : a.sum ≠ 0) (hb : b.sum ≠ 0) (c1 c2 : ℚ) :
    (∑ k ∈ Finset.range (convWeights a b).length,
        (convWeights a b).getD k 0 * (c1 + c2 + (k : ℚ))) =
      (∑ i ∈ Finset.range a.length, a.getD i 0 * (c1 + (i : ℚ))) / a.sum +
        (∑ j ∈ Finset.range b.length, b.getD j 0 * (c2 + (j : ℚ))) / b.sum + 1 := by
  have hSP := normalized_sum_eq_one a ha
  have hSQ := normalized_sum_eq_one b hb
  have hcol : ∀ k : Nat, (convWeights a b).getD k 0 * (c1 + c2 + (k : ℚ)) =
      ∑ i ∈ Finset.range a.length, ∑ j ∈ Finset.range b.length,
        if i + j + 1 = k then
          a.getD i 0 / a.sum * (b.getD j 0 / b.sum) * (c1 + c2 + ((i + j + 1 : Nat) : ℚ))
        else 0 := by
    intro k
    rw [convWeights_getD, Finset.sum_mul]
    apply Finset.sum_congr rfl
    intro i _
    rw [Finset.sum_mul]
    apply Finset.sum_congr rfl
    intro j _
    by_cases hk : i + j + 1 = k
    · rw [if_pos hk, if_pos hk, hk]; ring
    · rw [if_neg hk, if_neg hk, zero_mul]
  simp only [hcol]
  rw [Finset.sum_comm]
  have hin : ∀ i ∈ Finset.range a.length,
      (∑ k ∈ Finset.range (convWeights a b).length, ∑ j ∈ Finset.range b.length,
        if i + j + 1 = k then
          a.getD i 0 / a.sum * (b.getD j 0 / b.sum) * (c1 + c2 + ((i + j + 1 : Nat) : ℚ))
        else 0) =
      a.getD i 0 / a.sum * (c1 + (i : ℚ)) *
          (∑ j ∈ Finset.range b.length, b.getD j 0 / b.sum) +
        a.getD i 0 / a.sum *
          (∑ j ∈ Finset.range b.length, b.getD j 0 / b.sum * (c2 + (j : ℚ))) +
        a.getD i 0 / a.sum * (∑ j ∈ Finset.range b.length, b.getD j 0 / b.sum) := by
    intro i hi
    rw [Finset.sum_comm, Finset.mul_sum, Finset.mul_sum, Finset.mul_sum,
      ← Finset.sum_add_distrib,
      ← Finset.sum_add_distrib]
    apply Finset.sum_congr rfl
    intro j hj
    rw [Finset.mem_range] at hi hj
    rw [Finset.sum_eq_single (i + j + 1)]
    · rw [if_pos rfl]; push_cast; ring
    · intro k _ hk
      rw [if_neg (fun h => hk h.symm)]
    · intro hn
      exact absurd (Finset.mem_range.2 (by rw [convWeights_length]; omega)) hn
  rw [Finset.sum_congr rfl hin, Finset.sum_add_distrib, Finset.sum_add_distrib,
    ← Finset.sum_mul, ← Finset.sum_mul, ← Finset.sum_mul, hSP, hSQ, Finset.sum_div,
    Finset.sum_div]
  simp only [mul_one, one_mul]
  congr 1
  congr 1
  · apply Finset.sum_congr rfl
    intro i _
    ring
  · apply Finset.sum_congr rfl
    intro j _
    ring
/-- C34. In exact arithmetic, for uncertain `d1`, `d2` with positive total weights,
`avg (add d1 d2)` has constant `avg d1 + avg d2 + 1` (all four calls return); and for an
uncertain `d1` with positive total weight and a certain `c`, `avg (add d1 c)` has constant
`avg d1 + c.constant`. -/
theorem avg_add (d1 d2 c : Distribution) (h1 : d1.WF) (h2 : d2.WF) (hc : c.WF)
    (hu1 : isUncertain d1 = true) (hu2 : isUncertain d2 = true)
    (huc : isUncertain c = false)
    (hp1 : 0 < d1.distribution.sum) (hp2 : 0 < d2.distribution.sum) :
    (∃ s a3 a1 a2, add d1 d2 = .ok s ∧ avg s = .ok a3 ∧ avg d1 = .ok a1 ∧ avg d2 = .ok a2 ∧
      a3.constant = a1.constant + a2.constant + 1) ∧
    (∃ s a a1, add d1 c = .ok s ∧ avg s = .ok a ∧ avg d1 = .ok a1 ∧
      a.constant = a1.constant + c.constant) := by
  constructor
  · have hwf : (⟨d1.constant + d2.constant, convWeights d1.distribution d2.distribution,
        d1.size + d2.size⟩ : Distribution).WF := by
      unfold Distribution.WF at *
      rw [convWeights_length]
      push_cast
      rw [h1, h2]
    have hus : isUncertain ⟨d1.constant + d2.constant,
        convWeights d1.distribution d2.distribution, d1.size + d2.size⟩ = true := by
      rw [isUncertain_sum d1 d2 h1 h2, hu1, hu2]; rfl
    refine ⟨_, _, _, _, add_uncertain_conv d1 d2 h1 h2 hu1 hu2, avg_weighted _ hwf hus,
      avg_weighted d1 h1 hu1, avg_weighted d2 h2 hu2, ?_⟩
    show (∑ k ∈ Finset.range (convWeights d1.distribution d2.distribution).length,
        (convWeights d1.distribution d2.distribution).getD k 0 *
          (d1.constant + d2.constant + (k : ℚ))) /
        (convWeights d1.distribution d2.distribution).sum = _
    rw [convWeights_mean _ _ hp1.ne' hp2.ne', convWeights_sum _ _ hp1.ne' hp2.ne', div_one]
  · have hwf : (⟨d1.constant + c.constant, d1.distribution, d1.size + c.size⟩ :
        Distribution).WF := by
      unfold Distribution.WF at *
      rw [(WF_certain hc huc).1, add_zero]
      exact h1
    have hus : isUncertain ⟨d1.constant + c.constant, d1.distribution,
        d1.size + c.size⟩ = true := by
      rw [isUncertain_sum d1 c h1 hc, hu1]; rfl
    refine ⟨_, _, _, add_uncertain_certain d1 c h1 hc hu1 huc, avg_weighted _ hwf hus,
      avg_weighted d1 h1 hu1, ?_⟩
    show (∑ i ∈ Finset.range d1.distribution.length,
        d1.distribution.getD i 0 * (d1.constant + c.constant + (i : ℚ))) /
        d1.distribution.sum = (∑ i ∈ Finset.range d1.distribution.length,
        d1.distribution.getD i 0 * (d1.constant + (i : ℚ))) / d1.distribution.sum +
        c.constant
    have hsplit : (∑ i ∈ Finset.range d1.distribution.length,
        d1.distribution.getD i 0 * (d1.constant + c.constant + (i : ℚ))) =
        (∑ i ∈ Finset.range d1.distribution.length,
          d1.distribution.getD i 0 * (d1.constant + (i : ℚ))) +
        c.constant * d1.distribution.sum := by
      rw [list_sum_eq_sum_getD d1.distribution, Finset.mul_sum, ← Finset.sum_add_distrib]
      apply Finset.sum_congr rfl
      intro i _
      ring
    rw [hsplit, add_div, mul_div_assoc, div_self hp1.ne', mul_one]

/-- Instance of C34 at `sampleSkewed`, `samplePair` and the certain `sampleFive`. -/
theorem avg_add_witness :
    (0 < sampleSkewed.distribution.sum ∧ 0 < samplePair.distribution.sum) ∧
    (∃ s a3 a1 a2, add sampleSkewed samplePair = .ok s ∧ avg s = .ok a3 ∧
      avg sampleSkewed = .ok a1 ∧ avg samplePair = .ok a2 ∧
      a3.constant = a1.constant + a2.constant + 1) ∧
    (∃ s a a1, add sampleSkewed sampleFive = .ok s ∧ avg s = .ok a ∧
      avg sampleSkewed = .ok a1 ∧ a.constant = a1.constant + sampleFive.constant) :=
  ⟨⟨by norm_num [sampleSkewed], by norm_num [samplePair]⟩,
    avg_add sampleSkewed samplePair sampleFive (by decide) (by decide) (by decide) rfl rfl rfl
      (by norm_num [sampleSkewed]) (by norm_num [samplePair])⟩

/-! ## C37: the weights of `times` sum to 1 -/

theorem sum_indicator_total (N n : Nat) (f : Nat → Nat) (v : Nat → ℚ)
    (hf : ∀ t, t < n → 1 ≤ f t ∧ f t ≤ N) :
    (∑ k ∈ Finset.range N, ∑ t ∈ Finset.range n, if f t = k + 1 then v t else 0) =
      ∑ t ∈ Finset.range n, v t := by
  rw [Finset.sum_comm]
  apply Finset.sum_congr rfl
  intro t ht
  rw [Finset.mem_range] at ht
  obtain ⟨h1, h2⟩ := hf t ht
  rw [Finset.sum_eq_single (f t - 1)]
  · rw [if_pos (by omega)]
  · intro k _ hk
    rw [if_neg (by omega)]
  · intro hn
    exact absurd (Finset.mem_range.2 (by omega)) hn

theorem times_table_sum (d1 d2 : Distribution) (h1 : d1.WF) (h2 : d2.WF)
    (hunc : isUncertain d1 = true ∨ isUncertain d2 = true)
    (m1 m2 : Nat) (hc1 : d1.constant = m1) (hc2 : d2.constant = m2)
    (hcert1 : isUncertain d1 = false → 1 ≤ m1) (hcert2 : isUncertain d2 = false → 1 ≤ m2)
    (hp1 : isUncertain d1 = true → d1.distribution.sum ≠ 0)
    (hp2 : isUncertain d2 = true → d2.distribution.sum ≠ 0)
    (hr : getMax d1 * getMax d2 < 2147483648) :
    ∃ (w : List ℚ) (n : Nat), times d1 d2 = .ok ⟨0, w, (n : Int)⟩ ∧ w.length = n ∧
      w.sum = 1 := by
  obtain ⟨w, ht, hlen, hw1, hw2, hw12⟩ :=
    times_table d1 d2 h1 h2 hunc m1 m2 hc1 hc2 hcert1 hcert2 hr
  refine ⟨w, _, ht, hlen, ?_⟩
  rw [list_sum_eq_sum_getD, hlen]
  cases hu1 : isUncertain d1 <;> cases hu2 : isUncertain d2
  · rcases hunc with h | h
    · rw [hu1] at h; exact absurd h (by decide)
    · rw [hu2] at h; exact absurd h (by decide)
  · simp only [hw1 hu1]
    rw [(WF_certain h1 hu1).2, List.length_nil, zero_add]
    rw [sum_indicator_total _ _ (fun j => m1 * (j + m2 + 1)) _ (by
      intro t ht
      have := hcert1 hu1
      constructor
      · exact Nat.mul_pos (by omega) (by omega)
      · exact Nat.mul_le_mul_left _ (by omega))]
    exact normalized_sum_eq_one _ (hp2 hu2)
  · simp only [hw2 hu2]
    rw [(WF_certain h2 hu2).2, List.length_nil, zero_add]
    rw [sum_indicator_total _ _ (fun i => (i + m1 + 1) * m2) _ (by
      intro t ht
      have := hcert2 hu2
      constructor
      · exact Nat.mul_pos (by omega) (by omega)
      · exact Nat.mul_le_mul_right _ (by omega))]
    exact normalized_sum_eq_one _ (hp1 hu1)
  · simp only [hw12 hu1 hu2]
    rw [Finset.sum_comm]
    have hin : ∀ i ∈ Finset.range d1.distribution.length,
        (∑ k ∈ Finset.range ((d1.distribution.length + m1) * (d2.distribution.length + m2)),
          ∑ j ∈ Finset.range d2.distribution.length,
            if (i + m1 + 1) * (j + m2 + 1) = k + 1 then
              d1.distribution.getD i 0 / d1.distribution.sum *
                d2.distribution.getD j 0 / d2.distribution.sum
            else 0) =
          d1.distribution.getD i 0 / d1.distribution.sum := by
      intro i hi
      rw [Finset.mem_range] at hi
      rw [sum_indicator_total _ _ (fun j => (i + m1 + 1) * (j + m2 + 1)) _ (by
        intro t ht
        constructor
        · exact Nat.mul_pos (by omega) (by omega)
        · exact Nat.mul_le_mul (by omega) (by omega))]
      simp only [mul_div_assoc]
      rw [← Finset.mul_sum, normalized_sum_eq_one _ (hp2 hu2), mul_one]
    rw [Finset.sum_congr rfl hin]
    exact normalized_sum_eq_one _ (hp1 hu1)

/-- C37 (as stated, refuted). `(1d1 + 3000000000) * 1d1`: both operands are uncertain with
non-negative integer constants, non-negative weights and total weight 1, but the size
`3000000001` of the output does not fit the 32-bit `int` of the program: no slot is
allocated, the write of `times` is outside the array and no weights are returned. -/
theorem times_sum_out_of_int_range :
    sampleLarge.WF ∧ sampleOne.WF ∧ isUncertain sampleLarge = true ∧
    isUncertain sampleOne = true ∧ sampleLarge.distribution.sum = 1 ∧
    sampleOne.distribution.sum = 1 ∧
    doubleToInt (getMax sampleLarge * getMax sampleOne) = -2147483648 ∧
    times sampleLarge sampleOne = .error Fault.outOfBounds := by
  refine ⟨by decide, by decide, rfl, rfl, by norm_num [sampleLarge], by norm_num [sampleOne],
    by with_unfolding_all rfl, by with_unfolding_all rfl⟩

/-- C37 (amended). In exact arithmetic, for operands with constants that are natural
numbers, non-negative weights and positive total weights, at least one of them uncertain,
a certain operand being at least 1, and `getMax d1 * getMax d2 < 2 ^ 31` (the size of the
output is a 32-bit `int`), `times d1 d2` returns a distribution whose weights sum to
exactly 1 (so `getTotalWeight` of the result is 1): the mass of every outcome pair is kept,
also when several pairs share a product index. -/
theorem times_totalWeight_eq_one (d1 d2 : Distribution) (h1 : d1.WF) (h2 : d2.WF)
    (hunc : isUncertain d1 = true ∨ isUncertain d2 = true)
    (m1 m2 : Nat) (hc1 : d1.constant = m1) (hc2 : d2.constant = m2)
    (hcert1 : isUncertain d1 = false → 1 ≤ m1) (hcert2 : isUncertain d2 = false → 1 ≤ m2)
    (_hn1 : ∀ x ∈ d1.distribution, 0 ≤ x) (_hn2 : ∀ x ∈ d2.distribution, 0 ≤ x)
    (hp1 : isUncertain d1 = true → 0 < d1.distribution.sum)
    (hp2 : isUncertain d2 = true → 0 < d2.distribution.sum)
    (hr : getMax d1 * getMax d2 < 2147483648) :
    ∃ d3, times d1 d2 = .ok d3 ∧ (d3.size : ℚ) = getMax d1 * getMax d2 ∧
      d3.distribution.sum = 1 ∧ getTotalWeight d3 = .ok 1 := by
  obtain ⟨w, ht, hlen, _⟩ := times_table d1 d2 h1 h2 hunc m1 m2 hc1 hc2 hcert1 hcert2 hr
  obtain ⟨w', n, ht', _, hsum⟩ := times_table_sum d1 d2 h1 h2 hunc m1 m2 hc1 hc2
    hcert1 hcert2 (fun h => (hp1 h).ne') (fun h => (hp2 h).ne') hr
  have hww : w' = w := by
    rw [ht] at ht'
    injection ht' with ht'
    injection ht' with _ hd _
    exact hd.symm
  rw [hww] at hsum
  have hwf : (⟨0, w, (((d1.distribution.length + m1) * (d2.distribution.length + m2) : Nat) :
      Int)⟩ : Distribution).WF := by
    unfold Distribution.WF
    rw [hlen]
  refine ⟨_, ht, ?_, hsum, by rw [getTotalWeight_eq _ hwf]; exact congrArg _ hsum⟩
  rw [getMax_mul_natCast d1 d2 h1 h2 m1 m2 hc1 hc2]
  norm_cast

/-- Instance of C37 (amended) at `samplePair` times `samplePair`, where the outcome pairs
`(1, 2)` and `(2, 1)` share the product index 1. -/
theorem times_totalWeight_eq_one_witness :
    (0 < samplePair.distribution.sum ∧ getMax samplePair * getMax samplePair < 2147483648) ∧
    ∃ d3, times samplePair samplePair = .ok d3 ∧
      (d3.size : ℚ) = getMax samplePair * getMax samplePair ∧
      d3.distribution.sum = 1 ∧ getTotalWeight d3 = .ok 1 :=
  ⟨⟨by norm_num [samplePair], by norm_num [getMax, samplePair]⟩,
    times_totalWeight_eq_one samplePair samplePair (by decide) (by decide) (Or.inl rfl) 0 0
      (by norm_num [samplePair]) (by norm_num [samplePair])
      (fun h => absurd h (by decide)) (fun h => absurd h (by decide))
      (by intro x hx; simp only [samplePair, List.mem_cons, List.mem_nil_iff, or_false] at hx
          rcases hx with rfl | rfl <;> norm_num)
      (by intro x hx; simp only [samplePair, List.mem_cons, List.mem_nil_iff, or_false] at hx
          rcases hx with rfl | rfl <;> norm_num)
      (fun _ => by norm_num [samplePair]) (fun _ => by norm_num [samplePair])
      (by norm_num [getMax, samplePair])⟩

/-! ## C38: `times` is commutative -/

theorem forRange_congr {σ : Type} (n : Nat) (init : σ) (body body' : Nat → σ → Except Fault σ)
    (h : ∀ t, t < n → ∀ s, body t s = body' t s) :
    forRange n init body = forRange n init body' := by
  induction n with
  | zero => rw [forRange_zero, forRange_zero]
  | succ n ih =>
    rw [forRange_succ, forRange_succ, ih (fun t ht s => h t (by omega) s)]
    cases forRange n init body' with
    | error e => rfl
    | ok s => exact h n (by omega) s

theorem accumAt_in (a : List ℚ) (i : Int) (v : ℚ) (h0 : 0 ≤ i) (h1 : i.toNat < a.length) :
    accumAt a i v = .ok (a.set i.toNat (a.getD i.toNat 0 + v)) := by
  have := accumAt_nat a i.toNat v h1
  rwa [Int.toNat_of_nonneg h0] at this

theorem accumAt_out (a : List ℚ) (i : Int) (v : ℚ) (h : ¬ (0 ≤ i ∧ i.toNat < a.length)) :
    accumAt a i v = .error .outOfBounds := by
  unfold accumAt readAt
  by_cases h0 : 0 ≤ i
  · have h1 : ¬ i.toNat < a.length := fun h1 => h ⟨h0, h1⟩
    rw [if_pos h0, List.get?_eq_none.2 (by omega)]
    rfl
  · rw [if_neg h0]
    rfl

/-- Dichotomy for a loop of compound assignments: it fails with an out-of-bounds
fault when some index is outside the array, and returns an array of the same length
otherwise. -/
theorem accum_loop_dichotomy (n : Nat) (idx : Nat → Int) (val : Nat → ℚ) (acc : List ℚ) :
    (forRange n acc (fun t s => accumAt s (idx t) (val t)) = .error .outOfBounds ∧
      ∃ t, t < n ∧ ¬ (0 ≤ idx t ∧ (idx t).toNat < acc.length)) ∨
    (∃ acc', forRange n acc (fun t s => accumAt s (idx t) (val t)) = .ok acc' ∧
      acc'.length = acc.length ∧ ∀ t, t < n → 0 ≤ idx t ∧ (idx t).toNat < acc.length) := by
  induction n with
  | zero => exact Or.inr ⟨acc, forRange_zero _ _, rfl, fun t ht => absurd ht (by omega)⟩
  | succ n ih =>
    rw [forRange_succ]
    rcases ih with ⟨he, t, ht, hout⟩ | ⟨acc', hok, hlen, hall⟩
    · exact Or.inl ⟨by rw [he]; rfl, t, by omega, hout⟩
    · rw [hok]
      by_cases hin : 0 ≤ idx n ∧ (idx n).toNat < acc.length
      · refine Or.inr ⟨acc'.set (idx n).toNat (acc'.getD (idx n).toNat 0 + val n), ?_, ?_, ?_⟩
        · simp only [ok_bind]
          exact accumAt_in acc' (idx n) (val n) hin.1 (by rw [hlen]; exact hin.2)
        · rw [List.length_set]; exact hlen
        · intro t ht
          rcases Nat.lt_succ_iff_lt_or_eq.1 ht with h | h
          · exact hall t h
          · rw [h]; exact hin
      · refine Or.inl ⟨?_, n, by omega, hin⟩
        simp only [ok_bind]
        exact accumAt_out acc' (idx n) (val n) (by rw [hlen]; exact hin)

theorem accum_loop2_dichotomy (n m : Nat) (idx : Nat → Nat → Int) (val : Nat → Nat → ℚ)
    (acc : List ℚ) :
    (forRange n acc (fun i s => forRange m s (fun j s => accumAt s (idx i j) (val i j))) =
        .error .outOfBounds ∧
      ∃ i j, i < n ∧ j < m ∧ ¬ (0 ≤ idx i j ∧ (idx i j).toNat < acc.length)) ∨
    (∃ acc', forRange n acc
        (fun i s => forRange m s (fun j s => accumAt s (idx i j) (val i j))) = .ok acc' ∧
      acc'.length = acc.length ∧
      ∀ i j, i < n → j < m → 0 ≤ idx i j ∧ (idx i j).toNat < acc.length) := by
  induction n with
  | zero => exact Or.inr ⟨acc, forRange_zero _ _, rfl, fun i j hi => absurd hi (by omega)⟩
  | succ n ih =>
    rw [forRange_succ]
    rcases ih with ⟨he, i, j, hi, hj, hout⟩ | ⟨acc', hok, hlen, hall⟩
    · exact Or.inl ⟨by rw [he]; rfl, i, j, by omega, hj, hout⟩
    · rw [hok]
      simp only [ok_bind]
      rcases accum_loop_dichotomy m (idx n) (val n) acc' with
        ⟨he, j, hj, hout⟩ | ⟨acc'', hok2, hlen2, hall2⟩
      · exact Or.inl ⟨he, n, j, by omega, hj, by rw [← hlen]; exact hout⟩
      · refine Or.inr ⟨acc'', hok2, by rw [hlen2, hlen], ?_⟩
        intro i j hi hj
        rcases Nat.lt_succ_iff_lt_or_eq.1 hi with h | h
        · exact hall i j h hj
        · rw [h, ← hlen]; exact hall2 j hj

/-- Two nested loops of compound assignments may be swapped: the result (a fault or
the final array) is the same. -/
theorem accum_loop2_swap (n m : Nat) (idx : Nat → Nat → Int) (val : Nat → Nat → ℚ)
    (acc : List ℚ) :
    forRange n acc (fun i s => forRange m s (fun j s => accumAt s (idx i j) (val i j))) =
      forRange m acc (fun j s => forRange n s (fun i s => accumAt s (idx i j) (val i j))) := by
  rcases accum_loop2_dichotomy n m idx val acc with
    ⟨he, i, j, hi, hj, hout⟩ | ⟨acc1, hok1, _, hall1⟩ <;>
  rcases accum_loop2_dichotomy m n (fun j i => idx i j) (fun j i => val i j) acc with
    ⟨he2, j2, i2, hj2, hi2, hout2⟩ | ⟨acc2, hok2, _, hall2⟩
  · rw [he, he2]
  · exact absurd (hall2 j i hj hi) hout
  · exact absurd (hall1 i2 j2 hi2 hj2) hout2
  · obtain ⟨a1, hr1, hl1, hg1⟩ := accum_loop2 n m acc (fun i j => (idx i j).toNat) val
      (fun i j s => accumAt s (idx i j) (val i j))
      (fun i hi j hj s _ => by
        show accumAt s (idx i j) (val i j) = accumAt s (((idx i j).toNat : Nat) : Int) (val i j)
        rw [Int.toNat_of_nonneg (hall1 i j hi hj).1])
      (fun i hi j hj => (hall1 i j hi hj).2)
    obtain ⟨a2, hr2, hl2, hg2⟩ := accum_loop2 m n acc (fun j i => (idx i j).toNat)
      (fun j i => val i j)
      (fun j i s => accumAt s (idx i j) (val i j))
      (fun j hj i hi s _ => by
        show accumAt s (idx i j) (val i j) = accumAt s (((idx i j).toNat : Nat) : Int) (val i j)
        rw [Int.toNat_of_nonneg (hall1 i j hi hj).1])
      (fun j hj i hi => (hall1 i j hi hj).2)
    rw [hr1, hr2]
    congr 1
    apply eq_of_getD_eq
    · rw [hl1, hl2]
    · intro k
      rw [hg1, hg2, Finset.sum_comm]
theorem times_comm_eq (d1 d2 : Distribution) (h1 : d1.WF) (h2 : d2.WF) :
    times d1 d2 = times d2 d1 := by
  cases hu1 : isUncertain d1 <;> cases hu2 : isUncertain d2
  · simp only [times, hu1, hu2, Bool.not_false, Bool.and_self, if_true, mul_comm d1.constant]
  · simp only [times, hu1, hu2, Bool.not_false, Bool.not_true, Bool.and_false, Bool.and_true,
      Bool.false_and, Bool.true_and, Bool.false_eq_true, if_false, if_true,
      mul_comm (getMax d1)]
  · simp only [times, hu1, hu2, Bool.not_false, Bool.not_true, Bool.and_false, Bool.and_true,
      Bool.false_and, Bool.true_and, Bool.false_eq_true, if_false, if_true,
      mul_comm (getMax d1)]
  · simp only [times, hu1, hu2, Bool.not_false, Bool.not_true, Bool.and_false, Bool.and_true,
      Bool.false_and, Bool.true_and, Bool.false_eq_true, if_false, if_true, Bool.and_self,
      mul_comm (getMax d1), getTotalWeight_eq d1 h1, getTotalWeight_eq d2 h2, ok_bind]
    congr 1
    rw [WF_toNat h1, WF_toNat h2]
    refine Eq.trans (forRange_congr _ _ _
      (fun i s => forRange d2.distribution.length s (fun j s =>
        accumAt s (((i : Int) + doubleToInt d1.constant + 1) *
            ((j : Int) + doubleToInt d2.constant + 1) - 1)
          (d1.distribution.getD i 0 / d1.distribution.sum *
            d2.distribution.getD j 0 / d2.distribution.sum))) ?_)
      (Eq.trans (accum_loop2_swap _ _ _ _ _) (forRange_congr _ _ _ _ ?_).symm)
    · intro i hi s
      apply forRange_congr
      intro j hj s
      simp only [readAt_nat _ _ hi, readAt_nat _ _ hj, ok_bind]
    · intro j hj s
      apply forRange_congr
      intro i hi s
      simp only [readAt_nat _ _ hi, readAt_nat _ _ hj, ok_bind]
      rw [mul_comm ((j : Int) + doubleToInt d2.constant + 1)]
      congr 1
      ring

/-- C38. In exact arithmetic `times` is commutative: for every pair of distributions
(an uncertain one having positive total weight; the constants need not be integers),
`times d1 d2` and `times d2 d1` are the same result, and whenever `times d1 d2` returns a
distribution, `times d2 d1` returns one with the same constant, the same size and the same
weight at every index. -/
theorem times_commutative (d1 d2 : Distribution) (h1 : d1.WF) (h2 : d2.WF)
    (_hp1 : isUncertain d1 = true → 0 < d1.distribution.sum)
    (_hp2 : isUncertain d2 = true → 0 < d2.distribution.sum) :
    times d1 d2 = times d2 d1 ∧
    ∀ r1, times d1 d2 = .ok r1 → ∃ r2, times d2 d1 = .ok r2 ∧
      r1.constant = r2.constant ∧ r1.size = r2.size ∧
      ∀ k : Nat, r1.distribution.getD k 0 = r2.distribution.getD k 0 := by
  refine ⟨times_comm_eq d1 d2 h1 h2, fun r1 hr => ⟨r1, ?_, rfl, rfl, fun _ => rfl⟩⟩
  rw [← times_comm_eq d1 d2 h1 h2]
  exact hr

/-- Instance of C38 at `sampleSkewed` and `samplePair`, on which `times` returns. -/
theorem times_commutative_witness :
    (0 < sampleSkewed.distribution.sum ∧ 0 < samplePair.distribution.sum ∧
      ∃ r, times sampleSkewed samplePair = .ok r) ∧
    (times sampleSkewed samplePair = times samplePair sampleSkewed ∧
    ∀ r1, times sampleSkewed samplePair = .ok r1 →
      ∃ r2, times samplePair sampleSkewed = .ok r2 ∧
        r1.constant = r2.constant ∧ r1.size = r2.size ∧
        ∀ k : Nat, r1.distribution.getD k 0 = r2.distribution.getD k 0) :=
  ⟨⟨by norm_num [sampleSkewed], by norm_num [samplePair],
      ⟨⟨0, [0, 0, 3 / 16, 0, 9 / 16, 1 / 16, 0, 0, 0, 3 / 16], 10⟩,
        by with_unfolding_all rfl⟩⟩,
    times_commutative sampleSkewed samplePair (by decide) (by decide)
      (fun _ => by norm_num [sampleSkewed]) (fun _ => by norm_num [samplePair])⟩
/-! ## C39: non-negative weights are preserved -/

theorem bind_eq_ok {α β : Type} (x : Except Fault α) (f : α → Except Fault β) (r : β)
    (h : (x >>= f) = .ok r) : ∃ a, x = .ok a ∧ f a = .ok r := by
  cases x with
  | error e => exact absurd h (by simp)
  | ok a => exact ⟨a, rfl, h⟩

theorem readAt_mem (a : List ℚ) (i : Int) (x : ℚ) (h : readAt a i = .ok x) : x ∈ a := by
  unfold readAt at h
  by_cases h0 : 0 ≤ i
  · rw [if_pos h0] at h
    cases hg : a.get? i.toNat with
    | none => rw [hg] at h; exact absurd h (by simp)
    | some y =>
      rw [hg] at h
      have : y = x := by injection h
      rw [← this]
      exact List.get?_mem hg
  · rw [if_neg h0] at h
    exact absurd h (by simp)

theorem writeAt_nonneg (a a' : List ℚ) (i : Int) (v : ℚ) (ha : ∀ x ∈ a, 0 ≤ x)
    (hv : 0 ≤ v) (h : writeAt a i v = .ok a') : ∀ x ∈ a', 0 ≤ x := by
  unfold writeAt at h
  by_cases hc : 0 ≤ i ∧ i.toNat < a.length
  · rw [if_pos hc] at h
    have : a.set i.toNat v = a' := by injection h
    intro x hx
    rw [← this] at hx
    rcases List.mem_or_eq_of_mem_set hx with h1 | h1
    · exact ha x h1
    · rw [h1]; exact hv
  · rw [if_neg hc] at h
    exact absurd h (by simp)

theorem accumAt_nonneg (a a' : List ℚ) (i : Int) (v : ℚ) (ha : ∀ x ∈ a, 0 ≤ x)
    (hv : 0 ≤ v) (h : accumAt a i v = .ok a') : ∀ x ∈ a', 0 ≤ x := by
  unfold accumAt at h
  obtain ⟨old, hold, hw⟩ := bind_eq_ok _ _ _ h
  exact writeAt_nonneg a a' i _ ha (add_nonneg (ha old (readAt_mem a i old hold)) hv) hw

theorem getTotalWeight_nonneg (d : Distribution) (hn : ∀ x ∈ d.distribution, 0 ≤ x) (W : ℚ)
    (h : getTotalWeight d = .ok W) : 0 ≤ W := by
  refine forRange_ok_inv (fun _ (s : ℚ) => 0 ≤ s) _ _ _ (le_refl _) ?_ W h
  intro t _ s s' hs hb
  obtain ⟨x, hx, hr⟩ := bind_eq_ok _ _ _ hb
  have : s + x = s' := by injection hr
  rw [← this]
  exact add_nonneg hs (hn x (readAt_mem _ _ _ hx))

theorem createDistribution_nonneg (size : Int) (v c : ℚ) (hv : 0 ≤ v) :
    ∀ x ∈ (createDistribution size v c).distribution, 0 ≤ x := by
  intro x hx
  rw [List.eq_of_mem_replicate hx]
  exact hv
theorem copy_loop_nonneg (n : Nat) (src init w : List ℚ) (hs : ∀ x ∈ src, 0 ≤ x)
    (hi : ∀ x ∈ init, 0 ≤ x)
    (h : forRange n init (fun i acc => do
      let x ← readAt src i
      writeAt acc i x) = .ok w) : ∀ x ∈ w, 0 ≤ x := by
  refine forRange_ok_inv (fun _ (s : List ℚ) => ∀ x ∈ s, 0 ≤ x) _ _ _ hi ?_ w h
  intro t _ s s' hs' hb
  obtain ⟨x, hx, hr⟩ := bind_eq_ok _ _ _ hb
  exact writeAt_nonneg s s' _ x hs' (hs x (readAt_mem _ _ _ hx)) hr

theorem add_weights_nonneg (d1 d2 r : Distribution) (hn1 : ∀ x ∈ d1.distribution, 0 ≤ x)
    (hn2 : ∀ x ∈ d2.distribution, 0 ≤ x) (h : add d1 d2 = .ok r) :
    ∀ x ∈ r.distribution, 0 ≤ x := by
  unfold add at h
  obtain ⟨W1, hW1, h⟩ := bind_eq_ok _ _ _ h
  obtain ⟨W2, hW2, h⟩ := bind_eq_ok _ _ _ h
  have hp1 := getTotalWeight_nonneg d1 hn1 W1 hW1
  have hp2 := getTotalWeight_nonneg d2 hn2 W2 hW2
  have h0 := createDistribution_nonneg (d1.size + d2.size) 0 (d1.constant + d2.constant)
    (le_refl _)
  cases hu1 : isUncertain d1 <;> cases hu2 : isUncertain d2 <;>
    simp only [hu1, hu2, Bool.and_self, Bool.and_true, Bool.and_false, Bool.false_eq_true,
      if_true, if_false] at h
  · have : createDistribution (d1.size + d2.size) 0 (d1.constant + d2.constant) = r := by
      injection h
    rw [← this]; exact h0
  · obtain ⟨w, hw, hr⟩ := bind_eq_ok _ _ _ h
    have : ({ createDistribution (d1.size + d2.size) 0 (d1.constant + d2.constant) with
      distribution := w } : Distribution) = r := by injection hr
    rw [← this]
    exact copy_loop_nonneg _ _ _ w hn2 h0 hw
  · obtain ⟨w, hw, hr⟩ := bind_eq_ok _ _ _ h
    have : ({ createDistribution (d1.size + d2.size) 0 (d1.constant + d2.constant) with
      distribution := w } : Distribution) = r := by injection hr
    rw [← this]
    exact copy_loop_nonneg _ _ _ w hn1 h0 hw
  · obtain ⟨w, hw, hr⟩ := bind_eq_ok _ _ _ h
    have : ({ createDistribution (d1.size + d2.size) 0 (d1.constant + d2.constant) with
      distribution := w } : Distribution) = r := by injection hr
    rw [← this]
    refine forRange_ok_inv (fun _ (s : List ℚ) => ∀ x ∈ s, 0 ≤ x) _ _ _ h0 ?_ w hw
    intro i _ s s' hs hb
    refine forRange_ok_inv (fun _ (s : List ℚ) => ∀ x ∈ s, 0 ≤ x) _ _ _ hs ?_ s' hb
    intro j _ s s' hs hb
    obtain ⟨x, hx, hb⟩ := bind_eq_ok _ _ _ hb
    obtain ⟨y, hy, hb⟩ := bind_eq_ok _ _ _ hb
    refine accumAt_nonneg s s' _ _ hs ?_ hb
    exact div_nonneg (mul_nonneg (div_nonneg (hn1 x (readAt_mem _ _ _ hx)) hp1)
      (hn2 y (readAt_mem _ _ _ hy))) hp2

theorem scaled_loop_nonneg (n : Nat) (src init w : List ℚ) (W : ℚ) (idx : Nat → Int)
    (hs : ∀ x ∈ src, 0 ≤ x) (hW : 0 ≤ W) (hi : ∀ x ∈ init, 0 ≤ x)
    (h : forRange n init (fun i acc => do
      let x ← readAt src i
      writeAt acc (idx i) (x / W)) = .ok w) : ∀ x ∈ w, 0 ≤ x := by
  refine forRange_ok_inv (fun _ (s : List ℚ) => ∀ x ∈ s, 0 ≤ x) _ _ _ hi ?_ w h
  intro t _ s s' hs' hb
  obtain ⟨x, hx, hr⟩ := bind_eq_ok _ _ _ hb
  exact writeAt_nonneg s s' _ _ hs' (div_nonneg (hs x (readAt_mem _ _ _ hx)) hW) hr

theorem times_weights_nonneg (d1 d2 r : Distribution) (hn1 : ∀ x ∈ d1.distribution, 0 ≤ x)
    (hn2 : ∀ x ∈ d2.distribution, 0 ≤ x) (h : times d1 d2 = .ok r) :
    ∀ x ∈ r.distribution, 0 ≤ x := by
  unfold times at h
  have h0 := createDistribution_nonneg (doubleToInt (getMax d1 * getMax d2)) 0 0 (le_refl _)
  cases hu1 : isUncertain d1 <;> cases hu2 : isUncertain d2 <;>
    simp only [hu1, hu2, Bool.and_self, Bool.and_true, Bool.and_false, Bool.false_eq_true,
      Bool.not_true, Bool.not_false, if_true, if_false] at h
  · have : createDistribution 0 0 (d1.constant * d2.constant) = r := by injection h
    rw [← this]
    exact createDistribution_nonneg _ _ _ (le_refl _)
  · obtain ⟨W2, hW2, h⟩ := bind_eq_ok _ _ _ h
    obtain ⟨w, hw, hr⟩ := bind_eq_ok _ _ _ h
    have : ({ createDistribution (doubleToInt (getMax d1 * getMax d2)) 0 0 with
      distribution := w } : Distribution) = r := by injection hr
    rw [← this]
    exact scaled_loop_nonneg _ _ _ w W2 _ hn2 (getTotalWeight_nonneg d2 hn2 W2 hW2) h0 hw
  · obtain ⟨W1, hW1, h⟩ := bind_eq_ok _ _ _ h
    obtain ⟨w, hw, hr⟩ := bind_eq_ok _ _ _ h
    have : ({ createDistribution (doubleToInt (getMax d1 * getMax d2)) 0 0 with
      distribution := w } : Distribution) = r := by injection hr
    rw [← this]
    exact scaled_loop_nonneg _ _ _ w W1 _ hn1 (getTotalWeight_nonneg d1 hn1 W1 hW1) h0 hw
  · obtain ⟨W1, hW1, h⟩ := bind_eq_ok _ _ _ h
    obtain ⟨W2, hW2, h⟩ := bind_eq_ok _ _ _ h
    have hp1 := getTotalWeight_nonneg d1 hn1 W1 hW1
    have hp2 := getTotalWeight_nonneg d2 hn2 W2 hW2
    obtain ⟨w, hw, hr⟩ := bind_eq_ok _ _ _ h
    have : ({ createDistribution (doubleToInt (getMax d1 * getMax d2)) 0 0 with
      distribution := w } : Distribution) = r := by injection hr
    rw [← this]
    refine forRange_ok_inv (fun _ (s : List ℚ) => ∀ x ∈ s, 0 ≤ x) _ _ _ h0 ?_ w hw
    intro i _ s s' hs hb
    refine forRange_ok_inv (fun _ (s : List ℚ) => ∀ x ∈ s, 0 ≤ x) _ _ _ hs ?_ s' hb
    intro j _ s s' hs hb
    obtain ⟨x, hx, hb⟩ := bind_eq_ok _ _ _ hb
    obtain ⟨y, hy, hb⟩ := bind_eq_ok _ _ _ hb
    refine accumAt_nonneg s s' _ _ hs ?_ hb
    exact div_nonneg (mul_nonneg (div_nonneg (hn1 x (readAt_mem _ _ _ hx)) hp1)
      (hn2 y (readAt_mem _ _ _ hy))) hp2
theorem roll_result_shape (R : RandSource) (fuel : Nat) (d : Distribution) (pos : Nat)
    (r : Distribution) (p : Nat) (h : roll R fuel d pos = .ok (r, p)) :
    ∃ c : ℚ, r = createDistribution 0 0 c := by
  unfold roll at h
  split at h
  · obtain ⟨W, _, h⟩ := bind_eq_ok _ _ _ h
    obtain ⟨v, _, h⟩ := bind_eq_ok _ _ _ h
    simp only [pure_eq_ok] at h
    injection h with h
    injection h with h1 h2
    exact ⟨_, h1.symm⟩
  · simp only [pure_eq_ok] at h
    injection h with h
    injection h with h1 h2
    exact ⟨_, h1.symm⟩

theorem avg_result_shape (d r : Distribution) (h : avg d = .ok r) :
    ∃ c : ℚ, r = createDistribution 0 0 c := by
  unfold avg at h
  split at h
  · simp only [pure_eq_ok] at h
    injection h with h
    exact ⟨_, h.symm⟩
  · obtain ⟨st, _, h⟩ := bind_eq_ok _ _ _ h
    simp only [pure_eq_ok] at h
    injection h with h
    exact ⟨_, h.symm⟩

theorem prob_result_shape (R : RandSource) (fuel : Nat) (d1 d2 : Distribution) (pos : Nat)
    (r : Distribution) (p : Nat) (h : prob R fuel d1 d2 pos = .ok (r, p)) :
    ∃ c : ℚ, r = createDistribution 0 0 c := by
  unfold prob at h
  have key : ∀ (c : ℚ) (p0 : Nat),
      (if isUncertain d2 = true then
          if c < getMax d2 then do
            let probability ← readAt d2.distribution (truncInt (c - d2.constant))
            let total ← getTotalWeight d2
            pure (createDistribution 0 0 (probability / total), p0)
          else pure (createDistribution 0 0 0, p0)
        else if c = d2.constant then pure (createDistribution 0 0 1, p0)
          else pure (createDistribution 0 0 0, p0)) = Except.ok (r, p) →
      ∃ c : ℚ, r = createDistribution 0 0 c := by
    intro c p0 hk
    split at hk
    · split at hk
      · obtain ⟨x, _, hk⟩ := bind_eq_ok _ _ _ hk
        obtain ⟨T, _, hk⟩ := bind_eq_ok _ _ _ hk
        injection hk with hk
        injection hk with h1 _
        exact ⟨_, h1.symm⟩
      · injection hk with hk
        injection hk with h1 _
        exact ⟨_, h1.symm⟩
    · split at hk
      · injection hk with hk
        injection hk with h1 _
        exact ⟨_, h1.symm⟩
      · injection hk with hk
        injection hk with h1 _
        exact ⟨_, h1.symm⟩
  cases hu : isUncertain d1
  · rw [hu] at h
    simp only [Bool.false_eq_true, if_false, pure_eq_ok, ok_bind] at h
    exact key d1.constant pos h
  · rw [hu, if_pos rfl] at h
    cases hr : roll R fuel d1 pos with
    | error e => rw [hr] at h; cases h
    | ok v =>
      rw [hr] at h
      simp only [ok_bind, pure_eq_ok] at h
      exact key d1.constant v.2 h

theorem dice_weights_nonneg (R : RandSource) (fuel pos : Nat) (d1 d2 r : Distribution)
    (p : Nat) (h : dice R fuel d1 d2 pos = .ok (r, p)) : ∀ x ∈ r.distribution, 0 ≤ x := by
  rw [dice_resolved] at h
  obtain ⟨a, ha, h⟩ := bind_eq_ok _ _ _ h
  obtain ⟨b, hb, h⟩ := bind_eq_ok _ _ _ h
  have hua : isUncertain a.1 = false := by
    cases hu : isUncertain d1
    · rw [hu] at ha
      simp only [Bool.false_eq_true, if_false] at ha
      injection ha with ha
      rw [← ha]; exact hu
    · rw [hu, if_pos rfl] at ha
      exact roll_result_certain R fuel d1 pos a.1 a.2 ha
  have hub : isUncertain b.1 = false := by
    cases hu : isUncertain d2
    · rw [hu] at hb
      simp only [Bool.false_eq_true, if_false] at hb
      injection hb with hb
      rw [← hb]; exact hu
    · rw [hu, if_pos rfl] at hb
      exact roll_result_certain R fuel d2 a.2 b.1 b.2 hb
  rw [dice_certain R fuel b.2 a.1 b.1 hua hub] at h
  split at h
  · injection h with h
    injection h with h1 _
    rw [← h1]
    exact createDistribution_nonneg _ _ _ (le_refl _)
  · obtain ⟨d3, hd3, h⟩ := bind_eq_ok _ _ _ h
    injection h with h
    injection h with h1 _
    rw [← h1]
    refine forRange_ok_inv (fun _ (s : Distribution) => ∀ x ∈ s.distribution, 0 ≤ x) _ _ _
      (createDistribution_nonneg _ _ _ zero_le_one) ?_ d3 hd3
    intro t _ s s' hs hstep
    exact add_weights_nonneg s _ s' hs (createDistribution_nonneg _ _ _ zero_le_one) hstep
theorem avg_returns (d : Distribution) (h : d.WF) : ∃ r, avg d = .ok r := by
  cases hu : isUncertain d
  · exact ⟨createDistribution 0 0 d.constant, by
      simp only [avg, hu, Bool.not_false, if_true, pure_eq_ok]⟩
  · exact ⟨_, avg_weighted d h hu⟩

/-- C39. Non-negative weights are preserved by the algebra: for well-formed `d1`, `d2`
with non-negative weights (an uncertain operand having positive total weight; the
constants may be any numbers), `add d1 d2` returns a distribution with non-negative
weights, every distribution returned by `times d1 d2` and by `dice d1 d2` has non-negative
weights, `avg d1` returns a certain distribution (size 0, no table), and every distribution
returned by `roll d1` and by `prob d1 d2` is certain (size 0, no table). -/
theorem weights_nonneg_invariant (R : RandSource) (fuel pos : Nat) (d1 d2 : Distribution)
    (h1 : d1.WF) (h2 : d2.WF)
    (hn1 : ∀ x ∈ d1.distribution, 0 ≤ x) (hn2 : ∀ x ∈ d2.distribution, 0 ≤ x)
    (_hp1 : isUncertain d1 = true → 0 < d1.distribution.sum)
    (_hp2 : isUncertain d2 = true → 0 < d2.distribution.sum) :
    (∃ r, add d1 d2 = .ok r ∧ ∀ x ∈ r.distribution, 0 ≤ x) ∧
    (∀ r, times d1 d2 = .ok r → ∀ x ∈ r.distribution, 0 ≤ x) ∧
    (∀ r p, dice R fuel d1 d2 pos = .ok (r, p) → ∀ x ∈ r.distribution, 0 ≤ x) ∧
    (∃ r, avg d1 = .ok r ∧ r.size = 0 ∧ r.distribution = []) ∧
    (∀ r p, roll R fuel d1 pos = .ok (r, p) → r.size = 0 ∧ r.distribution = []) ∧
    (∀ r p, prob R fuel d1 d2 pos = .ok (r, p) → r.size = 0 ∧ r.distribution = []) := by
  refine ⟨⟨_, add_eq_addTable d1 d2 h1 h2,
      add_weights_nonneg d1 d2 _ hn1 hn2 (add_eq_addTable d1 d2 h1 h2)⟩,
    fun r hr => times_weights_nonneg d1 d2 r hn1 hn2 hr,
    fun r p hr => dice_weights_nonneg R fuel pos d1 d2 r p hr, ?_, ?_, ?_⟩
  · obtain ⟨r, hr⟩ := avg_returns d1 h1
    obtain ⟨c, hc⟩ := avg_result_shape d1 r hr
    exact ⟨r, hr, by rw [hc]; exact ⟨rfl, rfl⟩⟩
  · intro r p hr
    obtain ⟨c, hc⟩ := roll_result_shape R fuel d1 pos r p hr
    rw [hc]; exact ⟨rfl, rfl⟩
  · intro r p hr
    obtain ⟨c, hc⟩ := prob_result_shape R fuel d1 d2 pos r p hr
    rw [hc]; exact ⟨rfl, rfl⟩

/-- Instance of C39 at `samplePair` (twice) with the random source `sampleHighDraws`, an
input on which `times`, `dice`, `roll` and `prob` all return. -/
theorem weights_nonneg_invariant_witness :
    (0 < samplePair.distribution.sum ∧
      (∃ r, times samplePair samplePair = .ok r) ∧
      (∃ r, dice sampleHighDraws 10 samplePair samplePair 0 = .ok r) ∧
      (∃ r, roll sampleHighDraws 10 samplePair 0 = .ok r) ∧
      (∃ r, prob sampleHighDraws 10 samplePair samplePair 0 = .ok r)) ∧
    ((∃ r, add samplePair samplePair = .ok r ∧ ∀ x ∈ r.distribution, 0 ≤ x) ∧
    (∀ r, times samplePair samplePair = .ok r → ∀ x ∈ r.distribution, 0 ≤ x) ∧
    (∀ r p, dice sampleHighDraws 10 samplePair samplePair 0 = .ok (r, p) →
      ∀ x ∈ r.distribution, 0 ≤ x) ∧
    (∃ r, avg samplePair = .ok r ∧ r.size = 0 ∧ r.distribution = []) ∧
    (∀ r p, roll sampleHighDraws 10 samplePair 0 = .ok (r, p) →
      r.size = 0 ∧ r.distribution = []) ∧
    (∀ r p, prob sampleHighDraws 10 samplePair samplePair 0 = .ok (r, p) →
      r.size = 0 ∧ r.distribution = [])) :=
  ⟨⟨by norm_num [samplePair],
      ⟨⟨0, [9 / 16, 3 / 8, 0, 1 / 16], 4⟩, by with_unfolding_all rfl⟩,
      ⟨(⟨0, [0, 1 / 4, 1 / 2, 1 / 4], 4⟩, 2), by with_unfolding_all rfl⟩,
      ⟨(⟨2, [], 0⟩, 1), by with_unfolding_all rfl⟩,
      ⟨(⟨3 / 4, [], 0⟩, 1), by with_unfolding_all rfl⟩⟩,
    weights_nonneg_invariant sampleHighDraws 10 0 samplePair samplePair
      (by decide) (by decide)
      (by intro x hx; simp only [samplePair, List.mem_cons, List.mem_nil_iff, or_false] at hx
          rcases hx with rfl | rfl <;> norm_num)
      (by intro x hx; simp only [samplePair, List.mem_cons, List.mem_nil_iff, or_false] at hx
          rcases hx with rfl | rfl <;> norm_num)
      (fun _ => by norm_num [samplePair]) (fun _ => by norm_num [samplePair])⟩

/-! ## C33: `prob` summed over the domain -/

theorem prob_at_domain_value (R : RandSource) (fuel pos : Nat) (d2 : Distribution)
    (h : d2.WF) (hu : isUncertain d2 = true) (t : Nat) :
    prob R fuel (createDistribution 0 0 (d2.constant + 1 + (t : ℚ))) d2 pos =
      .ok (createDistribution 0 0
        (if t + 1 < d2.distribution.length then
          d2.distribution.getD (t + 1) 0 / d2.distribution.sum else 0), pos) := by
  have hcert : isUncertain (createDistribution 0 0 (d2.constant + 1 + (t : ℚ))) = false := rfl
  have hconst : (createDistribution 0 0 (d2.constant + 1 + (t : ℚ))).constant =
      d2.constant + 1 + (t : ℚ) := rfl
  have htr : truncInt (d2.constant + 1 + (t : ℚ) - d2.constant) = ((t + 1 : Nat) : Int) := by
    rw [← truncInt_natCast (t + 1)]
    congr 1
    push_cast
    ring
  have hmax : (d2.constant + 1 + (t : ℚ) < getMax d2) ↔ t + 1 < d2.distribution.length := by
    unfold getMax
    unfold Distribution.WF at h
    rw [← h]
    constructor
    · intro hlt
      have : ((t + 1 : Nat) : ℚ) < (d2.distribution.length : ℚ) := by
        push_cast at hlt ⊢
        linarith
      exact_mod_cast this
    · intro hlt
      have : ((t + 1 : Nat) : ℚ) < (d2.distribution.length : ℚ) := by exact_mod_cast hlt
      push_cast at this ⊢
      linarith
  unfold prob
  simp only [hcert, hconst, hu, Bool.false_eq_true, if_false, if_true, pure_eq_ok, ok_bind,
    htr, getTotalWeight_eq d2 h]
  by_cases hlt : t + 1 < d2.distribution.length
  · rw [if_pos (hmax.2 hlt), if_pos hlt, readAt_nat _ _ hlt]
    rfl
  · rw [if_neg (fun hh => hlt (hmax.1 hh)), if_neg hlt]
theorem probOverDomain_eq (R : RandSource) (fuel pos : Nat) (d2 : Distribution)
    (h : d2.WF) (hu : isUncertain d2 = true) (hp : d2.distribution.sum ≠ 0) :
    probOverDomain R fuel d2 pos =
      .ok (1 - d2.distribution.getD 0 0 / d2.distribution.sum) := by
  obtain ⟨s, hrun, hs⟩ := forRange_inv
    (fun k (acc : ℚ) => acc = ∑ t ∈ Finset.range k,
      d2.distribution.getD (t + 1) 0 / d2.distribution.sum)
    d2.size.toNat (0 : ℚ)
    (fun t acc => do
      let (r, _) ← prob R fuel (createDistribution 0 0 (d2.constant + 1 + (t : ℚ))) d2 pos
      pure (acc + r.constant))
    (by simp) (by
      intro t _ acc hacc
      refine ⟨acc + (if t + 1 < d2.distribution.length then
          d2.distribution.getD (t + 1) 0 / d2.distribution.sum else 0), ?_, ?_⟩
      · dsimp only
        rw [prob_at_domain_value R fuel pos d2 h hu t]
        rfl
      · show _ = _
        rw [Finset.sum_range_succ, hacc]
        congr 1
        by_cases hlt : t + 1 < d2.distribution.length
        · rw [if_pos hlt]
        · rw [if_neg hlt, List.getD_eq_default _ _ (by omega), zero_div])
  unfold probOverDomain
  rw [hrun, hs, WF_toNat h, ← Finset.sum_div]
  congr 1
  have e1 := Finset.sum_range_succ' (fun k => d2.distribution.getD k 0)
    d2.distribution.length
  have e2 := Finset.sum_range_succ (fun k => d2.distribution.getD k 0)
    d2.distribution.length
  rw [e2, ← list_sum_eq_sum_getD, List.getD_eq_default _ _ (le_refl _), add_zero] at e1
  rw [eq_sub_iff_add_eq, div_add_div_same, ← e1, div_self hp]

/-- C33 (the code departs from the claim). For the die 1d6 (six weights 1, constant 0) the
values `prob(v, 1d6)` for `v = 1, ..., 6` are `1/6` five times and `0` for `v = 6`, so
their sum over the domain is `5/6`, not 1: `prob` reads slot `v - constant` instead of
`v - constant - 1` and returns 0 for the largest value, so the weight of slot 0 is
missing from the sum. -/
theorem prob_domain_sum_1d6 (R : RandSource) (fuel pos : Nat) :
    dice R fuel (createDistribution 0 0 1) (createDistribution 0 0 6) pos =
      .ok (createDistribution 6 1 0, pos) ∧
    (List.range 6).map (fun t =>
      prob R fuel (createDistribution 0 0 ((0 : ℚ) + 1 + (t : ℚ))) (createDistribution 6 1 0)
        pos) =
      [.ok (⟨1 / 6, [], 0⟩, pos), .ok (⟨1 / 6, [], 0⟩, pos), .ok (⟨1 / 6, [], 0⟩, pos),
        .ok (⟨1 / 6, [], 0⟩, pos), .ok (⟨1 / 6, [], 0⟩, pos), .ok (⟨0, [], 0⟩, pos)] ∧
    probOverDomain R fuel (createDistribution 6 1 0) pos = .ok (5 / 6) :=
  ⟨by with_unfolding_all rfl, by with_unfolding_all rfl, by with_unfolding_all rfl⟩
/-! ## C31: the live count and the released temporaries -/

theorem counted_result_frame (x : Except Fault Distribution) (w w' : World)
    (r : Distribution)
    (h : (x >>= fun d => Except.ok
      (d, { w with active_distribution_count := w.active_distribution_count + 1 })) =
        .ok (r, w')) :
    w'.active_distribution_count = w.active_distribution_count + 1 ∧
      w'.released = w.released := by
  obtain ⟨d, _, h⟩ := bind_eq_ok _ _ _ h
  injection h with h
  injection h with _ h2
  rw [← h2]
  exact ⟨rfl, rfl⟩

theorem addL_frame (d1 d2 r : Distribution) (w w' : World) (h : addL d1 d2 w = .ok (r, w')) :
    w'.active_distribution_count = w.active_distribution_count + 1 ∧
      w'.released = w.released := by
  rw [addL_eq] at h
  exact counted_result_frame _ w w' r h

theorem timesL_frame (d1 d2 r : Distribution) (w w' : World)
    (h : timesL d1 d2 w = .ok (r, w')) :
    w'.active_distribution_count = w.active_distribution_count + 1 ∧
      w'.released = w.released := by
  rw [timesL_eq] at h
  exact counted_result_frame _ w w' r h

theorem avgL_frame (d r : Distribution) (w w' : World) (h : avgL d w = .ok (r, w')) :
    w'.active_distribution_count = w.active_distribution_count + 1 ∧
      w'.released = w.released := by
  rw [avgL_eq] at h
  exact counted_result_frame _ w w' r h
/-- A completed `prob` leaves one distribution more and releases exactly the rolled
value of an uncertain first operand. -/
theorem probL_frame (R : RandSource) (fuel : Nat) (d1 d2 r : Distribution) (w w' : World)
    (h : probL R fuel d1 d2 w = .ok (r, w')) :
    w'.active_distribution_count = w.active_distribution_count + 1 ∧
    ∃ rolled : List Distribution, w'.released = w.released ++ rolled ∧
      rolled.length = (if isUncertain d1 = true then 1 else 0) := by
  refine ⟨probL_count R fuel d1 d2 r w w' h, ?_⟩
  unfold probL at h
  have key : ∀ (c : ℚ) (w1 : World),
      (if isUncertain d2 = true then
          if c < getMax d2 then do
            let probability ← readAt d2.distribution (truncInt (c - d2.constant))
            let total ← getTotalWeight d2
            pure (createDistributionL 0 0 (probability / total) w1)
          else pure (createDistributionL 0 0 0 w1)
        else if c = d2.constant then pure (createDistributionL 0 0 1 w1)
          else pure (createDistributionL 0 0 0 w1)) = Except.ok (r, w') →
      w'.released = w1.released := by
    intro c w1 hk
    split at hk
    · split at hk
      · obtain ⟨x, _, hk⟩ := bind_eq_ok _ _ _ hk
        obtain ⟨T, _, hk⟩ := bind_eq_ok _ _ _ hk
        injection hk with hk
        injection hk with _ h2
        rw [← h2]
      · injection hk with hk
        injection hk with _ h2
        rw [← h2]
    · split at hk
      · injection hk with hk
        injection hk with _ h2
        rw [← h2]
      · injection hk with hk
        injection hk with _ h2
        rw [← h2]
  cases hu : isUncertain d1
  · rw [hu] at h
    simp only [Bool.false_eq_true, if_false, pure_eq_ok, ok_bind] at h
    exact ⟨[], by rw [key d1.constant w h, List.append_nil], rfl⟩
  · rw [hu, if_pos rfl] at h
    cases hr : rollL R fuel d1 w with
    | error e => rw [hr] at h; cases h
    | ok v =>
      have hc := (rollL_frame R fuel d1 v.1 w v.2 hr).2.1
      rw [hr] at h
      simp only [ok_bind, pure_eq_ok] at h
      refine ⟨[v.1], ?_, rfl⟩
      rw [key d1.constant (deleteDistributionL v.1 v.2) h]
      simp only [deleteDistributionL, hc]

/-- A completed `dice` releases the rolled value of each uncertain operand and then, on
the early-return path (a count or a number of faces that is 0), nothing more; on the
normal path with count `c1` and `c2` faces it releases `c1 - 1` accumulators and, last,
the uniform die `createDistribution c2 1 0`. -/
theorem diceL_released (R : RandSource) (fuel : Nat) (d1 d2 r : Distribution) (w w' : World)
    (h : diceL R fuel d1 d2 w = .ok (r, w')) :
    ∃ (rolled : List Distribution) (c1 c2 : Int),
      rolled.length = (if isUncertain d1 = true then 1 else 0) +
        (if isUncertain d2 = true then 1 else 0) ∧
      (((c1 = 0 ∨ c2 = 0) ∧ r = createDistribution 0 0 0 ∧
          w'.released = w.released ++ rolled) ∨
        (¬ (c1 = 0 ∨ c2 = 0) ∧ ∃ accs : List Distribution, accs.length = (c1 - 1).toNat ∧
          w'.released = w.released ++ rolled ++ accs ++ [createDistribution c2 1 0])) := by
  unfold diceL at h
  have key : ∀ (c1 c2 : Int) (w1 : World),
      (if c1 = 0 ∨ c2 = 0 then pure (createDistributionL 0 0 0 w1)
        else do
          let (d3, w) := createDistributionL c2 1 0 w1
          let (d_add, w) := createDistributionL c2 1 0 w
          let (d3, w) ← forRange (c1 - 1).toNat (d3, w) fun _ st => do
            let (d3_temp, w) ← addL st.1 d_add st.2
            let w := deleteDistributionL st.1 w
            pure (d3_temp, w)
          let w := deleteDistributionL d_add w
          pure (d3, w)) = Except.ok (r, w') →
      ((c1 = 0 ∨ c2 = 0) ∧ r = createDistribution 0 0 0 ∧ w'.released = w1.released) ∨
        (¬ (c1 = 0 ∨ c2 = 0) ∧ ∃ accs : List Distribution, accs.length = (c1 - 1).toNat ∧
          w'.released = w1.released ++ accs ++ [createDistribution c2 1 0]) := by
    intro c1 c2 w1 hk
    split at hk
    · rename_i hz
      injection hk with hk
      injection hk with h1 h2
      exact Or.inl ⟨hz, h1.symm, by rw [← h2]⟩
    · rename_i hz
      simp only [createDistributionL] at hk
      obtain ⟨st, hl, hk⟩ := bind_eq_ok _ _ _ hk
      have hinv := forRange_ok_inv
        (fun t (st : Distribution × World) =>
          ∃ accs : List Distribution, accs.length = t ∧
            st.2.released = w1.released ++ accs)
        (c1 - 1).toNat _ _ ⟨[], rfl, by simp⟩
        (by
          intro t _ s s' hs hb
          obtain ⟨u, ha, hb⟩ := bind_eq_ok _ _ _ hb
          have hcu := (addL_frame _ _ u.1 s.2 u.2 ha).2
          simp only [pure_eq_ok] at hb
          injection hb with hb
          obtain ⟨accs, hlen, hrel⟩ := hs
          refine ⟨accs ++ [s.1], by rw [List.length_append, hlen]; rfl, ?_⟩
          rw [← hb]
          simp only [deleteDistributionL, hcu, hrel, List.append_assoc])
        st hl
      obtain ⟨accs, hlen, hrel⟩ := hinv
      simp only [pure_eq_ok] at hk
      injection hk with hk
      injection hk with _ h'
      refine Or.inr ⟨hz, accs, hlen, ?_⟩
      rw [← h']
      simp only [deleteDistributionL, hrel]
  cases hu1 : isUncertain d1
  · cases hu2 : isUncertain d2
    · rw [hu1, hu2] at h
      simp only [Bool.false_eq_true, if_false, pure_eq_ok, ok_bind] at h
      rcases key _ _ w h with ⟨hz, hr, hrel⟩ | ⟨hz, accs, hlen, hrel⟩
      · exact ⟨[], _, _, rfl, Or.inl ⟨hz, hr, by rw [hrel, List.append_nil]⟩⟩
      · exact ⟨[], _, _, rfl, Or.inr ⟨hz, accs, hlen, by rw [hrel, List.append_nil]⟩⟩
    · rw [hu1, hu2] at h
      simp only [Bool.false_eq_true, if_false, if_true, pure_eq_ok, ok_bind] at h
      cases hr : rollL R fuel d2 w with
      | error e => rw [hr] at h; cases h
      | ok v =>
        have hc := (rollL_frame R fuel d2 v.1 w v.2 hr).2.1
        rw [hr] at h
        simp only [ok_bind] at h
        rcases key _ _ (deleteDistributionL v.1 v.2) h with
          ⟨hz, hr, hrel⟩ | ⟨hz, accs, hlen, hrel⟩
        · exact ⟨[v.1], _, _, rfl,
            Or.inl ⟨hz, hr, by rw [hrel]; simp only [deleteDistributionL, hc]⟩⟩
        · exact ⟨[v.1], _, _, rfl,
            Or.inr ⟨hz, accs, hlen, by rw [hrel]; simp only [deleteDistributionL, hc]⟩⟩
  · rw [hu1, if_pos rfl] at h
    cases hr1 : rollL R fuel d1 w with
    | error e => rw [hr1] at h; cases h
    | ok v1 =>
      have hc1 := (rollL_frame R fuel d1 v1.1 w v1.2 hr1).2.1
      rw [hr1] at h
      simp only [ok_bind, pure_eq_ok] at h
      cases hu2 : isUncertain d2
      · rw [hu2] at h
        simp only [Bool.false_eq_true, if_false, ok_bind] at h
        rcases key _ _ (deleteDistributionL v1.1 v1.2) h with
          ⟨hz, hr, hrel⟩ | ⟨hz, accs, hlen, hrel⟩
        · exact ⟨[v1.1], _, _, rfl,
            Or.inl ⟨hz, hr, by rw [hrel]; simp only [deleteDistributionL, hc1]⟩⟩
        · exact ⟨[v1.1], _, _, rfl,
            Or.inr ⟨hz, accs, hlen, by rw [hrel]; simp only [deleteDistributionL, hc1]⟩⟩
      · rw [hu2, if_pos rfl] at h
        cases hr2 : rollL R fuel d2 (deleteDistributionL v1.1 v1.2) with
        | error e => rw [hr2] at h; cases h
        | ok v2 =>
          have hc2 := (rollL_frame R fuel d2 v2.1 _ v2.2 hr2).2.1
          rw [hr2] at h
          simp only [ok_bind] at h
          rcases key _ _ (deleteDistributionL v2.1 v2.2) h with
            ⟨hz, hr, hrel⟩ | ⟨hz, accs, hlen, hrel⟩
          · exact ⟨[v1.1, v2.1], _, _, rfl, Or.inl ⟨hz, hr, by
              rw [hrel]
              simp only [deleteDistributionL, hc2, hc1, List.append_assoc,
                List.singleton_append]⟩⟩
          · exact ⟨[v1.1, v2.1], _, _, rfl, Or.inr ⟨hz, accs, hlen, by
              rw [hrel]
              simp only [deleteDistributionL, hc2, hc1, List.append_assoc,
                List.singleton_append]⟩⟩
/-- C31. Whenever one of `add`, `times`, `avg`, `roll`, `prob`, `dice` returns, the live
count is exactly one higher than before the call (the returned distribution: every
temporary that was created has been released). `add`, `times`, `avg` and `roll` release
nothing; `prob` releases exactly the rolled value of an uncertain first operand; `dice`
releases the rolled value of each uncertain operand and then, on its early-return path
(count or faces equal to 0) nothing more, on its normal path the `c1 - 1` intermediate
accumulators and, last, the uniform die `createDistribution c2 1 0`. -/
theorem live_count_after_call (R : RandSource) (fuel : Nat) (d1 d2 : Distribution)
    (w : World) :
    (∀ r w', addL d1 d2 w = .ok (r, w') →
      w'.active_distribution_count = w.active_distribution_count + 1 ∧
        w'.released = w.released) ∧
    (∀ r w', timesL d1 d2 w = .ok (r, w') →
      w'.active_distribution_count = w.active_distribution_count + 1 ∧
        w'.released = w.released) ∧
    (∀ r w', avgL d1 w = .ok (r, w') →
      w'.active_distribution_count = w.active_distribution_count + 1 ∧
        w'.released = w.released) ∧
    (∀ r w', rollL R fuel d1 w = .ok (r, w') →
      w'.active_distribution_count = w.active_distribution_count + 1 ∧
        w'.released = w.released) ∧
    (∀ r w', probL R fuel d1 d2 w = .ok (r, w') →
      w'.active_distribution_count = w.active_distribution_count + 1 ∧
        ∃ rolled : List Distribution, w'.released = w.released ++ rolled ∧
          rolled.length = (if isUncertain d1 = true then 1 else 0)) ∧
    (∀ r w', diceL R fuel d1 d2 w = .ok (r, w') →
      w'.active_distribution_count = w.active_distribution_count + 1 ∧
        ∃ (rolled : List Distribution) (c1 c2 : Int),
          rolled.length = (if isUncertain d1 = true then 1 else 0) +
            (if isUncertain d2 = true then 1 else 0) ∧
          (((c1 = 0 ∨ c2 = 0) ∧ r = createDistribution 0 0 0 ∧
              w'.released = w.released ++ rolled) ∨
            (¬ (c1 = 0 ∨ c2 = 0) ∧
              ∃ accs : List Distribution, accs.length = (c1 - 1).toNat ∧
                w'.released =
                  w.released ++ rolled ++ accs ++ [createDistribution c2 1 0]))) :=
  ⟨fun r w' h => addL_frame d1 d2 r w w' h,
    fun r w' h => timesL_frame d1 d2 r w w' h,
    fun r w' h => avgL_frame d1 r w w' h,
    fun r w' h => ⟨(rollL_frame R fuel d1 r w w' h).1, (rollL_frame R fuel d1 r w w' h).2.1⟩,
    fun r w' h => probL_frame R fuel d1 d2 r w w' h,
    fun r w' h => ⟨diceL_count R fuel d1 d2 r w w' h, diceL_released R fuel d1 d2 r w w' h⟩⟩
/-- Instance of C31 at `samplePair` (twice) in the initial state with the random source
`sampleHighDraws`: all six calls return; and `dice` on its early-return path, at
`samplePair` and the certain 0. -/
theorem live_count_after_call_witness :
    (∃ r w', addL samplePair samplePair initialWorld = .ok (r, w') ∧
      w'.active_distribution_count = initialWorld.active_distribution_count + 1 ∧
      w'.released = initialWorld.released) ∧
    (∃ r w', timesL samplePair samplePair initialWorld = .ok (r, w') ∧
      w'.active_distribution_count = initialWorld.active_distribution_count + 1 ∧
      w'.released = initialWorld.released) ∧
    (∃ r w', avgL samplePair initialWorld = .ok (r, w') ∧
      w'.active_distribution_count = initialWorld.active_distribution_count + 1 ∧
      w'.released = initialWorld.released) ∧
    (∃ r w', rollL sampleHighDraws 10 samplePair initialWorld = .ok (r, w') ∧
      w'.active_distribution_count = initialWorld.active_distribution_count + 1 ∧
      w'.released = initialWorld.released) ∧
    (∃ r w', probL sampleHighDraws 10 samplePair samplePair initialWorld = .ok (r, w') ∧
      w'.active_distribution_count = initialWorld.active_distribution_count + 1) ∧
    (∃ r w', diceL sampleHighDraws 10 samplePair samplePair initialWorld = .ok (r, w') ∧
      w'.active_distribution_count = initialWorld.active_distribution_count + 1 ∧
      w'.released = [⟨2, [], 0⟩, ⟨2, [], 0⟩, createDistribution 2 1 0,
        createDistribution 2 1 0]) ∧
    (∃ r w', diceL sampleHighDraws 10 samplePair (createDistribution 0 0 0) initialWorld =
        .ok (r, w') ∧
      w'.active_distribution_count = initialWorld.active_distribution_count + 1 ∧
      w'.released = [⟨2, [], 0⟩]) := by
  have T := live_count_after_call sampleHighDraws 10 samplePair samplePair initialWorld
  have T0 := live_count_after_call sampleHighDraws 10 samplePair (createDistribution 0 0 0)
    initialWorld
  have hadd : addL samplePair samplePair initialWorld =
      .ok (⟨0, [0, 9 / 16, 3 / 8, 1 / 16], 4⟩, ⟨1, [], 0⟩) := by with_unfolding_all rfl
  have htimes : timesL samplePair samplePair initialWorld =
      .ok (⟨0, [9 / 16, 3 / 8, 0, 1 / 16], 4⟩, ⟨1, [], 0⟩) := by with_unfolding_all rfl
  have havg : avgL samplePair initialWorld = .ok (⟨1 / 4, [], 0⟩, ⟨1, [], 0⟩) := by
    with_unfolding_all rfl
  have hroll : rollL sampleHighDraws 10 samplePair initialWorld =
      .ok (⟨2, [], 0⟩, ⟨1, [], 1⟩) := by with_unfolding_all rfl
  have hprob : probL sampleHighDraws 10 samplePair samplePair initialWorld =
      .ok (⟨3 / 4, [], 0⟩, ⟨1, [⟨2, [], 0⟩], 1⟩) := by with_unfolding_all rfl
  have hdice : diceL sampleHighDraws 10 samplePair samplePair initialWorld =
      .ok (⟨0, [0, 1 / 4, 1 / 2, 1 / 4], 4⟩,
        ⟨1, [⟨2, [], 0⟩, ⟨2, [], 0⟩, createDistribution 2 1 0, createDistribution 2 1 0],
          2⟩) := by with_unfolding_all rfl
  have hzero : diceL sampleHighDraws 10 samplePair (createDistribution 0 0 0) initialWorld =
      .ok (⟨0, [], 0⟩, ⟨1, [⟨2, [], 0⟩], 1⟩) := by with_unfolding_all rfl
  exact ⟨⟨_, _, hadd, T.1 _ _ hadd⟩, ⟨_, _, htimes, T.2.1 _ _ htimes⟩,
    ⟨_, _, havg, T.2.2.1 _ _ havg⟩, ⟨_, _, hroll, T.2.2.2.1 _ _ hroll⟩,
    ⟨_, _, hprob, (T.2.2.2.2.1 _ _ hprob).1⟩,
    ⟨_, _, hdice, (T.2.2.2.2.2 _ _ hdice).1, rfl⟩,
    ⟨_, _, hzero, (T0.2.2.2.2.2 _ _ hzero).1, rfl⟩⟩

/-! ## C32: the sampler and the slots of weight 0 -/

theorem chooseSection_first (R : RandSource) (g : ScanState) (a b : Int) (W : ℚ) (pos : Nat)
    (h : (R.rand pos : Int) ≤ truncInt ((R.RAND_MAX : ℚ) * (g.weight_section1 / W))) :
    chooseSection R g a b W pos =
      ⟨if a = g.divider then a + 1 else a, g.divider, g.weight_section1, pos + 1⟩ := by
  unfold chooseSection
  dsimp only
  rw [if_pos h]
  by_cases h1 : a = g.divider
  · simp only [h1, if_true]
  · by_cases h2 : b = g.divider
    · simp only [h1, h2, if_true, if_false]
    · simp only [h1, h2, if_false]

theorem chooseSection_second (R : RandSource) (g : ScanState) (a b : Int) (W : ℚ) (pos : Nat)
    (h : ¬ (R.rand pos : Int) ≤ truncInt ((R.RAND_MAX : ℚ) * (g.weight_section1 / W))) :
    chooseSection R g a b W pos =
      ⟨g.divider + 1, if a = g.divider then b else if b = g.divider then b - 1 else b,
        g.weight_section2, pos + 1⟩ := by
  unfold chooseSection
  dsimp only
  rw [if_neg h]
  by_cases h1 : a = g.divider
  · simp only [h1, if_true]
  · by_cases h2 : b = g.divider
    · simp only [h1, h2, if_true, if_false]
    · simp only [h1, h2, if_false]

/-- On an inverted slice the sampler returns no index: without fuel it stops, with fuel
the scan sets no divider and the guard reads `prob[-1]`. -/
theorem divideAndRoll_inverted (R : RandSource) (fuel : Nat) (prob : List ℚ) (s e : Int)
    (W : ℚ) (pos : Nat) (h : e < s) (v : Int × Nat) :
    divideAndRoll R fuel prob s e W pos ≠ .ok v := by
  cases fuel with
  | zero =>
    rw [divideAndRoll]
    intro hc; cases hc
  | succ n =>
    rw [divideAndRoll_succ, if_neg (by omega)]
    have hn : (e - s + 1).toNat = 0 := by omega
    have hnext : nextCall R prob s e W pos = .error Fault.outOfBounds := by
      unfold nextCall scanSections
      rw [hn, forRange_zero]
      rfl
    rw [hnext]
    intro hc; cases hc

/-- On a slice of two or more weights that are all 0, called with weight 0, the sampler
returns no index: the scan sets no divider and the guard reads `prob[-1]`. -/
theorem divideAndRoll_zero_slice (R : RandSource) (fuel : Nat) (prob : List ℚ) (a b : Nat)
    (pos : Nat) (hab : a < b) (hb : b < prob.length)
    (hz : ∀ u, u < b - a + 1 → prob.getD (a + u) 0 = 0) (v : Int × Nat) :
    divideAndRoll R fuel prob (a : Int) (b : Int) 0 pos ≠ .ok v := by
  cases fuel with
  | zero =>
    rw [divideAndRoll]
    intro hc; cases hc
  | succ n =>
    rw [divideAndRoll_succ, if_neg (by omega)]
    have hn : ((b : Int) - (a : Int) + 1).toNat = b - a + 1 := by omega
    obtain ⟨s, hrun, hP⟩ := forRange_inv
      (fun _ (s : ScanState) => s = ⟨0, 0, -1⟩)
      (b - a + 1)
      ({ weight_section1 := 0, weight_section2 := 0, divider := -1 } : ScanState)
      (fun t s => do
        let i : Int := (a : Int) + (t : Int)
        let x ← readAt prob i
        if s.divider = -1 then
          let w1 := s.weight_section1 + x
          if w1 > (1 / 2 : ℚ) * (0 : ℚ) then
            pure { s with weight_section1 := w1, divider := i }
          else
            pure { s with weight_section1 := w1 }
        else
          pure { s with weight_section2 := s.weight_section2 + x })
      rfl (by
        intro t ht s hs'
        have hin : a + t < prob.length := by omega
        have hread : readAt prob ((a : Int) + (t : Int)) = .ok (prob.getD (a + t) 0) := by
          rw [← Nat.cast_add]; exact readAt_nat prob (a + t) hin
        refine ⟨s, ?_, hs'⟩
        subst hs'
        simp only [hread, hz t ht, ok_bind, if_true, add_zero, mul_zero, gt_iff_lt,
          lt_self_iff_false, if_false, pure_eq_ok])
    have hnext : nextCall R prob (a : Int) (b : Int) 0 pos = .error Fault.outOfBounds := by
      unfold nextCall scanSections
      rw [hn, hrun, hP]
      rfl
    rw [hnext]
    intro hc; cases hc

theorem slice_sum_split (f : Nat → ℚ) (a b c : Nat) (hab : a ≤ b) (hac : a ≤ c)
    (hcb : c ≤ b + 1) :
    ∑ u ∈ Finset.range (b - a + 1), f (a + u) =
      ∑ u ∈ Finset.range (c - a), f (a + u) + ∑ u ∈ Finset.range (b + 1 - c), f (c + u) := by
  have e : b - a + 1 = (c - a) + (b + 1 - c) := by omega
  rw [e, Finset.sum_range_add]
  congr 1
  apply Finset.sum_congr rfl
  intro u _
  congr 1
  omega

theorem chooseSection_cases (R : RandSource) (g : ScanState) (a b : Int) (W : ℚ) (pos : Nat) :
    chooseSection R g a b W pos =
        ⟨if a = g.divider then a + 1 else a, g.divider, g.weight_section1, pos + 1⟩ ∨
      chooseSection R g a b W pos =
        ⟨g.divider + 1, if a = g.divider then b else if b = g.divider then b - 1 else b,
          g.weight_section2, pos + 1⟩ := by
  by_cases h : (R.rand pos : Int) ≤ truncInt ((R.RAND_MAX : ℚ) * (g.weight_section1 / W))
  · exact Or.inl (chooseSection_first R g a b W pos h)
  · exact Or.inr (chooseSection_second R g a b W pos h)

/-- Every index that the sampler returns on an in-bounds slice `[a, b]` of non-negative
weights with sum `sectionWeight > 0` lies in the slice and has positive weight. (The runs
that enter a section of weight 0 or an inverted slice return no index.) -/
theorem divideAndRoll_index_positive (R : RandSource) (prob : List ℚ)
    (hnn : ∀ x ∈ prob, 0 ≤ x) :
    ∀ (fuel a b : Nat) (W : ℚ) (pos : Nat) (idx : Int) (p : Nat), a ≤ b → b < prob.length →
      ∑ u ∈ Finset.range (b - a + 1), prob.getD (a + u) 0 = W → 0 < W →
      divideAndRoll R fuel prob (a : Int) (b : Int) W pos = .ok (idx, p) →
      ∃ k : Nat, idx = (k : Int) ∧ a ≤ k ∧ k ≤ b ∧ 0 < prob.getD k 0 := by
  have hge : ∀ k : Nat, 0 ≤ prob.getD k 0 := by
    intro k
    by_cases hk : k < prob.length
    · rw [List.getD_eq_getElem _ _ hk]; exact hnn _ (List.getElem_mem _)
    · rw [List.getD_eq_default _ _ (by omega)]
  intro fuel
  induction fuel with
  | zero =>
    intro a b W pos idx p _ _ _ _ h
    rw [divideAndRoll] at h
    cases h
  | succ n ih =>
    intro a b W pos idx p hab hb hW hpos h
    rw [divideAndRoll_succ] at h
    by_cases heq : (a : Int) = (b : Int)
    · rw [if_pos heq] at h
      injection h with h
      injection h with h1 _
      have hab' : a = b := by omega
      subst hab'
      refine ⟨a, h1.symm, le_refl _, le_refl _, ?_⟩
      rw [Nat.sub_self, zero_add, Finset.sum_range_one, add_zero] at hW
      rw [hW]; exact hpos
    · rw [if_neg heq] at h
      obtain ⟨s, j, hs, hj, hd, hw1, hgt, hprev, hsum⟩ :=
        scanSections_spec prob a b W hab hb hW hpos
      obtain ⟨c, hc, h⟩ := bind_eq_ok _ _ _ h
      simp only [nextCall, hs, ok_bind] at hc
      have hxpos : 0 < prob.getD (a + j) 0 := by
        rw [Finset.sum_range_succ] at hw1
        linarith
      by_cases hw2 : s.weight_section2 = 0
      · have hg : degenerateGuard prob s = .ok ⟨s.weight_section1 - prob.getD (a + j) 0,
            s.weight_section2 + prob.getD (a + j) 0, s.divider - 1⟩ := by
          unfold degenerateGuard
          rw [if_pos hw2, hd, readAt_nat prob (a + j) (by omega)]
          rfl
        rw [hg] at hc
        simp only [ok_bind, pure_eq_ok] at hc
        injection hc with hc
        have hW1 : s.weight_section1 = W := by rw [← hsum, hw2, add_zero]
        rcases chooseSection_cases R ⟨s.weight_section1 - prob.getD (a + j) 0,
            s.weight_section2 + prob.getD (a + j) 0, s.divider - 1⟩ (a : Int) (b : Int) W pos
          with hcs | hcs
        · rw [hcs] at hc
          rw [← hc] at h
          dsimp only at h
          rw [hd] at h
          by_cases hj1 : j ≤ 1
          · exfalso
            refine divideAndRoll_inverted R n prob _ _ _ _ ?_ _ h
            split <;> omega
          · have hne : ¬ ((a : Int) = ((a + j : Nat) : Int) - 1) := by omega
            rw [if_neg hne] at h
            have he : (((a + j : Nat) : Int) - 1) = ((a + j - 1 : Nat) : Int) := by omega
            rw [he] at h
            have hS : ∑ u ∈ Finset.range (a + j - 1 - a + 1), prob.getD (a + u) 0 =
                s.weight_section1 - prob.getD (a + j) 0 := by
              have : a + j - 1 - a + 1 = j := by omega
              rw [this, hw1, Finset.sum_range_succ]; ring
            by_cases hS0 : s.weight_section1 - prob.getD (a + j) 0 = 0
            · exfalso
              rw [hS0] at h hS
              refine divideAndRoll_zero_slice R n prob a (a + j - 1) _ (by omega) (by omega)
                ?_ _ h
              intro u hu
              exact (Finset.sum_eq_zero_iff_of_nonneg (fun i _ => hge (a + i))).1 hS u
                (Finset.mem_range.2 hu)
            · have hSpos : 0 < s.weight_section1 - prob.getD (a + j) 0 := by
                refine lt_of_le_of_ne ?_ (Ne.symm hS0)
                rw [← hS]
                exact Finset.sum_nonneg (fun i _ => hge (a + i))
              obtain ⟨k, hk, hk1, hk2, hk3⟩ :=
                ih a (a + j - 1) _ _ idx p (by omega) (by omega) hS hSpos h
              exact ⟨k, hk, hk1, by omega, hk3⟩
        · rw [hcs] at hc
          rw [← hc] at h
          dsimp only at h
          rw [hd] at h
          have hend : (if (a : Int) = ((a + j : Nat) : Int) - 1 then (b : Int)
              else if (b : Int) = ((a + j : Nat) : Int) - 1 then (b : Int) - 1 else (b : Int))
              = (b : Int) := by
            split
            · rfl
            · rw [if_neg (by omega)]
          have hst : ((a + j : Nat) : Int) - 1 + 1 = ((a + j : Nat) : Int) := by omega
          rw [hend, hst, hw2, zero_add] at h
          have hS : ∑ u ∈ Finset.range (b - (a + j) + 1), prob.getD (a + j + u) 0 =
              prob.getD (a + j) 0 := by
            have hsplit := slice_sum_split (fun k => prob.getD k 0) a b (a + j) hab
              (by omega) (by omega)
            have e1 : a + j - a = j := by omega
            have e2 : b + 1 - (a + j) = b - (a + j) + 1 := by omega
            rw [hW, e1, e2] at hsplit
            rw [Finset.sum_range_succ] at hw1
            linarith
          obtain ⟨k, hk, hk1, hk2, hk3⟩ :=
            ih (a + j) b _ _ idx p (by omega) hb hS hxpos h
          exact ⟨k, hk, by omega, hk2, hk3⟩
      · have hg : degenerateGuard prob s = .ok s := by
          unfold degenerateGuard
          rw [if_neg hw2]
          rfl
        rw [hg] at hc
        simp only [ok_bind, pure_eq_ok] at hc
        injection hc with hc
        have hjlt : j < b - a := by
          rcases Nat.lt_or_ge j (b - a) with hlt | hge'
          · exact hlt
          · exfalso
            have hjeq : j = b - a := by omega
            rw [hjeq, hW] at hw1
            rw [hw1] at hsum
            exact hw2 (by linarith)
        have hS2 : ∑ u ∈ Finset.range (b - (a + j + 1) + 1), prob.getD (a + j + 1 + u) 0 =
            s.weight_section2 := by
          have hsplit := slice_sum_split (fun k => prob.getD k 0) a b (a + j + 1) hab
            (by omega) (by omega)
          have e1 : a + j + 1 - a = j + 1 := by omega
          have e2 : b + 1 - (a + j + 1) = b - (a + j + 1) + 1 := by omega
          rw [hW, e1, e2] at hsplit
          linarith
        rcases chooseSection_cases R s (a : Int) (b : Int) W pos with hcs | hcs
        · rw [hcs] at hc
          rw [← hc] at h
          dsimp only at h
          rw [hd] at h
          by_cases hj0 : j = 0
          · exfalso
            refine divideAndRoll_inverted R n prob _ _ _ _ ?_ _ h
            split <;> omega
          · have hne : ¬ ((a : Int) = ((a + j : Nat) : Int)) := by omega
            rw [if_neg hne] at h
            have hS : ∑ u ∈ Finset.range (a + j - a + 1), prob.getD (a + u) 0 =
                s.weight_section1 := by
              have : a + j - a + 1 = j + 1 := by omega
              rw [this, hw1]
            obtain ⟨k, hk, hk1, hk2, hk3⟩ :=
              ih a (a + j) _ _ idx p (by omega) (by omega) hS (by linarith) h
            exact ⟨k, hk, hk1, by omega, hk3⟩
        · rw [hcs] at hc
          rw [← hc] at h
          dsimp only at h
          rw [hd] at h
          have hend : (if (a : Int) = ((a + j : Nat) : Int) then (b : Int)
              else if (b : Int) = ((a + j : Nat) : Int) then (b : Int) - 1 else (b : Int))
              = (b : Int) := by
            split
            · rfl
            · rw [if_neg (by omega)]
          have hst : ((a + j : Nat) : Int) + 1 = ((a + j + 1 : Nat) : Int) := by omega
          rw [hend, hst] at h
          have hpos2 : 0 < s.weight_section2 := by
            refine lt_of_le_of_ne ?_ (Ne.symm hw2)
            rw [← hS2]
            exact Finset.sum_nonneg (fun i _ => hge (a + j + 1 + i))
          obtain ⟨k, hk, hk1, hk2, hk3⟩ :=
            ih (a + j + 1) b _ _ idx p (by omega) hb hS2 hpos2 h
          exact ⟨k, hk, by omega, hk2, hk3⟩

/-- Every run of `roll` that returns, on an uncertain distribution with non-negative
weights and positive total weight, returns `constant + 1 + k` for an index `k` of the
table whose weight is positive. -/
theorem roll_returned_index_positive (R : RandSource) (fuel : Nat) (d : Distribution)
    (pos : Nat) (r : Distribution) (p : Nat) (h : d.WF) (hu : isUncertain d = true)
    (hnn : ∀ x ∈ d.distribution, 0 ≤ x) (hp : 0 < d.distribution.sum)
    (hr : roll R fuel d pos = .ok (r, p)) :
    ∃ k : Nat, k < d.distribution.length ∧
      r = createDistribution 0 0 (d.constant + (1 + (k : ℚ))) ∧
      0 < d.distribution.getD k 0 := by
  have hlen : 0 < d.distribution.length := by
    have : d.size > 0 := by simpa [isUncertain] using hu
    unfold Distribution.WF at h
    omega
  have hsz : d.size - 1 = ((d.distribution.length - 1 : Nat) : Int) := by
    unfold Distribution.WF at h
    omega
  unfold roll at hr
  rw [hu, if_pos rfl, getTotalWeight_eq d h] at hr
  simp only [ok_bind] at hr
  obtain ⟨v, hv, hr⟩ := bind_eq_ok _ _ _ hr
  rw [hsz] at hv
  have hW : ∑ u ∈ Finset.range (d.distribution.length - 1 - 0 + 1),
      d.distribution.getD (0 + u) 0 = d.distribution.sum := by
    have e : d.distribution.length - 1 - 0 + 1 = d.distribution.length := by omega
    rw [e, list_sum_eq_sum_getD]
    apply Finset.sum_congr rfl
    intro u _
    rw [zero_add]
  obtain ⟨k, hk, _, hk2, hk3⟩ := divideAndRoll_index_positive R d.distribution hnn fuel 0
    (d.distribution.length - 1) d.distribution.sum pos v.1 v.2 (Nat.zero_le _) (by omega)
    hW hp hv
  simp only [pure_eq_ok] at hr
  injection hr with hr
  injection hr with h1 _
  refine ⟨k, by omega, ?_, hk3⟩
  rw [← h1, hk]
  rfl

/-- C32 (the code departs from the claim). The table of `1d1 * 3` is `[0, 0, 1]`
(non-negative weights, total 1). At the top level of the sampler the guard leaves
section 1 = slots 0 and 1 with weight 0, so `rand_part1 = 0`; a draw of 0 passes the test
`rand() <= rand_part1` and the sampler recurses into that section of weight 0, where the
scan sets no divider and `prob[-1]` is read: `roll` returns no index of positive weight.
The same happens on the table `[0, 1]` of `1d1 * 2`, where the section of weight 0 is
entered as the inverted slice `[1, 0]`. (A run that does return gives an index of
positive weight: `roll_returned_index_positive`.) -/
theorem sampler_enters_zero_weight_section (fuel : Nat) :
    times (createDistribution 1 1 0) (createDistribution 0 0 3) = .ok ⟨0, [0, 0, 1], 3⟩ ∧
    scanSections [0, 0, 1] 0 2 1 = .ok ⟨1, 0, 2⟩ ∧
    degenerateGuard [0, 0, 1] ⟨1, 0, 2⟩ = .ok ⟨0, 1, 1⟩ ∧
    nextCall sampleLowDraws [0, 0, 1] 0 2 1 0 = .ok ⟨0, 1, 0, 1⟩ ∧
    roll sampleLowDraws (fuel + 2) ⟨0, [0, 0, 1], 3⟩ 0 = .error Fault.outOfBounds ∧
    times (createDistribution 1 1 0) (createDistribution 0 0 2) = .ok ⟨0, [0, 1], 2⟩ ∧
    nextCall sampleLowDraws [0, 1] 0 1 1 0 = .ok ⟨1, 0, 0, 1⟩ ∧
    roll sampleLowDraws (fuel + 2) ⟨0, [0, 1], 2⟩ 0 = .error Fault.outOfBounds :=
  ⟨by with_unfolding_all rfl, by with_unfolding_all rfl, by with_unfolding_all rfl,
    by with_unfolding_all rfl, by with_unfolding_all rfl, by with_unfolding_all rfl,
    by with_unfolding_all rfl, by with_unfolding_all rfl⟩

/-! ## C30: the index policy of `times` -/

theorem doubleToInt_of_inIntRange (q : ℚ) (h : inIntRange q) : doubleToInt q = truncInt q :=
  doubleToInt_eq q h.1 h.2

theorem mem_outcomeTable_uncertain (d : Distribution) (hu : isUncertain d = true) (i : Nat)
    (hi : i < d.size.toNat) :
    (d.constant + (i : ℚ) + 1, d.distribution.getD i 0 / d.distribution.sum)
      ∈ outcomeTable d := by
  unfold outcomeTable
  rw [hu, if_pos rfl]
  exact List.mem_map.2 ⟨i, List.mem_range.2 hi, rfl⟩

theorem mem_outcomeTable_certain (d : Distribution) (hu : isUncertain d = false) :
    (d.constant, (1 : ℚ)) ∈ outcomeTable d := by
  unfold outcomeTable
  rw [hu]
  simp

/-- C30 (as stated, refuted). `(1d1 + 0.5) * (1d1 + 0.5)`: both operands have the single
outcome 3/2, so `trunc(v1 * v2) - 1 = trunc(9/4) - 1 = 1`, but `times` truncates
each constant first and writes the weight to index `(0 + 0 + 1) * (0 + 0 + 1) - 1
= 0`. And for `(1d1 + 3000000000) * 1` the product of the outcome values, `3000000001`,
is outside the range of `int`: the index that `times` computes by converting it is not
`trunc(v1 * v2) - 1 = 3000000000`. -/
theorem times_truncates_constants_first :
    productIndex (sampleShifted.constant + ((0 : Nat) : ℚ) + 1)
      (sampleShifted.constant + ((0 : Nat) : ℚ) + 1) = 1 ∧
    timesByProductIndex sampleShifted sampleShifted = .ok ⟨0, [0, 1], 2⟩ ∧
    times sampleShifted sampleShifted = .ok ⟨0, [1, 0], 2⟩ ∧
    productIndex (sampleLarge.constant + ((0 : Nat) : ℚ) + 1) 1 = 3000000000 ∧
    doubleToInt (((((0 : Nat) : ℚ) + sampleLarge.constant) + 1) * 1) - 1 = -2147483649 :=
  ⟨by with_unfolding_all rfl, by with_unfolding_all rfl, by with_unfolding_all rfl,
    by with_unfolding_all rfl, by with_unfolding_all rfl⟩

/-- C30 (amended). With at least one uncertain operand, every product of outcome values
`v1 * v2` being in the range of `int` and, when both operands are uncertain, the two
constants being in that range: when exactly one operand is uncertain every write of
`times` goes to the index `trunc(v1 * v2) - 1` (also with non-integer constants); when
both operands are uncertain every write goes to
`(i + trunc c1 + 1) * (j + trunc c2 + 1) - 1`, each constant being truncated before the
multiplication (also with non-integer constants), which is `trunc(v1 * v2) - 1` when the
constants are integers. -/
theorem times_index_policy (d1 d2 : Distribution)
    (_hunc : isUncertain d1 = true ∨ isUncertain d2 = true)
    (hprod : ∀ p1 ∈ outcomeTable d1, ∀ p2 ∈ outcomeTable d2, inIntRange (p1.1 * p2.1))
    (hconst : isUncertain d1 = true → isUncertain d2 = true →
      inIntRange d1.constant ∧ inIntRange d2.constant) :
    times d1 d2 = timesByTruncatedConstants d1 d2 ∧
    ((isUncertain d1 = false ∨ isUncertain d2 = false) →
      times d1 d2 = timesByProductIndex d1 d2) ∧
    ((∃ z1 : Int, d1.constant = (z1 : ℚ)) → (∃ z2 : Int, d2.constant = (z2 : ℚ)) →
      times d1 d2 = timesByProductIndex d1 d2) := by
  cases hu1 : isUncertain d1 <;> cases hu2 : isUncertain d2
  · refine ⟨?_, fun _ => ?_, fun _ _ => ?_⟩ <;>
      simp only [times, timesByTruncatedConstants, timesByProductIndex, hu1, hu2,
        Bool.not_false, Bool.and_self, if_true]
  · have key : times d1 d2 = timesByProductIndex d1 d2 := by
      simp only [times, timesByProductIndex, hu1, hu2, Bool.not_false, Bool.not_true,
        Bool.and_self, Bool.and_true, Bool.true_and, Bool.and_false, Bool.false_and,
        Bool.false_eq_true, if_true, if_false]
      congr 1
      funext W
      congr 1
      apply forRange_congr
      intro i hi s
      have hin := hprod _ (mem_outcomeTable_certain d1 hu1) _
        (mem_outcomeTable_uncertain d2 hu2 i hi)
      dsimp only at hin
      have e : (((i : ℚ) + d2.constant) + 1) * d1.constant
          = d1.constant * (d2.constant + (i : ℚ) + 1) := by ring
      rw [e, doubleToInt_of_inIntRange _ hin]
      rfl
    refine ⟨?_, fun _ => key, fun _ _ => key⟩
    rw [key]
    simp only [timesByTruncatedConstants, timesByProductIndex, hu1, hu2, Bool.not_false,
      Bool.not_true, Bool.and_self, Bool.and_true, Bool.true_and, Bool.and_false,
      Bool.false_and, Bool.false_eq_true, if_true, if_false]
  · have key : times d1 d2 = timesByProductIndex d1 d2 := by
      simp only [times, timesByProductIndex, hu1, hu2, Bool.not_false, Bool.not_true,
        Bool.and_self, Bool.and_true, Bool.true_and, Bool.and_false, Bool.false_and,
        Bool.false_eq_true, if_true, if_false]
      congr 1
      funext W
      congr 1
      apply forRange_congr
      intro i hi s
      have hin := hprod _ (mem_outcomeTable_uncertain d1 hu1 i hi) _
        (mem_outcomeTable_certain d2 hu2)
      dsimp only at hin
      have e : (((i : ℚ) + d1.constant) + 1) * d2.constant
          = (d1.constant + (i : ℚ) + 1) * d2.constant := by ring
      rw [e, doubleToInt_of_inIntRange _ hin]
      rfl
    refine ⟨?_, fun _ => key, fun _ _ => key⟩
    rw [key]
    simp only [timesByTruncatedConstants, timesByProductIndex, hu1, hu2, Bool.not_false,
      Bool.not_true, Bool.and_self, Bool.and_true, Bool.true_and, Bool.and_false,
      Bool.false_and, Bool.false_eq_true, if_true, if_false]
  · obtain ⟨hr1, hr2⟩ := hconst hu1 hu2
    have key : times d1 d2 = timesByTruncatedConstants d1 d2 := by
      simp only [times, timesByTruncatedConstants, hu1, hu2, Bool.not_false, Bool.not_true,
        Bool.and_self, Bool.and_true, Bool.true_and, Bool.and_false, Bool.false_and,
        Bool.false_eq_true, if_true, if_false, doubleToInt_of_inIntRange _ hr1,
        doubleToInt_of_inIntRange _ hr2]
    refine ⟨key, fun h => ?_, fun ⟨z1, hz1⟩ ⟨z2, hz2⟩ => ?_⟩
    · rcases h with h | h <;> exact absurd h (by decide)
    · rw [key]
      have e : ∀ i j : Nat,
          ((i : Int) + truncInt d1.constant + 1) * ((j : Int) + truncInt d2.constant + 1) - 1
            = productIndex (d1.constant + (i : ℚ) + 1) (d2.constant + (j : ℚ) + 1) := by
        intro i j
        unfold productIndex
        rw [hz1, hz2, truncInt_intCast, truncInt_intCast,
          show ((z1 : ℚ) + (i : ℚ) + 1) * ((z2 : ℚ) + (j : ℚ) + 1)
            = ((((i : Int) + z1 + 1) * ((j : Int) + z2 + 1) : Int) : ℚ) by push_cast; ring,
          truncInt_intCast]
      simp only [timesByTruncatedConstants, timesByProductIndex, hu1, hu2, e, Bool.not_false,
        Bool.not_true, Bool.and_self, Bool.and_true, Bool.true_and, Bool.and_false,
        Bool.false_and, Bool.false_eq_true, if_true, if_false]

theorem sampleShifted_products_inIntRange (d : Distribution)
    (hd : ∀ p ∈ outcomeTable d, p.1 = 3 / 2) :
    ∀ p1 ∈ outcomeTable sampleShifted, ∀ p2 ∈ outcomeTable d, inIntRange (p1.1 * p2.1) := by
  intro p1 hp1 p2 hp2
  have e1 : p1.1 = 3 / 2 := by
    simp [outcomeTable, sampleShifted, isUncertain] at hp1
    rw [← hp1]; norm_num
  rw [e1, hd p2 hp2]
  exact ⟨by with_unfolding_all decide, by with_unfolding_all decide⟩

/-- Instance of C30 (amended): the uncertain `1d1 + 0.5` times the certain 3/2, and
`1d1 + 0.5` times itself (both uncertain, constants not integers). -/
theorem times_index_policy_witness :
    (times sampleShifted sampleThreeHalves =
        timesByTruncatedConstants sampleShifted sampleThreeHalves ∧
      ((isUncertain sampleShifted = false ∨ isUncertain sampleThreeHalves = false) →
        times sampleShifted sampleThreeHalves =
          timesByProductIndex sampleShifted sampleThreeHalves) ∧
      ((∃ z1 : Int, sampleShifted.constant = (z1 : ℚ)) →
        (∃ z2 : Int, sampleThreeHalves.constant = (z2 : ℚ)) →
        times sampleShifted sampleThreeHalves =
          timesByProductIndex sampleShifted sampleThreeHalves)) ∧
    times sampleShifted sampleShifted = timesByTruncatedConstants sampleShifted sampleShifted :=
  ⟨times_index_policy sampleShifted sampleThreeHalves (Or.inl rfl)
      (sampleShifted_products_inIntRange sampleThreeHalves (by
        intro p hp
        simp [outcomeTable, sampleThreeHalves, isUncertain, createDistribution] at hp
        rw [hp]))
      (fun _ h => Bool.noConfusion h),
    (times_index_policy sampleShifted sampleShifted (Or.inl rfl)
      (sampleShifted_products_inIntRange sampleShifted (by
        intro p hp
        simp [outcomeTable, sampleShifted, isUncertain] at hp
        rw [← hp]; norm_num))
      (fun _ _ => ⟨⟨by with_unfolding_all decide, by with_unfolding_all decide⟩,
        ⟨by with_unfolding_all decide, by with_unfolding_all decide⟩⟩)).1⟩

end DiceLang
